import Mathlib

/-!
Verification development for the rustyrogue dungeon engine.

Shallow embedding of the core map / visibility / curse / generator code:
  * `src/tile.rs`           — the `Tile` variant model and its predicates
  * `src/map/mod.rs`        — the Point-based `Map` (grid, FOV, curses, doors)
  * `src/map.rs`            — the older flat `Map` variant (bounds-checked get/set)
  * `src/generator/map.rs`  — the BSP `MapGenerator`
  * `src/generator/room.rs` — `Room` population

Modelling conventions:
  * `usize` coordinates become `Nat`; the `i32` arithmetic of the FOV scan and
    Bresenham rays is carried out in `Int`, with `Int.toNat` at the points where
    the Rust code casts back with `as usize`.
  * A Rust `Vec<Vec<Tile>>` becomes `List (List Tile)`.  Unchecked indexing
    `tiles[y][x]` (which panics out of bounds) is modelled in two ways: the
    public `get_tile` / `set_tile` of `src/map/mod.rs` return `Option`
    (`none` = index panic), while the internal helper `tileAt` totalises the
    access with the `Empty` default — every internal call site in the Rust code
    only ever touches in-bounds cells, where the two agree (`get_tile_eq_tileAt`).
  * `HashSet<Point>` becomes `List Point` with membership-preserving insertion;
    all operations folded over such a list are order-independent at the points
    where the claims look.
  * `rand::thread_rng()` becomes an explicit oracle `Rng` holding one stream per
    draw shape (`bool`, ranged integer, unit-interval real).  The unit-interval
    `f64` draws compared against literal probabilities are modelled as rationals;
    only the comparison outcome ever flows onward.  A finite stream continues
    with default draws once exhausted.
-/

/-- `Point` from `src/map/types.rs`: an `(x, y)` pair of `usize` coordinates. -/
structure Point where
  x : Nat
  y : Nat
deriving DecidableEq, Repr, Inhabited

/-- `Tile` from `src/tile.rs`.  Constructor argument order follows the field
order of the Rust struct variants.  The Rust enum is referenced with a
`Column { visible }` variant by `src/generator/room.rs` and `src/map/mod.rs`
although the snapshot of `src/tile.rs` omits it; it is included here with the
shape those call sites use.  `Door`'s `open` field is named `isOpen` because
`open` is a Lean keyword. -/
inductive Tile where
  | Archway (locked : Bool)
  | Stairs (visible up : Bool)
  | Wall (visible : Bool)
  | Floor (visible cursed : Bool)
  | Player (isDead isCursed : Bool)
  | Door (visible isOpen : Bool)
  | Secret (visible : Bool) (rarity : Nat)
  | SecretFloor (visible : Bool)
  | Obelisk (visible curse : Bool) (fov damageHp reduceFovRadius : Nat)
  | Pit (visible : Bool)
  | Wither (visible : Bool) (hp damage fov : Nat)
  | Bat (visible : Bool) (hp damage fov : Nat)
  | Brute (visible : Bool) (hp damage fov : Nat)
  | Column (visible : Bool)
  | Empty
deriving DecidableEq, Repr, Inhabited

/-- `Tile::is_walkable` from `src/tile.rs`: false for walls, secrets, obelisks;
an archway is walkable iff unlocked; a door iff open; everything else true. -/
def Tile.is_walkable : Tile → Bool
  | .Wall _ => false
  | .Secret _ _ => false
  | .Obelisk _ _ _ _ _ => false
  | .Archway locked => !locked
  | .Door _ o => o
  | _ => true

/-- The grid type `GameMapTiles = Vec<Vec<Tile>>` from `src/map/types.rs`. -/
abbrev Grid := List (List Tile)

/-- The `Map` of `src/map/mod.rs`: the tile grid plus the `visible_tiles` set
(modelled as a list with membership-preserving insertion). -/
structure Map where
  tiles : Grid
  visible : List Point
deriving DecidableEq, Repr, Inhabited

/-- `Map::width`: `tiles[0].len()` (the Rust code indexes row 0 directly and
would panic on an empty grid; `headD` totalises that corner). -/
def Map.width (m : Map) : Nat := (m.tiles.headD []).length

/-- `Map::height`: `tiles.len()`. -/
def Map.height (m : Map) : Nat := m.tiles.length

/-- Total in-bounds cell read, the meaning of `tiles[y][x]` at the internal
call sites (which only ever access in-bounds cells).  Out of bounds it yields
`Empty` where Rust would panic; `get_tile` below models the panic itself. -/
def Map.tileAt (m : Map) (p : Point) : Tile := ((m.tiles.getD p.y []).getD p.x .Empty)

/-- Total in-bounds cell write: `tiles[y][x] = t`.  `List.set` leaves the list
unchanged out of range, matching the fact that the Rust call sites only write
in-bounds cells. -/
def Map.setTileAt (m : Map) (p : Point) (t : Tile) : Map :=
  { m with tiles := m.tiles.set p.y ((m.tiles.getD p.y []).set p.x t) }

/-- `Map::get_tile` from `src/map/mod.rs`: `tiles[position.y][position.x]`
with no bounds check; `none` models the out-of-bounds index panic. -/
def Map.get_tile (m : Map) (p : Point) : Option Tile :=
  (m.tiles.get? p.y).bind fun row => row.get? p.x

/-- `Map::set_tile` from `src/map/mod.rs`: unchecked `tiles[y][x] = tile`;
`none` models the out-of-bounds index panic. -/
def Map.set_tile (m : Map) (p : Point) (t : Tile) : Option Map :=
  match m.tiles.get? p.y with
  | none => none
  | some row =>
    match row.get? p.x with
    | none => none
    | some _ => some { m with tiles := m.tiles.set p.y (row.set p.x t) }

/-- `Map::is_walkable` from `src/map/mod.rs`: `tiles[y][x].is_walkable()`
(unchecked index; claims only apply it at in-bounds points). -/
def Map.is_walkable (m : Map) (p : Point) : Bool := (m.tileAt p).is_walkable

/-- `Map::interact_tile` from `src/map/mod.rs`: toggle a door's `open` flag in
place, keeping `visible`; any other tile is untouched. -/
def Map.interact_tile (m : Map) (p : Point) : Map :=
  match m.tileAt p with
  | .Door v o => m.setTileAt p (.Door v (!o))
  | _ => m

/-- `Map::get_tile` of the older flat variant `src/map.rs`:
`tiles.get(y).and_then(|row| row.get(x)).copied().unwrap_or(Tile::Empty)`. -/
def mapRsGetTile (tiles : Grid) (x y : Nat) : Tile :=
  (((tiles.get? y).bind fun row => row.get? x).getD .Empty)

/-- `Map::set_tile` of the older flat variant `src/map.rs`: write only when
both indices are in range, otherwise leave the grid unchanged. -/
def mapRsSetTile (tiles : Grid) (x y : Nat) (t : Tile) : Grid :=
  match tiles.get? y with
  | none => tiles
  | some row =>
    match row.get? x with
    | none => tiles
    | some _ => tiles.set y (row.set x t)

section ListLemmas

variable {α : Type _}

theorem getD_eq_default_of_le (l : List α) (d : α) {i : Nat} (h : l.length ≤ i) :
    l.getD i d = d := by
  induction l generalizing i with
  | nil => simp [List.getD]
  | cons a l ih =>
    cases i with
    | zero => simp at h
    | succ j =>
      simp only [List.getD_cons_succ]
      exact ih (Nat.le_of_succ_le_succ h)

theorem getD_set_self (l : List α) (d a : α) {i : Nat} (h : i < l.length) :
    (l.set i a).getD i d = a := by
  induction l generalizing i with
  | nil => simp at h
  | cons b l ih =>
    cases i with
    | zero => rfl
    | succ j =>
      simp only [List.set_cons_succ, List.getD_cons_succ]
      exact ih (Nat.lt_of_succ_lt_succ h)

theorem getD_set_ne (l : List α) (d a : α) {i j : Nat} (h : i ≠ j) :
    (l.set i a).getD j d = l.getD j d := by
  induction l generalizing i j with
  | nil => rfl
  | cons b l ih =>
    cases i with
    | zero =>
      cases j with
      | zero => exact absurd rfl h
      | succ k => rfl
    | succ i' =>
      cases j with
      | zero => rfl
      | succ k =>
        simp only [List.set_cons_succ, List.getD_cons_succ]
        exact ih fun hc => h (by omega)

theorem getD_lt_length_of_ne_default (l : List α) (d : α) {i : Nat}
    (h : l.getD i d ≠ d) : i < l.length := by
  by_contra hc
  exact h (getD_eq_default_of_le l d (Nat.le_of_not_lt hc))

theorem set_eq_self_of_le (l : List α) (a : α) {i : Nat} (h : l.length ≤ i) :
    l.set i a = l := by
  induction l generalizing i with
  | nil => rfl
  | cons b l ih =>
    cases i with
    | zero => simp at h
    | succ j =>
      simp only [List.set_cons_succ]
      rw [ih (Nat.le_of_succ_le_succ h)]

theorem get?_eq_some_getD (l : List α) (d : α) {i : Nat} (h : i < l.length) :
    l.get? i = some (l.getD i d) := by
  induction l generalizing i with
  | nil => simp at h
  | cons a l ih =>
    cases i with
    | zero => rfl
    | succ j =>
      simp only [List.get?_cons_succ, List.getD_cons_succ]
      exact ih (Nat.lt_of_succ_lt_succ h)

end ListLemmas

section MapBasic

/-- Rust's unchecked `tiles[y][x]` read agrees with the totalised `tileAt` at
every in-bounds cell. -/
theorem get_tile_eq_tileAt (m : Map) (p : Point) (hy : p.y < m.tiles.length)
    (hx : p.x < (m.tiles.getD p.y []).length) :
    m.get_tile p = some (m.tileAt p) := by
  unfold Map.get_tile Map.tileAt
  rw [get?_eq_some_getD m.tiles [] hy]
  exact get?_eq_some_getD _ Tile.Empty hx

theorem tileAt_setTileAt_self (m : Map) (p : Point) (t : Tile)
    (hy : p.y < m.tiles.length) (hx : p.x < (m.tiles.getD p.y []).length) :
    (m.setTileAt p t).tileAt p = t := by
  unfold Map.setTileAt Map.tileAt
  simp only
  rw [getD_set_self _ _ _ hy]
  exact getD_set_self _ _ _ hx

theorem tileAt_setTileAt_ne (m : Map) (p q : Point) (t : Tile) (h : p ≠ q) :
    (m.setTileAt p t).tileAt q = m.tileAt q := by
  obtain ⟨px, py⟩ := p
  obtain ⟨qx, qy⟩ := q
  unfold Map.setTileAt Map.tileAt
  by_cases hy : py = qy
  · subst hy
    have hx : px ≠ qx := fun hc => h (by simp [hc])
    by_cases hylen : py < m.tiles.length
    · rw [getD_set_self _ _ _ hylen, getD_set_ne _ _ _ hx]
    · rw [set_eq_self_of_le _ _ (Nat.le_of_not_lt hylen)]
  · rw [getD_set_ne _ _ _ hy]

theorem setTileAt_tiles_length (m : Map) (p : Point) (t : Tile) :
    (m.setTileAt p t).tiles.length = m.tiles.length := by
  unfold Map.setTileAt; simp

theorem setTileAt_height (m : Map) (p : Point) (t : Tile) :
    (m.setTileAt p t).height = m.height := setTileAt_tiles_length m p t

theorem setTileAt_width (m : Map) (p : Point) (t : Tile) :
    (m.setTileAt p t).width = m.width := by
  unfold Map.setTileAt Map.width
  simp only
  cases htl : m.tiles with
  | nil => simp
  | cons r rs =>
    cases p.y with
    | zero => simp [htl, Map.tileAt]
    | succ n => simp [htl]

theorem setTileAt_visible (m : Map) (p : Point) (t : Tile) :
    (m.setTileAt p t).visible = m.visible := rfl

theorem setTileAt_rowlen (m : Map) (p : Point) (t : Tile) (j : Nat) :
    ((m.setTileAt p t).tiles.getD j []).length = (m.tiles.getD j []).length := by
  unfold Map.setTileAt
  simp only
  by_cases hj : p.y = j
  · subst hj
    by_cases hy : p.y < m.tiles.length
    · rw [getD_set_self _ _ _ hy]; simp
    · rw [List.set_eq_of_length_le (Nat.le_of_not_lt hy)]
  · rw [getD_set_ne _ _ _ hj]

end MapBasic

/-- The three-way opacity classification from `Map::is_opaque` in
`src/map/mod.rs` as a pure function of the tile (the Rust name is avoided only
because of an identifier restriction of this development's tooling).
`byObelisk`: walls, closed doors, columns and pits block; `isPlayerCursed`:
walls, closed doors, columns, secrets and mobs block (cursed floor does not);
default: additionally `Floor { cursed: true }` blocks. -/
def opaqueTile (t : Tile) (byObelisk isPlayerCursed : Bool) : Bool :=
  if byObelisk then
    match t with
    | .Wall _ | .Door _ false | .Column _ | .Pit _ => true
    | _ => false
  else if isPlayerCursed then
    match t with
    | .Wall _ | .Door _ false | .Column _ | .Secret _ _
    | .Wither _ _ _ _ | .Bat _ _ _ _ | .Brute _ _ _ _ => true
    | _ => false
  else
    match t with
    | .Wall _ | .Floor _ true | .Door _ false | .Column _ | .Secret _ _
    | .Wither _ _ _ _ | .Bat _ _ _ _ | .Brute _ _ _ _ => true
    | _ => false

/-- `Map::is_opaque` applied at a grid point. -/
def Map.opaqueAt (m : Map) (p : Point) (byObelisk isPlayerCursed : Bool) : Bool :=
  opaqueTile (m.tileAt p) byObelisk isPlayerCursed

/-- The per-tile effect of `Map::update_tile_visibility`: rewrite the tile
with the new `visible` flag.  The `Player` arm of the Rust code writes
`is_cursed: false` unconditionally; the fall-through `_ => {}` arm leaves
`Archway`, `Stairs`, `Column` and `Empty` untouched. -/
def updateVisTile : Tile → Bool → Tile
  | .Wall _, v => .Wall v
  | .Pit _, v => .Pit v
  | .Floor _ c, v => .Floor v c
  | .Secret _ r, v => .Secret v r
  | .SecretFloor _, v => .SecretFloor v
  | .Door _ o, v => .Door v o
  | .Obelisk _ c f d r, v => .Obelisk v c f d r
  | .Wither _ hp dm f, v => .Wither v hp dm f
  | .Bat _ hp dm f, v => .Bat v hp dm f
  | .Brute _ hp dm f, v => .Brute v hp dm f
  | .Player d _, _ => .Player d false
  | t, _ => t

/-- Whether `Map::update_tile_visibility` has a rewriting arm for this tile
variant (everything except the `_ => {}` fall-through: `Archway`, `Stairs`,
`Column`, `Empty`). -/
def visRewritten : Tile → Bool
  | .Archway _ => false
  | .Stairs _ _ => false
  | .Column _ => false
  | .Empty => false
  | _ => true

/-- The stored `visible` flag of a tile, when the variant has one. -/
def visFlag : Tile → Option Bool
  | .Stairs v _ => some v
  | .Wall v => some v
  | .Floor v _ => some v
  | .Door v _ => some v
  | .Secret v _ => some v
  | .SecretFloor v => some v
  | .Obelisk v _ _ _ _ => some v
  | .Pit v => some v
  | .Wither v _ _ _ => some v
  | .Bat v _ _ _ => some v
  | .Brute v _ _ _ => some v
  | .Column v => some v
  | _ => none

/-- `Map::update_tile_visibility` from `src/map/mod.rs`: match on the current
tile and write it back with the new flag; the first four arms are the Rust
`_ => {}` fall-through. -/
def Map.update_tile_visibility (m : Map) (p : Point) (v : Bool) : Map :=
  match m.tileAt p with
  | .Archway _ => m
  | .Stairs _ _ => m
  | .Column _ => m
  | .Empty => m
  | t => m.setTileAt p (updateVisTile t v)

/-- A cell holding a non-`Empty` tile is in bounds (the converse direction of
the `Empty` default of `tileAt`). -/
theorem tileAt_ne_empty_bounds (m : Map) (p : Point) (h : m.tileAt p ≠ .Empty) :
    p.y < m.tiles.length ∧ p.x < (m.tiles.getD p.y []).length := by
  unfold Map.tileAt at h
  refine ⟨?_, getD_lt_length_of_ne_default _ _ h⟩
  by_contra hc
  rw [getD_eq_default_of_le m.tiles [] (Nat.le_of_not_lt hc)] at h
  exact h rfl

theorem tileAt_utv_self (m : Map) (p : Point) (v : Bool) :
    (m.update_tile_visibility p v).tileAt p = updateVisTile (m.tileAt p) v := by
  unfold Map.update_tile_visibility
  cases ht : m.tileAt p <;>
    first
      | exact ht
      | exact tileAt_setTileAt_self m p _ (tileAt_ne_empty_bounds m p (by simp [ht])).1
          (tileAt_ne_empty_bounds m p (by simp [ht])).2

theorem tileAt_utv_ne (m : Map) (p q : Point) (v : Bool) (h : p ≠ q) :
    (m.update_tile_visibility p v).tileAt q = m.tileAt q := by
  unfold Map.update_tile_visibility
  cases ht : m.tileAt p <;>
    first
      | rfl
      | exact tileAt_setTileAt_ne m p q _ h

theorem tileAt_utv (m : Map) (p q : Point) (v : Bool) :
    (m.update_tile_visibility p v).tileAt q =
      if p = q then updateVisTile (m.tileAt p) v else m.tileAt q := by
  by_cases h : p = q
  · subst h; rw [if_pos rfl]; exact tileAt_utv_self m p v
  · rw [if_neg h]; exact tileAt_utv_ne m p q v h

theorem utv_visible (m : Map) (p : Point) (v : Bool) :
    (m.update_tile_visibility p v).visible = m.visible := by
  unfold Map.update_tile_visibility
  cases ht : m.tileAt p <;> rfl

theorem utv_height (m : Map) (p : Point) (v : Bool) :
    (m.update_tile_visibility p v).height = m.height := by
  unfold Map.update_tile_visibility
  cases ht : m.tileAt p <;> first | rfl | exact setTileAt_height m p _

theorem utv_width (m : Map) (p : Point) (v : Bool) :
    (m.update_tile_visibility p v).width = m.width := by
  unfold Map.update_tile_visibility
  cases ht : m.tileAt p <;> first | rfl | exact setTileAt_width m p _

theorem utv_rowlen (m : Map) (p : Point) (v : Bool) (j : Nat) :
    ((m.update_tile_visibility p v).tiles.getD j []).length =
      (m.tiles.getD j []).length := by
  unfold Map.update_tile_visibility
  cases ht : m.tileAt p <;> first | rfl | exact setTileAt_rowlen m p _ j

/-- Rewriting the `visible` flag of a tile never changes what any of the three
opacity predicates say about it. -/
theorem opaqueTile_updateVisTile (t : Tile) (v ob c : Bool) :
    opaqueTile (updateVisTile t v) ob c = opaqueTile t ob c := by
  cases ob <;> cases c <;> cases t <;> try rfl
  all_goals (rename_i a b; cases b <;> rfl)

theorem updateVisTile_idem (t : Tile) (v : Bool) :
    updateVisTile (updateVisTile t v) v = updateVisTile t v := by
  cases t <;> rfl

/-- Rewriting the `visible` flag preserves which match arm
`update_tile_visibility` takes. -/
theorem visRewritten_updateVisTile (t : Tile) (v : Bool) :
    visRewritten (updateVisTile t v) = visRewritten t := by
  cases t <;> rfl

theorem visFlag_updateVisTile (t : Tile) (v : Bool) (h : visRewritten t = true)
    (hf : (visFlag t).isSome = true) : visFlag (updateVisTile t v) = some v := by
  cases t <;> first | rfl | exact (Bool.false_ne_true hf).elim | simp [visRewritten] at h

/-- The loop body of `Map::has_line_of_sight` (integer Bresenham from
`src/map/mod.rs`).  `x1 y1` is the target, `dx dy sx sy` are the constants the
Rust code computes before the loop, the last three arguments are the mutable
`x0 y0 err`.  The fuel argument bounds the iteration count; the loop is known
to reach the target within `|Δx| + |Δy| + 1` iterations (each iteration steps
at least one coordinate towards the target), so the fuel passed by
`has_line_of_sight` below is never exhausted and `losAux` agrees with the Rust
loop.  The target cell itself is never tested for opacity; the observer cell is. -/
def losAux (m : Map) (x1 y1 dx dy sx sy : Int) (ob c : Bool) :
    Nat → Int → Int → Int → Bool
  | 0, _, _, _ => false
  | fuel + 1, x0, y0, err =>
    if x0 = x1 ∧ y0 = y1 then true
    else if m.opaqueAt ⟨x0.toNat, y0.toNat⟩ ob c then false
    else
      let e2 := 2 * err
      let x0' := if e2 ≥ dy then x0 + sx else x0
      let err1 := if e2 ≥ dy then err + dy else err
      let y0' := if e2 ≤ dx then y0 + sy else y0
      let err2 := if e2 ≤ dx then err1 + dx else err1
      losAux m x1 y1 dx dy sx sy ob c fuel x0' y0' err2

/-- `Map::has_line_of_sight` from `src/map/mod.rs`: rasterize the segment from
`(x0, y0)` to `(x1, y1)` with Bresenham's algorithm; the target is visible iff
no rasterized cell before it is opaque under the chosen predicate. -/
def Map.has_line_of_sight (m : Map) (x0 y0 x1 y1 : Nat) (ob c : Bool) : Bool :=
  let xi : Int := x0
  let yi : Int := y0
  let xt : Int := x1
  let yt : Int := y1
  let dx : Int := (xt - xi).natAbs
  let dy : Int := -(((yt - yi).natAbs : Int))
  let sx : Int := if xi < xt then 1 else -1
  let sy : Int := if yi < yt then 1 else -1
  losAux m xt yt dx dy sx sy ob c (dx.toNat + dy.natAbs + 1) xi yi (dx + dy)

/-- `Map::clear_visible_tiles`: drain the `visible_tiles` set and reset each
drained point's `visible` flag to false. -/
def Map.clear_visible_tiles (m : Map) : Map :=
  m.visible.foldl (fun acc p => acc.update_tile_visibility p false)
    { m with visible := [] }

/-- `HashSet::insert` on the visible-set model: add the point when absent. -/
def insertPt (p : Point) (l : List Point) : List Point := if p ∈ l then l else p :: l

/-- Whether a tile is a `Player { is_cursed: true, .. }`, the pattern
`Map::update_fov` tests the observer tile against. -/
def isCursedPlayer : Tile → Bool
  | .Player _ true => true
  | _ => false

/-- The integers `-r, …, r` in order: the `-(fov_radius as i32)..=fov_radius`
loop range. -/
def offRange (r : Nat) : List Int :=
  (List.range (2 * r + 1)).map fun (i : Nat) => (i : Int) - (r : Int)

/-- The `(dy, dx)` offset enumeration of the `update_fov` /
`calculate_curse_area` double loops: `dy` outer from `-r` to `r`, `dx` inner. -/
def fovOffsets (r : Nat) : List (Int × Int) :=
  (offRange r).bind fun dy => (offRange r).map fun dx => (dy, dx)

theorem mem_offRange (r : Nat) (a : Int) :
    a ∈ offRange r ↔ -(r : Int) ≤ a ∧ a ≤ r := by
  unfold offRange
  rw [List.mem_map]
  constructor
  · rintro ⟨i, hi, rfl⟩
    rw [List.mem_range] at hi
    omega
  · rintro ⟨h1, h2⟩
    exact ⟨(a + r).toNat, by rw [List.mem_range]; omega, by omega⟩

/-- One iteration of the `update_fov` double loop: range test, bounds test,
line of sight from the observer, then insert into the visible-set and flip the
tile's flag. -/
def fovStep (pov : Point) (r : Nat) (c : Bool) (acc : Map) (d : Int × Int) : Map :=
  if d.2 * d.2 + d.1 * d.1 ≤ (r : Int) * (r : Int) then
    let x : Int := (pov.x : Int) + d.2
    let y : Int := (pov.y : Int) + d.1
    if 0 ≤ x ∧ x < (acc.width : Int) ∧ 0 ≤ y ∧ y < (acc.height : Int)
        ∧ acc.has_line_of_sight pov.x pov.y x.toNat y.toNat false c = true then
      let pt : Point := ⟨x.toNat, y.toNat⟩
      Map.update_tile_visibility { acc with visible := insertPt pt acc.visible } pt true
    else acc
  else acc

/-- The scan phase of `Map::update_fov`, after the clear pass, with the
observer-cursed flag already computed. -/
def Map.update_fov_core (m : Map) (pov : Point) (r : Nat) (c : Bool) : Map :=
  (fovOffsets r).foldl (fovStep pov r c) m

/-- `Map::update_fov` from `src/map/mod.rs`: clear the previous visible set,
read whether the observer tile is a cursed player (note: after the clear
pass), then scan the radius. -/
def Map.update_fov (m : Map) (pov : Point) (r : Nat) : Map :=
  let m1 := m.clear_visible_tiles
  m1.update_fov_core pov r (isCursedPlayer (m1.tileAt pov))

/-- Row-major enumeration of the `for y in 0..height { for x in 0..width }`
loops of `clear_curse_from_all_tiles` / `apply_obelisk_curses`. -/
def gridPoints (m : Map) : List Point :=
  (List.range m.height).bind fun y => (List.range m.width).map fun x => (⟨x, y⟩ : Point)

/-- One step of `Map::clear_curse_from_all_tiles`: reset a cursed floor's or a
cursed player's curse flag. -/
def clearCurseStep (acc : Map) (p : Point) : Map :=
  match acc.tileAt p with
  | .Floor v true => acc.setTileAt p (.Floor v false)
  | .Player d true => acc.setTileAt p (.Player d false)
  | _ => acc

/-- `Map::clear_curse_from_all_tiles` from `src/map/mod.rs`. -/
def Map.clear_curse_from_all_tiles (m : Map) : Map :=
  (gridPoints m).foldl clearCurseStep m

/-- `Map::calculate_curse_area` from `src/map/mod.rs`: all in-bounds cells
within the squared-distance radius that have line of sight *to* the obelisk
center under the by-obelisk predicate, inserted into the accumulator set. -/
def Map.calculate_curse_area (m : Map) (center : Point) (radius : Nat)
    (acc : List Point) : List Point :=
  (fovOffsets radius).foldl (fun s d =>
    if d.2 * d.2 + d.1 * d.1 ≤ (radius : Int) * (radius : Int) then
      let x : Int := (center.x : Int) + d.2
      let y : Int := (center.y : Int) + d.1
      if 0 ≤ x ∧ x < (m.width : Int) ∧ 0 ≤ y ∧ y < (m.height : Int)
          ∧ m.has_line_of_sight x.toNat y.toNat center.x center.y true false = true then
        insertPt ⟨x.toNat, y.toNat⟩ s
      else s
    else s) acc

/-- One write of the second pass of `apply_obelisk_curses`: floors get
`cursed = true`, the player gets `is_cursed = true`, all else untouched. -/
def curseWriteStep (acc : Map) (p : Point) : Map :=
  match acc.tileAt p with
  | .Floor v _ => acc.setTileAt p (.Floor v true)
  | .Player d _ => acc.setTileAt p (.Player d true)
  | _ => acc

/-- `Map::apply_obelisk_curses` from `src/map/mod.rs`: clear all curse flags,
collect the curse areas of all `Obelisk { curse: true }` tiles in row-major
scan order, then apply the curse to every collected cell. -/
def Map.apply_obelisk_curses (m : Map) : Map :=
  let m1 := m.clear_curse_from_all_tiles
  let cursed := (gridPoints m1).foldl (fun s p =>
    match m1.tileAt p with
    | .Obelisk _ true fov _ _ => m1.calculate_curse_area p fov s
    | _ => s) []
  cursed.foldl curseWriteStep m1

/-- Row-major cell enumeration with per-row lengths, the iteration order of
`tiles.iter().enumerate()` in `Map::get_obelisk_cursing_tile`. -/
def scanPoints (m : Map) : List Point :=
  (List.range m.tiles.length).bind fun y =>
    (List.range (m.tiles.getD y []).length).map fun x => (⟨x, y⟩ : Point)

/-- Whether a tile matches `Tile::Obelisk { curse: true, .. }`. -/
def isCursingObelisk : Tile → Bool
  | .Obelisk _ true _ _ _ => true
  | _ => false

/-- `Map::get_obelisk_cursing_tile` from `src/map/mod.rs`: the first obelisk in
row-major scan order with `curse == true` and line of sight (by-obelisk
predicate) from the obelisk to `pov`; `None` when there is none. -/
def Map.get_obelisk_cursing_tile (m : Map) (pov : Point) : Option Tile :=
  ((scanPoints m).find? fun q =>
      isCursingObelisk (m.tileAt q)
        && m.has_line_of_sight q.x q.y pov.x pov.y true false).map m.tileAt

section FovSpec

theorem tileAt_set_visible (m : Map) (w : List Point) (q : Point) :
    ({ m with visible := w } : Map).tileAt q = m.tileAt q := rfl

theorem mem_insertPt (p : Point) (l : List Point) (q : Point) :
    q ∈ insertPt p l ↔ q = p ∨ q ∈ l := by
  unfold insertPt
  by_cases h : p ∈ l
  · rw [if_pos h]
    constructor
    · exact Or.inr
    · rintro (rfl | hq)
      · exact h
      · exact hq
  · rw [if_neg h]
    simp [List.mem_cons]

theorem opaqueAt_utv (m : Map) (p q : Point) (v ob c : Bool) :
    (m.update_tile_visibility p v).opaqueAt q ob c = m.opaqueAt q ob c := by
  unfold Map.opaqueAt
  rw [tileAt_utv]
  by_cases h : p = q
  · subst h
    rw [if_pos rfl, opaqueTile_updateVisTile]
  · rw [if_neg h]

/-- Line-of-sight only looks at opacity, so two maps with the same opacity at
every cell agree on every ray. -/
theorem losAux_congr (m m' : Map) (x1 y1 dx dy sx sy : Int) (ob c : Bool)
    (hop : ∀ pt, m'.opaqueAt pt ob c = m.opaqueAt pt ob c) :
    ∀ fuel x0 y0 err,
      losAux m' x1 y1 dx dy sx sy ob c fuel x0 y0 err =
        losAux m x1 y1 dx dy sx sy ob c fuel x0 y0 err := by
  intro fuel
  induction fuel with
  | zero => intro _ _ _; rfl
  | succ n ih =>
    intro x0 y0 err
    unfold losAux
    rw [hop]
    by_cases h1 : x0 = x1 ∧ y0 = y1
    · rw [if_pos h1, if_pos h1]
    · rw [if_neg h1, if_neg h1]
      by_cases h2 : m.opaqueAt ⟨x0.toNat, y0.toNat⟩ ob c = true
      · simp [h2]
      · rw [Bool.not_eq_true] at h2
        simp only [h2, Bool.false_eq_true, if_false]
        exact ih _ _ _

theorem hlos_congr (m m' : Map) (x0 y0 x1 y1 : Nat) (ob c : Bool)
    (hop : ∀ pt, m'.opaqueAt pt ob c = m.opaqueAt pt ob c) :
    m'.has_line_of_sight x0 y0 x1 y1 ob c = m.has_line_of_sight x0 y0 x1 y1 ob c := by
  unfold Map.has_line_of_sight
  exact losAux_congr m m' _ _ _ _ _ _ ob c hop _ _ _ _

/-- A cell sees itself: the Bresenham loop returns on its first iteration. -/
theorem hlos_self (m : Map) (x y : Nat) (ob c : Bool) :
    m.has_line_of_sight x y x y ob c = true := by
  unfold Map.has_line_of_sight losAux
  simp

/-- Whether the FOV-scan iteration for offset `d = (dy, dx)` inserts the point
`q`: the squared-distance test, the bounds test, line of sight on the base map,
and `q` being the offset cell. -/
def hitViaDelta (m1 : Map) (pov : Point) (r : Nat) (c : Bool) (d : Int × Int)
    (q : Point) : Bool :=
  if (d.2 * d.2 + d.1 * d.1 ≤ (r : Int) * (r : Int))
      ∧ 0 ≤ (pov.x : Int) + d.2 ∧ (pov.x : Int) + d.2 < (m1.width : Int)
      ∧ 0 ≤ (pov.y : Int) + d.1 ∧ (pov.y : Int) + d.1 < (m1.height : Int)
      ∧ m1.has_line_of_sight pov.x pov.y ((pov.x : Int) + d.2).toNat
          ((pov.y : Int) + d.1).toNat false c = true
  then decide (q = (⟨((pov.x : Int) + d.2).toNat, ((pov.y : Int) + d.1).toNat⟩ : Point))
  else false

/-- Whether some offset in `L` inserts `q`. -/
def hitInList (m1 : Map) (pov : Point) (r : Nat) (c : Bool) (L : List (Int × Int))
    (q : Point) : Bool :=
  L.any fun d => hitViaDelta m1 pov r c d q

theorem hitInList_append (m1 : Map) (pov : Point) (r : Nat) (c : Bool)
    (L L' : List (Int × Int)) (q : Point) :
    hitInList m1 pov r c (L ++ L') q =
      (hitInList m1 pov r c L q || hitInList m1 pov r c L' q) := by
  unfold hitInList
  exact List.any_append

/-- The direct description of the visible set `update_fov` computes over the
cleared map `m1`: in bounds, within squared distance `r²` of the observer, and
line of sight from the observer under the chosen predicate. -/
def inFovSet (m1 : Map) (pov : Point) (r : Nat) (c : Bool) (q : Point) : Bool :=
  decide (q.x < m1.width) && decide (q.y < m1.height)
    && decide (((q.x : Int) - pov.x) * ((q.x : Int) - pov.x)
        + ((q.y : Int) - pov.y) * ((q.y : Int) - pov.y) ≤ (r : Int) * (r : Int))
    && m1.has_line_of_sight pov.x pov.y q.x q.y false c

theorem opaque_agreement_of_tile_char (m1 acc : Map)
    (hit : Point → Bool)
    (htile : ∀ q, acc.tileAt q =
      if hit q = true then updateVisTile (m1.tileAt q) true else m1.tileAt q) :
    ∀ pt ob cc, acc.opaqueAt pt ob cc = m1.opaqueAt pt ob cc := by
  intro pt ob cc
  unfold Map.opaqueAt
  rw [htile pt]
  by_cases h : hit pt = true
  · rw [if_pos h, opaqueTile_updateVisTile]
  · rw [if_neg h]

/-- The effect of one `fovStep` on the visible-set / tile characterisation
relative to the base map `m1`. -/
theorem fovStep_spec (m1 : Map) (pov : Point) (r : Nat) (c : Bool)
    (done : List (Int × Int)) (d : Int × Int) (acc : Map)
    (hh : acc.height = m1.height) (hw : acc.width = m1.width)
    (htile : ∀ q, acc.tileAt q =
      if hitInList m1 pov r c done q = true then updateVisTile (m1.tileAt q) true
      else m1.tileAt q)
    (hvis : ∀ q, q ∈ acc.visible ↔
      q ∈ m1.visible ∨ hitInList m1 pov r c done q = true) :
    (fovStep pov r c acc d).height = m1.height ∧
    (fovStep pov r c acc d).width = m1.width ∧
    (∀ q, (fovStep pov r c acc d).tileAt q =
      if hitInList m1 pov r c (done ++ [d]) q = true then updateVisTile (m1.tileAt q) true
      else m1.tileAt q) ∧
    (∀ q, q ∈ (fovStep pov r c acc d).visible ↔
      q ∈ m1.visible ∨ hitInList m1 pov r c (done ++ [d]) q = true) := by
  have hop := opaque_agreement_of_tile_char m1 acc _ htile
  have hlos : ∀ a b a' b',
      acc.has_line_of_sight a b a' b' false c = m1.has_line_of_sight a b a' b' false c :=
    fun a b a' b' => hlos_congr m1 acc a b a' b' false c fun pt => hop pt false c
  have happq : ∀ q, hitInList m1 pov r c (done ++ [d]) q =
      (hitInList m1 pov r c done q || hitViaDelta m1 pov r c d q) := by
    intro q
    rw [hitInList_append]
    simp [hitInList]
  unfold fovStep
  by_cases hr : d.2 * d.2 + d.1 * d.1 ≤ (r : Int) * (r : Int)
  · rw [if_pos hr]
    by_cases hcond : 0 ≤ (pov.x : Int) + d.2 ∧ (pov.x : Int) + d.2 < (acc.width : Int)
        ∧ 0 ≤ (pov.y : Int) + d.1 ∧ (pov.y : Int) + d.1 < (acc.height : Int)
        ∧ acc.has_line_of_sight pov.x pov.y ((pov.x : Int) + d.2).toNat
            ((pov.y : Int) + d.1).toNat false c = true
    · rw [if_pos hcond]
      obtain ⟨hx0, hx1, hy0, hy1, hl⟩ := hcond
      rw [hw] at hx1
      rw [hh] at hy1
      rw [hlos] at hl
      have hdelta : ∀ q, hitViaDelta m1 pov r c d q =
          decide (q = (⟨((pov.x : Int) + d.2).toNat, ((pov.y : Int) + d.1).toNat⟩ : Point)) := by
        intro q
        unfold hitViaDelta
        rw [if_pos ⟨hr, hx0, hx1, hy0, hy1, hl⟩]
      refine ⟨?_, ?_, ?_, ?_⟩
      · rw [utv_height]; exact hh
      · rw [utv_width]; exact hw
      · intro q
        rw [tileAt_utv, happq q, hdelta q]
        by_cases hq : (⟨((pov.x : Int) + d.2).toNat, ((pov.y : Int) + d.1).toNat⟩ : Point) = q
        · rw [if_pos hq, tileAt_set_visible, htile]
          have hq' : decide (q = (⟨((pov.x : Int) + d.2).toNat,
              ((pov.y : Int) + d.1).toNat⟩ : Point)) = true := by
            rw [decide_eq_true_iff]; exact hq.symm
          rw [hq', Bool.or_true, if_pos rfl]
          subst hq
          by_cases hd : hitInList m1 pov r c done
              (⟨((pov.x : Int) + d.2).toNat, ((pov.y : Int) + d.1).toNat⟩ : Point) = true
          · rw [if_pos hd, updateVisTile_idem]
          · rw [if_neg hd]
        · rw [if_neg hq, tileAt_set_visible, htile]
          have hq' : decide (q = (⟨((pov.x : Int) + d.2).toNat,
              ((pov.y : Int) + d.1).toNat⟩ : Point)) = false := by
            rw [decide_eq_false_iff_not]; exact fun hc => hq hc.symm
          rw [hq', Bool.or_false]
      · intro q
        rw [utv_visible]
        simp only [mem_insertPt, hvis q, happq q, hdelta q, Bool.or_eq_true,
          decide_eq_true_iff]
        tauto
    · rw [if_neg hcond]
      have hdelta : ∀ q, hitViaDelta m1 pov r c d q = false := by
        intro q
        unfold hitViaDelta
        rw [if_neg]
        intro hc
        obtain ⟨_, hx0, hx1, hy0, hy1, hl⟩ := hc
        rw [← hw] at hx1
        rw [← hh] at hy1
        rw [← hlos] at hl
        exact hcond ⟨hx0, hx1, hy0, hy1, hl⟩
      refine ⟨hh, hw, ?_, ?_⟩
      · intro q; rw [happq q, hdelta q, Bool.or_false]; exact htile q
      · intro q; rw [happq q, hdelta q, Bool.or_false]; exact hvis q
  · rw [if_neg hr]
    have hdelta : ∀ q, hitViaDelta m1 pov r c d q = false := by
      intro q
      unfold hitViaDelta
      rw [if_neg]
      intro hc
      exact hr hc.1
    refine ⟨hh, hw, ?_, ?_⟩
    · intro q; rw [happq q, hdelta q, Bool.or_false]; exact htile q
    · intro q; rw [happq q, hdelta q, Bool.or_false]; exact hvis q

/-- Folding `fovStep` over any offset list preserves and extends the
characterisation established by `fovStep_spec`. -/
theorem core_fold_spec (m1 : Map) (pov : Point) (r : Nat) (c : Bool) :
    ∀ (L done : List (Int × Int)) (acc : Map),
      acc.height = m1.height → acc.width = m1.width →
      (∀ q, acc.tileAt q =
        if hitInList m1 pov r c done q = true then updateVisTile (m1.tileAt q) true
        else m1.tileAt q) →
      (∀ q, q ∈ acc.visible ↔ q ∈ m1.visible ∨ hitInList m1 pov r c done q = true) →
      (L.foldl (fovStep pov r c) acc).height = m1.height ∧
      (L.foldl (fovStep pov r c) acc).width = m1.width ∧
      (∀ q, (L.foldl (fovStep pov r c) acc).tileAt q =
        if hitInList m1 pov r c (done ++ L) q = true then updateVisTile (m1.tileAt q) true
        else m1.tileAt q) ∧
      (∀ q, q ∈ (L.foldl (fovStep pov r c) acc).visible ↔
        q ∈ m1.visible ∨ hitInList m1 pov r c (done ++ L) q = true) := by
  intro L
  induction L with
  | nil =>
    intro done acc hh hw htile hvis
    simpa using ⟨hh, hw, htile, hvis⟩
  | cons d L ih =>
    intro done acc hh hw htile hvis
    obtain ⟨hh', hw', htile', hvis'⟩ := fovStep_spec m1 pov r c done d acc hh hw htile hvis
    have := ih (done ++ [d]) (fovStep pov r c acc d) hh' hw' htile' hvis'
    simpa [List.append_assoc] using this

theorem hitInList_nil (m1 : Map) (pov : Point) (r : Nat) (c : Bool) (q : Point) :
    hitInList m1 pov r c [] q = false := rfl

/-- Characterisation of `update_fov_core` run from a base map. -/
theorem update_fov_core_spec (m1 : Map) (pov : Point) (r : Nat) (c : Bool) :
    (m1.update_fov_core pov r c).height = m1.height ∧
    (m1.update_fov_core pov r c).width = m1.width ∧
    (∀ q, (m1.update_fov_core pov r c).tileAt q =
      if hitInList m1 pov r c (fovOffsets r) q = true then updateVisTile (m1.tileAt q) true
      else m1.tileAt q) ∧
    (∀ q, q ∈ (m1.update_fov_core pov r c).visible ↔
      q ∈ m1.visible ∨ hitInList m1 pov r c (fovOffsets r) q = true) := by
  have := core_fold_spec m1 pov r c (fovOffsets r) [] m1 rfl rfl
    (fun q => by rw [hitInList_nil]; simp) (fun q => by rw [hitInList_nil]; simp)
  simpa using this

theorem foldl_utv_height (v : Bool) :
    ∀ (L : List Point) (acc : Map),
      (L.foldl (fun a p => a.update_tile_visibility p v) acc).height = acc.height := by
  intro L
  induction L with
  | nil => intro acc; rfl
  | cons p L ih => intro acc; rw [List.foldl_cons, ih, utv_height]

theorem foldl_utv_width (v : Bool) :
    ∀ (L : List Point) (acc : Map),
      (L.foldl (fun a p => a.update_tile_visibility p v) acc).width = acc.width := by
  intro L
  induction L with
  | nil => intro acc; rfl
  | cons p L ih => intro acc; rw [List.foldl_cons, ih, utv_width]

theorem foldl_utv_visible (v : Bool) :
    ∀ (L : List Point) (acc : Map),
      (L.foldl (fun a p => a.update_tile_visibility p v) acc).visible = acc.visible := by
  intro L
  induction L with
  | nil => intro acc; rfl
  | cons p L ih => intro acc; rw [List.foldl_cons, ih, utv_visible]

/-- Folding the clearing pass over a point list sets `visible := false`
pointwise at exactly the points of the list. -/
theorem clear_fold_tile (m : Map) :
    ∀ (L done : List Point) (acc : Map),
      (∀ q, acc.tileAt q =
        if q ∈ done then updateVisTile (m.tileAt q) false else m.tileAt q) →
      ∀ q, (L.foldl (fun a p => a.update_tile_visibility p false) acc).tileAt q =
        if q ∈ done ∨ q ∈ L then updateVisTile (m.tileAt q) false else m.tileAt q := by
  intro L
  induction L with
  | nil =>
    intro done acc hacc q
    rw [List.foldl_nil, hacc q]
    by_cases h : q ∈ done
    · rw [if_pos h, if_pos (Or.inl h)]
    · rw [if_neg h, if_neg (by simpa using h)]
  | cons p L ih =>
    intro done acc hacc q
    have hstep : ∀ q, ((acc.update_tile_visibility p false)).tileAt q =
        if q ∈ p :: done then updateVisTile (m.tileAt q) false else m.tileAt q := by
      intro q
      rw [tileAt_utv]
      by_cases hpq : p = q
      · subst hpq
        rw [if_pos rfl, if_pos (List.mem_cons_self p done), hacc p]
        by_cases hd : p ∈ done
        · rw [if_pos hd, updateVisTile_idem]
        · rw [if_neg hd]
      · rw [if_neg hpq, hacc q]
        by_cases hd : q ∈ done
        · rw [if_pos hd, if_pos (List.mem_cons_of_mem p hd)]
        · rw [if_neg hd, if_neg (by simp [hpq, hd]; exact fun hc => hpq hc.symm)]
    have := ih (p :: done) (acc.update_tile_visibility p false) hstep q
    rw [List.foldl_cons]
    rw [this]
    by_cases h1 : q ∈ done ∨ q ∈ p :: L
    · rw [if_pos (by simpa [List.mem_cons, or_comm, or_left_comm, or_assoc] using h1)]
      rw [if_pos h1]
    · rw [if_neg (by simpa [List.mem_cons, or_comm, or_left_comm, or_assoc] using h1)]
      rw [if_neg h1]

/-- `clear_visible_tiles`: the visible set becomes empty and every previously
visible point's tile gets its `visible` flag written false. -/
theorem clear_spec (m : Map) :
    (m.clear_visible_tiles).visible = [] ∧
    (m.clear_visible_tiles).height = m.height ∧
    (m.clear_visible_tiles).width = m.width ∧
    (∀ q, m.clear_visible_tiles.tileAt q =
      if q ∈ m.visible then updateVisTile (m.tileAt q) false else m.tileAt q) := by
  unfold Map.clear_visible_tiles
  refine ⟨foldl_utv_visible false m.visible _, foldl_utv_height false m.visible _,
    foldl_utv_width false m.visible _, ?_⟩
  intro q
  have := clear_fold_tile m m.visible [] { m with visible := [] }
    (fun q => by simp [tileAt_set_visible]) q
  simpa using this

theorem mem_fovOffsets (r : Nat) (d : Int × Int) :
    d ∈ fovOffsets r ↔ -(r : Int) ≤ d.1 ∧ d.1 ≤ r ∧ -(r : Int) ≤ d.2 ∧ d.2 ≤ r := by
  obtain ⟨dy, dx⟩ := d
  unfold fovOffsets
  constructor
  · intro h
    rw [List.mem_bind] at h
    obtain ⟨a, ha, hmem⟩ := h
    rw [mem_offRange] at ha
    rw [List.mem_map] at hmem
    obtain ⟨b, hb, hab⟩ := hmem
    rw [mem_offRange] at hb
    injection hab with h1 h2
    subst h1; subst h2
    exact ⟨ha.1, ha.2, hb.1, hb.2⟩
  · rintro ⟨h1, h2, h3, h4⟩
    rw [List.mem_bind]
    refine ⟨dy, by rw [mem_offRange]; exact ⟨h1, h2⟩, ?_⟩
    rw [List.mem_map]
    exact ⟨dx, by rw [mem_offRange]; exact ⟨h3, h4⟩, rfl⟩

theorem le_radius_of_sq_le (a : Int) (r : Nat) (h : a * a ≤ (r : Int) * r) :
    -(r : Int) ≤ a ∧ a ≤ r := by
  constructor
  · nlinarith [sq_nonneg (a + r)]
  · nlinarith [sq_nonneg (a - r)]

theorem hit_imp_inFovSet (m1 : Map) (pov : Point) (r : Nat) (c : Bool) (q : Point)
    (h : hitInList m1 pov r c (fovOffsets r) q = true) : inFovSet m1 pov r c q = true := by
  unfold hitInList at h
  rw [List.any_eq_true] at h
  obtain ⟨d, hd, hhit⟩ := h
  unfold hitViaDelta at hhit
  by_cases hcnd : (d.2 * d.2 + d.1 * d.1 ≤ (r : Int) * (r : Int))
      ∧ 0 ≤ (pov.x : Int) + d.2 ∧ (pov.x : Int) + d.2 < (m1.width : Int)
      ∧ 0 ≤ (pov.y : Int) + d.1 ∧ (pov.y : Int) + d.1 < (m1.height : Int)
      ∧ m1.has_line_of_sight pov.x pov.y ((pov.x : Int) + d.2).toNat
          ((pov.y : Int) + d.1).toNat false c = true
  · rw [if_pos hcnd, decide_eq_true_iff] at hhit
    obtain ⟨hr, hx0, hx1, hy0, hy1, hl⟩ := hcnd
    have hqx : (q.x : Int) = (pov.x : Int) + d.2 := by rw [hhit]; simp; omega
    have hqy : (q.y : Int) = (pov.y : Int) + d.1 := by rw [hhit]; simp; omega
    unfold inFovSet
    rw [Bool.and_eq_true, Bool.and_eq_true, Bool.and_eq_true]
    refine ⟨⟨⟨?_, ?_⟩, ?_⟩, ?_⟩
    · rw [decide_eq_true_iff]; omega
    · rw [decide_eq_true_iff]; omega
    · rw [decide_eq_true_iff]
      have e1 : (q.x : Int) - pov.x = d.2 := by omega
      have e2 : (q.y : Int) - pov.y = d.1 := by omega
      rw [e1, e2]
      linarith [hr]
    · have e1 : q.x = ((pov.x : Int) + d.2).toNat := by omega
      have e2 : q.y = ((pov.y : Int) + d.1).toNat := by omega
      rw [e1, e2]
      exact hl
  · rw [if_neg hcnd] at hhit
    exact absurd hhit (Bool.false_ne_true)

theorem inFovSet_imp_hit (m1 : Map) (pov : Point) (r : Nat) (c : Bool) (q : Point)
    (hq : inFovSet m1 pov r c q = true) : hitInList m1 pov r c (fovOffsets r) q = true := by
  unfold inFovSet at hq
  rw [Bool.and_eq_true, Bool.and_eq_true, Bool.and_eq_true] at hq
  obtain ⟨⟨⟨hb1, hb2⟩, hdist⟩, hl⟩ := hq
  rw [decide_eq_true_iff] at hb1 hb2 hdist
  unfold hitInList
  rw [List.any_eq_true]
  refine ⟨((q.y : Int) - pov.y, (q.x : Int) - pov.x), ?_, ?_⟩
  · rw [mem_fovOffsets]
    have h1 := le_radius_of_sq_le ((q.x : Int) - pov.x) r
      (by nlinarith [sq_nonneg ((q.y : Int) - pov.y)])
    have h2 := le_radius_of_sq_le ((q.y : Int) - pov.y) r
      (by nlinarith [sq_nonneg ((q.x : Int) - pov.x)])
    exact ⟨h2.1, h2.2, h1.1, h1.2⟩
  · unfold hitViaDelta
    simp only
    have ex : (pov.x : Int) + ((q.x : Int) - pov.x) = q.x := by omega
    have ey : (pov.y : Int) + ((q.y : Int) - pov.y) = q.y := by omega
    rw [if_pos]
    · rw [decide_eq_true_iff, ex, ey]
      simp
    · refine ⟨by nlinarith, by omega, by rw [ex]; exact_mod_cast hb1, by omega,
        by rw [ey]; exact_mod_cast hb2, ?_⟩
      rw [ex, ey]
      have e1 : ((q.x : Int)).toNat = q.x := by omega
      have e2 : ((q.y : Int)).toNat = q.y := by omega
      rw [e1, e2]
      exact hl

/-- The candidate-offset scan hits exactly the cells described by `inFovSet`. -/
theorem hitInList_full (m1 : Map) (pov : Point) (r : Nat) (c : Bool) (q : Point) :
    hitInList m1 pov r c (fovOffsets r) q = inFovSet m1 pov r c q := by
  rcases Bool.eq_false_or_eq_true (hitInList m1 pov r c (fovOffsets r) q) with h | h
  · rw [h, hit_imp_inFovSet m1 pov r c q h]
  · rw [h]
    rcases Bool.eq_false_or_eq_true (inFovSet m1 pov r c q) with h2 | h2
    · rw [inFovSet_imp_hit m1 pov r c q h2] at h
      exact absurd h (by simp)
    · rw [h2]

theorem clear_opaqueAt (m : Map) (pt : Point) (ob cc : Bool) :
    m.clear_visible_tiles.opaqueAt pt ob cc = m.opaqueAt pt ob cc := by
  unfold Map.opaqueAt
  rw [(clear_spec m).2.2.2 pt]
  by_cases h : pt ∈ m.visible
  · rw [if_pos h, opaqueTile_updateVisTile]
  · rw [if_neg h]

theorem clear_hlos (m : Map) (a b a' b' : Nat) (ob cc : Bool) :
    m.clear_visible_tiles.has_line_of_sight a b a' b' ob cc =
      m.has_line_of_sight a b a' b' ob cc :=
  hlos_congr m m.clear_visible_tiles a b a' b' ob cc fun pt => clear_opaqueAt m pt ob cc

theorem inFovSet_clear (m : Map) (pov : Point) (r : Nat) (c : Bool) (q : Point) :
    inFovSet m.clear_visible_tiles pov r c q = inFovSet m pov r c q := by
  unfold inFovSet
  rw [(clear_spec m).2.1, (clear_spec m).2.2.1, clear_hlos]

/-- Full characterisation of `Map::update_fov`: the new visible set is exactly
`inFovSet` (computed with the observer-cursed flag read *after* the clear
pass), every tile is either flag-flipped to visible (when in the set) or left
at its post-clear state, and the dimensions are unchanged. -/
theorem update_fov_spec (m : Map) (pov : Point) (r : Nat) :
    (∀ q, q ∈ (m.update_fov pov r).visible ↔
      inFovSet m pov r (isCursedPlayer (m.clear_visible_tiles.tileAt pov)) q = true) ∧
    (∀ q, (m.update_fov pov r).tileAt q =
      if inFovSet m pov r (isCursedPlayer (m.clear_visible_tiles.tileAt pov)) q = true
      then updateVisTile (m.clear_visible_tiles.tileAt q) true
      else m.clear_visible_tiles.tileAt q) ∧
    (m.update_fov pov r).height = m.height ∧
    (m.update_fov pov r).width = m.width := by
  obtain ⟨hcv, hch, hcw, hct⟩ := clear_spec m
  obtain ⟨hh, hw, ht, hm⟩ := update_fov_core_spec m.clear_visible_tiles pov r
    (isCursedPlayer (m.clear_visible_tiles.tileAt pov))
  have hfov : m.update_fov pov r = (m.clear_visible_tiles).update_fov_core pov r
      (isCursedPlayer (m.clear_visible_tiles.tileAt pov)) := rfl
  refine ⟨?_, ?_, ?_, ?_⟩
  · intro q
    rw [hfov, hm q, hcv, hitInList_full, inFovSet_clear]
    simp
  · intro q
    rw [hfov, ht q, hitInList_full, inFovSet_clear]
  · rw [hfov, hh, hch]
  · rw [hfov, hw, hcw]

theorem shape_updateVisTile (t : Tile) (v : Bool) :
    visRewritten (updateVisTile t v) = visRewritten t ∧
    (visFlag (updateVisTile t v)).isSome = (visFlag t).isSome := by
  cases t <;> exact ⟨rfl, rfl⟩

theorem inFovSet_self (m : Map) (pov : Point) (r : Nat) (c : Bool)
    (hx : pov.x < m.width) (hy : pov.y < m.height) :
    inFovSet m pov r c pov = true := by
  unfold inFovSet
  rw [Bool.and_eq_true, Bool.and_eq_true, Bool.and_eq_true]
  refine ⟨⟨⟨?_, ?_⟩, ?_⟩, hlos_self m pov.x pov.y false c⟩
  · rw [decide_eq_true_iff]; exact hx
  · rw [decide_eq_true_iff]; exact hy
  · rw [decide_eq_true_iff]
    have e1 : (pov.x : Int) - pov.x = 0 := by omega
    have e2 : (pov.y : Int) - pov.y = 0 := by omega
    rw [e1, e2]
    positivity

end FovSpec

/-- C4: during `update_fov` the observer's own cell is always in the field of
view, and the `Player` arm of `update_tile_visibility` rewrites the tile with
`is_cursed: false` unconditionally, so the player tile always leaves
`update_fov` uncursed with `is_dead` preserved. -/
theorem update_fov_clears_player_curse (m : Map) (pov : Point) (r : Nat)
    (d c : Bool) (hx : pov.x < m.width) (hy : pov.y < m.height)
    (hp : m.tileAt pov = .Player d c) :
    (m.update_fov pov r).tileAt pov = .Player d false := by
  obtain ⟨_, htile, _, _⟩ := update_fov_spec m pov r
  rw [htile pov, if_pos (inFovSet_self m pov r _ hx hy)]
  rw [(clear_spec m).2.2.2 pov]
  by_cases hv : pov ∈ m.visible
  · rw [if_pos hv, hp]; rfl
  · rw [if_neg hv, hp]; rfl

/-- C4 witness map: a 1×1 grid holding a cursed player. -/
def c4Map : Map := ⟨[[.Player false true]], []⟩

/-- C4 witness: the theorem applied to the concrete 1×1 cursed-player map. -/
theorem update_fov_clears_player_curse_witness :
    c4Map.tileAt ⟨0, 0⟩ = .Player false true ∧
    (c4Map.update_fov ⟨0, 0⟩ 3).tileAt ⟨0, 0⟩ = .Player false false :=
  ⟨by decide, update_fov_clears_player_curse c4Map ⟨0, 0⟩ 3 false true
    (by decide) (by decide) (by decide)⟩

/-- C10: a closed door is not walkable; `interact_tile` opens it preserving the
`visible` field, making it walkable; a second interaction closes it again. -/
theorem door_toggle_spec (m : Map) (P : Point) (v : Bool)
    (hd : m.tileAt P = .Door v false) :
    m.is_walkable P = false ∧
    (m.interact_tile P).tileAt P = .Door v true ∧
    (m.interact_tile P).is_walkable P = true ∧
    ((m.interact_tile P).interact_tile P).tileAt P = .Door v false := by
  have hb := tileAt_ne_empty_bounds m P (by rw [hd]; simp)
  have h1 : m.interact_tile P = m.setTileAt P (.Door v true) := by
    unfold Map.interact_tile
    rw [hd]
    rfl
  have h2 : (m.interact_tile P).tileAt P = .Door v true := by
    rw [h1]
    exact tileAt_setTileAt_self m P _ hb.1 hb.2
  refine ⟨?_, h2, ?_, ?_⟩
  · unfold Map.is_walkable
    rw [hd]
    rfl
  · unfold Map.is_walkable
    rw [h2]
    rfl
  · have h3 : (m.interact_tile P).interact_tile P =
        (m.interact_tile P).setTileAt P (.Door v false) := by
      rw [h1] at h2 ⊢
      unfold Map.interact_tile
      rw [h2]
      rfl
    rw [h3]
    apply tileAt_setTileAt_self
    · rw [h1]
      unfold Map.setTileAt
      simpa using hb.1
    · rw [h1, setTileAt_rowlen]
      exact hb.2

/-- C10 witness map: a 1×2 grid with a closed door next to a floor cell. -/
def c10Map : Map := ⟨[[.Floor false false, .Door true false]], []⟩

/-- C10 witness: the toggle theorem applied at the concrete closed door. -/
theorem door_toggle_spec_witness :
    c10Map.tileAt ⟨1, 0⟩ = .Door true false ∧
    (c10Map.is_walkable ⟨1, 0⟩ = false ∧
      (c10Map.interact_tile ⟨1, 0⟩).tileAt ⟨1, 0⟩ = .Door true true ∧
      (c10Map.interact_tile ⟨1, 0⟩).is_walkable ⟨1, 0⟩ = true ∧
      ((c10Map.interact_tile ⟨1, 0⟩).interact_tile ⟨1, 0⟩).tileAt ⟨1, 0⟩ = .Door true false) :=
  ⟨by decide, door_toggle_spec c10Map ⟨1, 0⟩ true (by decide)⟩

theorem shape_clear (m : Map) (q : Point) :
    visRewritten (m.clear_visible_tiles.tileAt q) = visRewritten (m.tileAt q) ∧
    (visFlag (m.clear_visible_tiles.tileAt q)).isSome = (visFlag (m.tileAt q)).isSome := by
  rw [(clear_spec m).2.2.2 q]
  by_cases h : q ∈ m.visible
  · rw [if_pos h]
    exact shape_updateVisTile _ _
  · rw [if_neg h]
    exact ⟨rfl, rfl⟩

theorem shape_update_fov (m : Map) (pov : Point) (r : Nat) (q : Point) :
    visRewritten ((m.update_fov pov r).tileAt q) = visRewritten (m.tileAt q) ∧
    (visFlag ((m.update_fov pov r).tileAt q)).isSome = (visFlag (m.tileAt q)).isSome := by
  obtain ⟨_, htile, _, _⟩ := update_fov_spec m pov r
  rw [htile q]
  by_cases h : inFovSet m pov r (isCursedPlayer (m.clear_visible_tiles.tileAt pov)) q = true
  · rw [if_pos h]
    obtain ⟨s1, s2⟩ := shape_updateVisTile (m.clear_visible_tiles.tileAt q) true
    obtain ⟨c1, c2⟩ := shape_clear m q
    exact ⟨s1.trans c1, s2.trans c2⟩
  · rw [if_neg h]
    exact shape_clear m q

/-- C2 (amended): `update_fov` computes the visible set exactly as the set of
in-bounds points within squared distance `r²` with line of sight from the
observer under the predicate selected by the post-clear player tile; every
visible tile of a variant the visibility rewrite handles (and which carries a
`visible` field) ends with its flag true; and a subsequent `update_fov` with
any observer resets the flag of every such tile it does not re-see.  Tiles of
the variants the Rust `_ => {}` arm skips (`Archway`, `Stairs`, `Column`,
`Empty`) enter the visible set but keep their stored flag unchanged. -/
theorem update_fov_amended (m : Map) (pov : Point) (r : Nat)
    (hx : pov.x < m.width) (hy : pov.y < m.height)
    (hvb : ∀ q ∈ m.visible, q.x < m.width ∧ q.y < m.height) :
    (∀ q, q ∈ (m.update_fov pov r).visible ↔
      (q.x < m.width ∧ q.y < m.height
        ∧ ((q.x : Int) - pov.x) * ((q.x : Int) - pov.x)
            + ((q.y : Int) - pov.y) * ((q.y : Int) - pov.y) ≤ (r : Int) * (r : Int)
        ∧ m.has_line_of_sight pov.x pov.y q.x q.y false
            (isCursedPlayer (m.clear_visible_tiles.tileAt pov)) = true)) ∧
    (∀ q, q ∈ (m.update_fov pov r).visible → visRewritten (m.tileAt q) = true →
      (visFlag (m.tileAt q)).isSome = true →
      visFlag ((m.update_fov pov r).tileAt q) = some true) ∧
    (∀ pov2 r2 q, q ∈ (m.update_fov pov r).visible →
      q ∉ ((m.update_fov pov r).update_fov pov2 r2).visible →
      visRewritten (m.tileAt q) = true → (visFlag (m.tileAt q)).isSome = true →
      visFlag (((m.update_fov pov r).update_fov pov2 r2).tileAt q) = some false) := by
  obtain ⟨hmem, htile, hh, hw⟩ := update_fov_spec m pov r
  refine ⟨?_, ?_, ?_⟩
  · intro q
    rw [hmem q]
    unfold inFovSet
    rw [Bool.and_eq_true, Bool.and_eq_true, Bool.and_eq_true,
      decide_eq_true_iff, decide_eq_true_iff, decide_eq_true_iff]
    tauto
  · intro q hq hrw hfl
    have hset : inFovSet m pov r (isCursedPlayer (m.clear_visible_tiles.tileAt pov)) q
        = true := (hmem q).mp hq
    rw [htile q, if_pos hset]
    obtain ⟨c1, c2⟩ := shape_clear m q
    exact visFlag_updateVisTile _ true (c1.trans hrw) (c2.trans hfl)
  · intro pov2 r2 q hq1 hq2 hrw hfl
    obtain ⟨hmem2, htile2, _, _⟩ := update_fov_spec (m.update_fov pov r) pov2 r2
    have hset2 : inFovSet (m.update_fov pov r) pov2 r2
        (isCursedPlayer ((m.update_fov pov r).clear_visible_tiles.tileAt pov2)) q
        = false := by
      rcases Bool.eq_false_or_eq_true (inFovSet (m.update_fov pov r) pov2 r2
        (isCursedPlayer ((m.update_fov pov r).clear_visible_tiles.tileAt pov2)) q)
        with h | h
      · exact absurd ((hmem2 q).mpr h) hq2
      · exact h
    rw [htile2 q, if_neg (by rw [hset2]; exact Bool.false_ne_true)]
    rw [(clear_spec (m.update_fov pov r)).2.2.2 q, if_pos hq1]
    obtain ⟨f1, f2⟩ := shape_update_fov m pov r q
    exact visFlag_updateVisTile _ false (f1.trans hrw) (f2.trans hfl)

/-- C2 witness map: a 1×3 strip `Player | Floor | Wall`. -/
def c2WitMap : Map := ⟨[[.Player false false, .Floor false false, .Wall false]], []⟩

/-- C2 witness: the amended theorem applied to the concrete 1×3 strip. -/
theorem update_fov_amended_witness :
    ((⟨0, 0⟩ : Point).x < c2WitMap.width ∧ (⟨0, 0⟩ : Point).y < c2WitMap.height) ∧
    (∀ q, q ∈ (c2WitMap.update_fov ⟨0, 0⟩ 2).visible ↔
      (q.x < c2WitMap.width ∧ q.y < c2WitMap.height
        ∧ ((q.x : Int) - (0 : Nat)) * ((q.x : Int) - (0 : Nat))
            + ((q.y : Int) - (0 : Nat)) * ((q.y : Int) - (0 : Nat)) ≤ (2 : Int) * 2
        ∧ c2WitMap.has_line_of_sight 0 0 q.x q.y false
            (isCursedPlayer (c2WitMap.clear_visible_tiles.tileAt ⟨0, 0⟩)) = true)) :=
  ⟨⟨by decide, by decide⟩,
    (update_fov_amended c2WitMap ⟨0, 0⟩ 2 (by decide) (by decide) (by decide)).1⟩

/-- C2 counterexample map: a 1×3 strip `Player | Stairs | Floor`; the `Stairs`
tile falls into the `_ => {}` arm of `update_tile_visibility`. -/
def c2CexMap : Map := ⟨[[.Player false false, .Stairs false false, .Floor false false]], []⟩

/-- C2 counterexample to the claim as stated: after `update_fov` the `Stairs`
cell is in the visible set, but its stored `visible` flag is still `false` —
the visibility rewrite has no arm for `Stairs`. -/
theorem update_fov_stale_stairs_flag :
    (⟨1, 0⟩ : Point) ∈ (c2CexMap.update_fov ⟨0, 0⟩ 2).visible ∧
    visFlag ((c2CexMap.update_fov ⟨0, 0⟩ 2).tileAt ⟨1, 0⟩) = some false := by
  decide

/-- C3 evidence map: a 1×5 strip `Obelisk(curse, fov 4) | Floor | Player |
Floor | Floor`, nothing visible yet. -/
def c3Map0 : Map :=
  ⟨[[.Obelisk false true 4 1 3, .Floor false false, .Player false false,
     .Floor false false, .Floor false false]], []⟩

/-- The state after the first FOV pass: every cell of the strip is visible,
including the player's own cell. -/
def c3Map1 : Map := c3Map0.update_fov ⟨2, 0⟩ 4

/-- The state after `apply_obelisk_curses`: the floors are cursed and the
player tile is `Player { is_cursed: true }` — exactly the state the claim's
premise describes when `update_fov` is called next. -/
def c3Map2 : Map := c3Map1.apply_obelisk_curses

set_option maxRecDepth 4000 in
/-- C3 evidence: at the moment `update_fov` is called the observer tile is a
cursed player, the cell `(4,0)` is in bounds, within the radius, and has line
of sight from the observer *under the cursed-observer predicate* (the cursed
floor at `(3,0)` does not block it), so the claim requires `(4,0)` to be
visible; but the pass leaves `(4,0)` out of the visible set, because
`clear_visible_tiles` rewrites the previously-visible player tile with
`is_cursed: false` before `update_fov` reads the flag, so the default
predicate is used and the cursed floor at `(3,0)` blocks the ray. -/
theorem cursed_observer_predicate_not_used :
    c3Map2.tileAt ⟨2, 0⟩ = .Player false true ∧
    (⟨2, 0⟩ : Point) ∈ c3Map2.visible ∧
    c3Map2.tileAt ⟨3, 0⟩ = .Floor true true ∧
    (4 < c3Map2.width ∧ 0 < c3Map2.height) ∧
    ((4 : Int) - 2) * ((4 : Int) - 2) + ((0 : Int) - 0) * ((0 : Int) - 0)
      ≤ (4 : Int) * 4 ∧
    c3Map2.has_line_of_sight 2 0 4 0 false true = true ∧
    (⟨4, 0⟩ : Point) ∉ (c3Map2.update_fov ⟨2, 0⟩ 4).visible := by
  decide

/-- C1 evidence map: a 1×1 grid holding a single floor tile. -/
def c1Map : Map := ⟨[[.Floor false false]], []⟩

/-- C1 evidence: on the Point-based `Map` of `src/map/mod.rs`, `get_tile` and
`set_tile` at the out-of-bounds point `(5,5)` hit the unchecked index (the
`none` results model the Rust panic), while the bounds-checked variant of
`src/map.rs` — which the claim describes — returns the `Empty` default and
leaves the grid unchanged at the same input. -/
theorem oob_access_panics :
    c1Map.get_tile ⟨5, 5⟩ = none ∧
    c1Map.set_tile ⟨5, 5⟩ (.Wall false) = none ∧
    mapRsGetTile c1Map.tiles 5 5 = .Empty ∧
    mapRsSetTile c1Map.tiles 5 5 (.Wall false) = c1Map.tiles := by
  decide

/-- The flat `src/map.rs` accessors are safe at every out-of-bounds point:
`get_tile` yields `Empty` and `set_tile` is the identity. -/
theorem mapRs_oob_safe (tiles : Grid) (x y : Nat) (t : Tile)
    (h : tiles.length ≤ y ∨ (tiles.getD y []).length ≤ x) :
    mapRsGetTile tiles x y = .Empty ∧ mapRsSetTile tiles x y t = tiles := by
  unfold mapRsGetTile mapRsSetTile
  rcases h with h | h
  · rw [List.get?_eq_none.mpr h]
    exact ⟨rfl, rfl⟩
  · cases hrow : tiles.get? y with
    | none => exact ⟨rfl, rfl⟩
    | some row =>
      have hy : y < tiles.length := by
        by_contra hc
        rw [List.get?_eq_none.mpr (Nat.le_of_not_lt hc)] at hrow
        exact Option.noConfusion hrow
      have hgd : tiles.getD y [] = row := by
        have h2 := get?_eq_some_getD tiles ([] : List Tile) hy
        rw [h2] at hrow
        exact Option.some.inj hrow
      have hlen : row.length ≤ x := hgd ▸ h
      constructor
      · show ((row.get? x).getD Tile.Empty) = Tile.Empty
        rw [List.get?_eq_none.mpr hlen]
        rfl
      · show (match row.get? x with
          | none => tiles
          | some _ => tiles.set y (row.set x t)) = tiles
        rw [List.get?_eq_none.mpr hlen]

section ObeliskLookup

theorem find?_first_characterisation {α : Type _} (p : α → Bool) :
    ∀ (l : List α) (a : α), l.find? p = some a →
      ∃ i, ∃ h : i < l.length, l.get ⟨i, h⟩ = a ∧ p a = true ∧
        ∀ j, ∀ hj : j < l.length, j < i → p (l.get ⟨j, hj⟩) = false := by
  intro l
  induction l with
  | nil => intro a h; exact absurd h (by simp)
  | cons b l ih =>
    intro a h
    by_cases hb : p b = true
    · rw [List.find?_cons_of_pos _ hb] at h
      injection h with h
      subst h
      exact ⟨0, Nat.succ_pos _, rfl, hb, fun j hj hj0 => absurd hj0 (Nat.not_lt_zero j)⟩
    · rw [List.find?_cons_of_neg _ hb] at h
      obtain ⟨i, hi, hget, hpa, hfirst⟩ := ih a h
      refine ⟨i + 1, Nat.succ_lt_succ hi, hget, hpa, ?_⟩
      intro j hj hji
      cases j with
      | zero => exact Bool.not_eq_true _ ▸ (Bool.eq_false_iff.mpr hb)
      | succ j' =>
        exact hfirst j' (Nat.lt_of_succ_lt_succ hj) (Nat.lt_of_succ_lt_succ hji)

theorem mem_scanPoints (m : Map) (q : Point) :
    q ∈ scanPoints m ↔ q.y < m.tiles.length ∧ q.x < (m.tiles.getD q.y []).length := by
  obtain ⟨qx, qy⟩ := q
  unfold scanPoints
  rw [List.mem_bind]
  constructor
  · rintro ⟨y, hy, hmem⟩
    rw [List.mem_range] at hy
    rw [List.mem_map] at hmem
    obtain ⟨x, hx, hxy⟩ := hmem
    rw [List.mem_range] at hx
    injection hxy with h1 h2
    subst h1; subst h2
    exact ⟨hy, hx⟩
  · rintro ⟨hy, hx⟩
    refine ⟨qy, by rw [List.mem_range]; exact hy, ?_⟩
    rw [List.mem_map]
    exact ⟨qx, by rw [List.mem_range]; exact hx, rfl⟩

/-- C9: `get_obelisk_cursing_tile` returns `None` iff no cell of the grid
holds a `curse == true` obelisk with by-obelisk line of sight to `pov`; when
it returns a tile, that tile sits at the first such cell in the row-major
scan order `scanPoints` (every earlier cell fails the test) — scan order,
not distance, is the tie-break. -/
theorem get_obelisk_cursing_tile_spec (m : Map) (pov : Point) :
    (m.get_obelisk_cursing_tile pov = none ↔
      ∀ q ∈ scanPoints m, ¬(isCursingObelisk (m.tileAt q) = true ∧
        m.has_line_of_sight q.x q.y pov.x pov.y true false = true)) ∧
    (∀ t, m.get_obelisk_cursing_tile pov = some t →
      ∃ i, ∃ h : i < (scanPoints m).length,
        isCursingObelisk (m.tileAt ((scanPoints m).get ⟨i, h⟩)) = true ∧
        m.has_line_of_sight ((scanPoints m).get ⟨i, h⟩).x ((scanPoints m).get ⟨i, h⟩).y
          pov.x pov.y true false = true ∧
        t = m.tileAt ((scanPoints m).get ⟨i, h⟩) ∧
        ∀ j, ∀ hj : j < (scanPoints m).length, j < i →
          ¬(isCursingObelisk (m.tileAt ((scanPoints m).get ⟨j, hj⟩)) = true ∧
            m.has_line_of_sight ((scanPoints m).get ⟨j, hj⟩).x
              ((scanPoints m).get ⟨j, hj⟩).y pov.x pov.y true false = true)) := by
  constructor
  · unfold Map.get_obelisk_cursing_tile
    rw [Option.map_eq_none', List.find?_eq_none]
    constructor
    · intro h q hq hc
      have := h q hq
      rw [Bool.and_eq_true] at this
      exact this ⟨hc.1, hc.2⟩
    · intro h q hq
      rw [Bool.and_eq_true]
      intro hc
      exact h q hq ⟨hc.1, hc.2⟩
  · intro t ht
    unfold Map.get_obelisk_cursing_tile at ht
    rw [Option.map_eq_some'] at ht
    obtain ⟨q, hfind, hqt⟩ := ht
    obtain ⟨i, hi, hget, hpa, hfirst⟩ := find?_first_characterisation _ _ _ hfind
    refine ⟨i, hi, ?_, ?_, ?_, ?_⟩
    · rw [hget]
      rw [Bool.and_eq_true] at hpa
      exact hpa.1
    · rw [hget]
      rw [Bool.and_eq_true] at hpa
      exact hpa.2
    · rw [hget, hqt]
    · intro j hj hji hc
      have hff := hfirst j hj hji
      rw [hc.1, hc.2] at hff
      simp at hff

end ObeliskLookup

/-- C9 witness map: one cursing obelisk at `(1,0)`, a second at `(3,0)`; the
player at `(4,0)` has line of sight to both, and the scan returns the first. -/
def c9Map : Map :=
  ⟨[[.Floor false false, .Obelisk false true 6 1 3, .Floor false false,
     .Obelisk true true 6 2 3, .Player false false]], []⟩

/-- C9 witness: the characterisation applied at the concrete two-obelisk map
(the returned tile is the scan-order-first obelisk, not the nearest). -/
theorem get_obelisk_cursing_tile_spec_witness :
    c9Map.get_obelisk_cursing_tile ⟨4, 0⟩ = some (.Obelisk false true 6 1 3) ∧
    (∃ i, ∃ h : i < (scanPoints c9Map).length,
      isCursingObelisk (c9Map.tileAt ((scanPoints c9Map).get ⟨i, h⟩)) = true ∧
      c9Map.has_line_of_sight ((scanPoints c9Map).get ⟨i, h⟩).x
        ((scanPoints c9Map).get ⟨i, h⟩).y 4 0 true false = true ∧
      (.Obelisk false true 6 1 3 : Tile) = c9Map.tileAt ((scanPoints c9Map).get ⟨i, h⟩) ∧
      ∀ j, ∀ hj : j < (scanPoints c9Map).length, j < i →
        ¬(isCursingObelisk (c9Map.tileAt ((scanPoints c9Map).get ⟨j, hj⟩)) = true ∧
          c9Map.has_line_of_sight ((scanPoints c9Map).get ⟨j, hj⟩).x
            ((scanPoints c9Map).get ⟨j, hj⟩).y 4 0 true false = true)) :=
  ⟨by decide, (get_obelisk_cursing_tile_spec c9Map ⟨4, 0⟩).2 _ (by decide)⟩

/-- Whether a tile is `Floor { cursed: false }`. -/
def isUncursedFloor : Tile → Bool
  | .Floor _ false => true
  | _ => false

/-- C7 map: a 20×10 all-floor grid with a single `Obelisk { curse: true,
fov: 3 }` at `(10,5)`. -/
def c7Map : Map :=
  ⟨(List.range 10).map fun y => (List.range 20).map fun x =>
    if x = 10 ∧ y = 5 then .Obelisk false true 3 1 3 else .Floor false false, []⟩

set_option maxRecDepth 8000 in
/-- C7: after `apply_obelisk_curses` on the 20×10 single-obelisk grid, no cell
within squared distance 9 of `(10,5)` is an uncursed floor (every floor there
is cursed), while the floor at `(14,5)` — squared distance 16 — is still
uncursed. -/
theorem obelisk_curse_area_scenario :
    (∀ q ∈ gridPoints c7Map,
      ((q.x : Int) - 10) * ((q.x : Int) - 10) + ((q.y : Int) - 5) * ((q.y : Int) - 5) ≤ 9 →
      isUncursedFloor (c7Map.apply_obelisk_curses.tileAt q) = false) ∧
    ((14 : Int) - 10) * ((14 : Int) - 10) + ((5 : Int) - 5) * ((5 : Int) - 5) = 16 ∧
    c7Map.apply_obelisk_curses.tileAt ⟨14, 5⟩ = .Floor false false := by
  decide

section CurseSpec

/-- The per-tile effect of one `clear_curse_from_all_tiles` write. -/
def clearCurseTileFn : Tile → Tile
  | .Floor v true => .Floor v false
  | .Player d true => .Player d false
  | t => t

/-- The per-tile effect of one second-pass curse write. -/
def curseTileFn : Tile → Tile
  | .Floor v _ => .Floor v true
  | .Player d _ => .Player d true
  | t => t

theorem clearCurseTileFn_idem (t : Tile) : clearCurseTileFn (clearCurseTileFn t) = clearCurseTileFn t := by
  cases t <;> try rfl
  all_goals (rename_i a b; cases b <;> rfl)

theorem curseTileFn_idem (t : Tile) : curseTileFn (curseTileFn t) = curseTileFn t := by
  cases t <;> rfl

theorem clearCurse_curse (t : Tile) : clearCurseTileFn (curseTileFn t) = clearCurseTileFn t := by
  cases t <;> try rfl
  all_goals (rename_i a b; cases b <;> rfl)

theorem tileAt_clearCurseStep (acc : Map) (p q : Point) :
    (clearCurseStep acc p).tileAt q =
      if p = q then clearCurseTileFn (acc.tileAt p) else acc.tileAt q := by
  by_cases hpq : p = q
  · subst hpq
    rw [if_pos rfl]
    unfold clearCurseStep
    cases ht : acc.tileAt p with
    | Floor v c =>
      cases c with
      | true =>
        have hb := tileAt_ne_empty_bounds acc p (by rw [ht]; simp)
        exact tileAt_setTileAt_self acc p _ hb.1 hb.2
      | false => exact ht
    | Player d c =>
      cases c with
      | true =>
        have hb := tileAt_ne_empty_bounds acc p (by rw [ht]; simp)
        exact tileAt_setTileAt_self acc p _ hb.1 hb.2
      | false => exact ht
    | _ => exact ht
  · rw [if_neg hpq]
    unfold clearCurseStep
    cases ht : acc.tileAt p with
    | Floor v c => cases c with
      | true => exact tileAt_setTileAt_ne acc p q _ hpq
      | false => rfl
    | Player d c => cases c with
      | true => exact tileAt_setTileAt_ne acc p q _ hpq
      | false => rfl
    | _ => rfl

theorem tileAt_curseWriteStep (acc : Map) (p q : Point) :
    (curseWriteStep acc p).tileAt q =
      if p = q then curseTileFn (acc.tileAt p) else acc.tileAt q := by
  by_cases hpq : p = q
  · subst hpq
    rw [if_pos rfl]
    unfold curseWriteStep
    cases ht : acc.tileAt p with
    | Floor v c =>
      have hb := tileAt_ne_empty_bounds acc p (by rw [ht]; simp)
      exact tileAt_setTileAt_self acc p _ hb.1 hb.2
    | Player d c =>
      have hb := tileAt_ne_empty_bounds acc p (by rw [ht]; simp)
      exact tileAt_setTileAt_self acc p _ hb.1 hb.2
    | _ => exact ht
  · rw [if_neg hpq]
    unfold curseWriteStep
    cases ht : acc.tileAt p with
    | Floor v c => exact tileAt_setTileAt_ne acc p q _ hpq
    | Player d c => exact tileAt_setTileAt_ne acc p q _ hpq
    | _ => rfl

/-- Generic pointwise characterisation of folding a single-cell rewriting step
over a point list. -/
theorem fold_pointwise (f : Tile → Tile) (step : Map → Point → Map)
    (hstep : ∀ acc p q, (step acc p).tileAt q =
      if p = q then f (acc.tileAt p) else acc.tileAt q)
    (hidem : ∀ t, f (f t) = f t) :
    ∀ (L done : List Point) (acc m : Map),
      (∀ q, acc.tileAt q = if q ∈ done then f (m.tileAt q) else m.tileAt q) →
      ∀ q, (L.foldl step acc).tileAt q =
        if q ∈ done ∨ q ∈ L then f (m.tileAt q) else m.tileAt q := by
  intro L
  induction L with
  | nil =>
    intro done acc m hacc q
    rw [List.foldl_nil, hacc q]
    by_cases h : q ∈ done
    · rw [if_pos h, if_pos (Or.inl h)]
    · rw [if_neg h, if_neg (by simpa using h)]
  | cons p L ih =>
    intro done acc m hacc q
    have hstep' : ∀ q, (step acc p).tileAt q =
        if q ∈ p :: done then f (m.tileAt q) else m.tileAt q := by
      intro q
      rw [hstep acc p q]
      by_cases hpq : p = q
      · subst hpq
        rw [if_pos rfl, if_pos (List.mem_cons_self p done), hacc p]
        by_cases hd : p ∈ done
        · rw [if_pos hd, hidem]
        · rw [if_neg hd]
      · rw [if_neg hpq, hacc q]
        by_cases hd : q ∈ done
        · rw [if_pos hd, if_pos (List.mem_cons_of_mem p hd)]
        · rw [if_neg hd, if_neg (by simp [hd]; exact fun hc => hpq hc.symm)]
    have := ih (p :: done) (step acc p) m hstep' q
    rw [List.foldl_cons, this]
    by_cases h1 : q ∈ done ∨ q ∈ p :: L
    · rw [if_pos (by simpa [List.mem_cons, or_comm, or_left_comm, or_assoc] using h1),
        if_pos h1]
    · rw [if_neg (by simpa [List.mem_cons, or_comm, or_left_comm, or_assoc] using h1),
        if_neg h1]

theorem clearCurseStep_shape (acc : Map) (p : Point) :
    (clearCurseStep acc p).height = acc.height ∧
    (clearCurseStep acc p).width = acc.width ∧
    (clearCurseStep acc p).visible = acc.visible ∧
    (∀ j, ((clearCurseStep acc p).tiles.getD j []).length = (acc.tiles.getD j []).length) := by
  unfold clearCurseStep
  cases ht : acc.tileAt p with
  | Floor v c => cases c with
    | true => exact ⟨setTileAt_height _ _ _, setTileAt_width _ _ _, rfl, setTileAt_rowlen _ _ _⟩
    | false => exact ⟨rfl, rfl, rfl, fun j => rfl⟩
  | Player d c => cases c with
    | true => exact ⟨setTileAt_height _ _ _, setTileAt_width _ _ _, rfl, setTileAt_rowlen _ _ _⟩
    | false => exact ⟨rfl, rfl, rfl, fun j => rfl⟩
  | _ => exact ⟨rfl, rfl, rfl, fun j => rfl⟩

theorem curseWriteStep_shape (acc : Map) (p : Point) :
    (curseWriteStep acc p).height = acc.height ∧
    (curseWriteStep acc p).width = acc.width ∧
    (curseWriteStep acc p).visible = acc.visible ∧
    (∀ j, ((curseWriteStep acc p).tiles.getD j []).length = (acc.tiles.getD j []).length) := by
  unfold curseWriteStep
  cases ht : acc.tileAt p with
  | Floor v c => exact ⟨setTileAt_height _ _ _, setTileAt_width _ _ _, rfl, setTileAt_rowlen _ _ _⟩
  | Player d c => exact ⟨setTileAt_height _ _ _, setTileAt_width _ _ _, rfl, setTileAt_rowlen _ _ _⟩
  | _ => exact ⟨rfl, rfl, rfl, fun j => rfl⟩

theorem fold_shape (step : Map → Point → Map)
    (hstep : ∀ acc p, (step acc p).height = acc.height ∧ (step acc p).width = acc.width ∧
      (step acc p).visible = acc.visible ∧
      (∀ j, ((step acc p).tiles.getD j []).length = (acc.tiles.getD j []).length)) :
    ∀ (L : List Point) (acc : Map),
      (L.foldl step acc).height = acc.height ∧ (L.foldl step acc).width = acc.width ∧
      (L.foldl step acc).visible = acc.visible ∧
      (∀ j, ((L.foldl step acc).tiles.getD j []).length = (acc.tiles.getD j []).length) := by
  intro L
  induction L with
  | nil => intro acc; exact ⟨rfl, rfl, rfl, fun j => rfl⟩
  | cons p L ih =>
    intro acc
    obtain ⟨h1, h2, h3, h4⟩ := ih (step acc p)
    obtain ⟨g1, g2, g3, g4⟩ := hstep acc p
    rw [List.foldl_cons]
    exact ⟨h1.trans g1, h2.trans g2, h3.trans g3, fun j => (h4 j).trans (g4 j)⟩

end CurseSpec

/-- The set of cells collected by the first pass of `apply_obelisk_curses`:
the curse areas of every `Obelisk { curse: true }` in row-major order. -/
def cursedList (m1 : Map) : List Point :=
  (gridPoints m1).foldl (fun s p =>
    match m1.tileAt p with
    | .Obelisk _ true fov _ _ => m1.calculate_curse_area p fov s
    | _ => s) []

theorem apply_obelisk_curses_eq (m : Map) :
    m.apply_obelisk_curses =
      (cursedList m.clear_curse_from_all_tiles).foldl curseWriteStep
        m.clear_curse_from_all_tiles := rfl

theorem mem_gridPoints (m : Map) (q : Point) :
    q ∈ gridPoints m ↔ q.x < m.width ∧ q.y < m.height := by
  obtain ⟨qx, qy⟩ := q
  unfold gridPoints
  rw [List.mem_bind]
  constructor
  · rintro ⟨y, hy, hmem⟩
    rw [List.mem_range] at hy
    rw [List.mem_map] at hmem
    obtain ⟨x, hx, hxy⟩ := hmem
    rw [List.mem_range] at hx
    injection hxy with h1 h2
    subst h1; subst h2
    exact ⟨hx, hy⟩
  · rintro ⟨hx, hy⟩
    refine ⟨qy, by rw [List.mem_range]; exact hy, ?_⟩
    rw [List.mem_map]
    exact ⟨qx, by rw [List.mem_range]; exact hx, rfl⟩

theorem gridPoints_congr (m1 m2 : Map) (hW : m1.width = m2.width)
    (hH : m1.height = m2.height) : gridPoints m1 = gridPoints m2 := by
  unfold gridPoints
  rw [hW, hH]

theorem calc_area_congr (m1 m2 : Map) (hW : m1.width = m2.width)
    (hH : m1.height = m2.height)
    (hlos : ∀ a b a' b', m1.has_line_of_sight a b a' b' true false =
      m2.has_line_of_sight a b a' b' true false) :
    ∀ center radius s, m1.calculate_curse_area center radius s =
      m2.calculate_curse_area center radius s := by
  intro center radius s
  unfold Map.calculate_curse_area
  simp only [hW, hH, hlos]

theorem cursedList_congr (m1 m2 : Map) (hW : m1.width = m2.width)
    (hH : m1.height = m2.height) (ht : ∀ p, m1.tileAt p = m2.tileAt p) :
    cursedList m1 = cursedList m2 := by
  have hop : ∀ pt ob c, m1.opaqueAt pt ob c = m2.opaqueAt pt ob c := by
    intro pt ob c
    unfold Map.opaqueAt
    rw [ht pt]
  have hlos : ∀ a b a' b', m1.has_line_of_sight a b a' b' true false =
      m2.has_line_of_sight a b a' b' true false := fun a b a' b' =>
    (hlos_congr m2 m1 a b a' b' true false fun pt => hop pt true false)
  unfold cursedList
  rw [gridPoints_congr m1 m2 hW hH]
  simp only [ht, calc_area_congr m1 m2 hW hH hlos]

theorem calc_area_bounds (m1 : Map) (center : Point) (radius : Nat) :
    ∀ s, (∀ q ∈ s, q.x < m1.width ∧ q.y < m1.height) →
      ∀ q ∈ m1.calculate_curse_area center radius s,
        q.x < m1.width ∧ q.y < m1.height := by
  unfold Map.calculate_curse_area
  generalize fovOffsets radius = L
  induction L with
  | nil => intro s hs; simpa using hs
  | cons d L ih =>
    intro s hs
    rw [List.foldl_cons]
    apply ih
    by_cases h1 : d.2 * d.2 + d.1 * d.1 ≤ (radius : Int) * (radius : Int)
    · rw [if_pos h1]
      by_cases h2 : 0 ≤ (center.x : Int) + d.2 ∧ (center.x : Int) + d.2 < (m1.width : Int)
          ∧ 0 ≤ (center.y : Int) + d.1 ∧ (center.y : Int) + d.1 < (m1.height : Int)
          ∧ m1.has_line_of_sight ((center.x : Int) + d.2).toNat
              ((center.y : Int) + d.1).toNat center.x center.y true false = true
      · rw [if_pos h2]
        intro q hq
        rw [mem_insertPt] at hq
        rcases hq with rfl | hq
        · obtain ⟨hx0, hx1, hy0, hy1, _⟩ := h2
          constructor
          · simp only; omega
          · simp only; omega
        · exact hs q hq
      · rw [if_neg h2]; exact hs
    · rw [if_neg h1]; exact hs

theorem cursedList_bounds (m1 : Map) :
    ∀ q ∈ cursedList m1, q.x < m1.width ∧ q.y < m1.height := by
  unfold cursedList
  generalize gridPoints m1 = L
  have main : ∀ (L : List Point) (s : List Point),
      (∀ q ∈ s, q.x < m1.width ∧ q.y < m1.height) →
      ∀ q ∈ L.foldl (fun s p =>
        match m1.tileAt p with
        | .Obelisk _ true fov _ _ => m1.calculate_curse_area p fov s
        | _ => s) s, q.x < m1.width ∧ q.y < m1.height := by
    intro L
    induction L with
    | nil => intro s hs; simpa using hs
    | cons p L ih =>
      intro s hs
      rw [List.foldl_cons]
      apply ih
      cases ht : m1.tileAt p with
      | Obelisk v c fov dmg rfr =>
        cases c with
        | true => exact calc_area_bounds m1 p fov s hs
        | false => exact hs
      | _ => exact hs
  exact main L [] (by simp)

theorem clear_curse_spec (m : Map) :
    (m.clear_curse_from_all_tiles.visible = m.visible) ∧
    (m.clear_curse_from_all_tiles.height = m.height) ∧
    (m.clear_curse_from_all_tiles.width = m.width) ∧
    (∀ j, (m.clear_curse_from_all_tiles.tiles.getD j []).length =
      (m.tiles.getD j []).length) ∧
    (∀ q, m.clear_curse_from_all_tiles.tileAt q =
      if q ∈ gridPoints m then clearCurseTileFn (m.tileAt q) else m.tileAt q) := by
  unfold Map.clear_curse_from_all_tiles
  obtain ⟨s1, s2, s3, s4⟩ := fold_shape clearCurseStep clearCurseStep_shape (gridPoints m) m
  refine ⟨s3, s1, s2, s4, ?_⟩
  intro q
  have := fold_pointwise clearCurseTileFn clearCurseStep tileAt_clearCurseStep
    clearCurseTileFn_idem (gridPoints m) [] m m (fun q => by simp) q
  simpa using this

theorem apply_spec (m : Map) :
    (m.apply_obelisk_curses.visible = m.visible) ∧
    (m.apply_obelisk_curses.height = m.height) ∧
    (m.apply_obelisk_curses.width = m.width) ∧
    (∀ j, (m.apply_obelisk_curses.tiles.getD j []).length =
      (m.tiles.getD j []).length) ∧
    (∀ q, m.apply_obelisk_curses.tileAt q =
      if q ∈ cursedList m.clear_curse_from_all_tiles
      then curseTileFn (m.clear_curse_from_all_tiles.tileAt q)
      else m.clear_curse_from_all_tiles.tileAt q) := by
  obtain ⟨c1, c2, c3, c4, c5⟩ := clear_curse_spec m
  rw [apply_obelisk_curses_eq]
  obtain ⟨s1, s2, s3, s4⟩ := fold_shape curseWriteStep curseWriteStep_shape
    (cursedList m.clear_curse_from_all_tiles) m.clear_curse_from_all_tiles
  refine ⟨s3.trans c1, s1.trans c2, s2.trans c3, fun j => (s4 j).trans (c4 j), ?_⟩
  intro q
  have := fold_pointwise curseTileFn curseWriteStep tileAt_curseWriteStep
    curseTileFn_idem (cursedList m.clear_curse_from_all_tiles) []
    m.clear_curse_from_all_tiles m.clear_curse_from_all_tiles (fun q => by simp) q
  simpa using this

theorem map_ext (m1 m2 : Map) (h1 : m1.tiles = m2.tiles)
    (h2 : m1.visible = m2.visible) : m1 = m2 := by
  cases m1; cases m2; simp_all

theorem get_eq_getD {α : Type _} (l : List α) (d : α) (i : Nat) (h : i < l.length) :
    l.get ⟨i, h⟩ = l.getD i d := by
  have h1 := get?_eq_some_getD l d h
  rw [List.get?_eq_get h] at h1
  exact Option.some.inj h1

theorem grid_ext (t1 t2 : Grid) (hlen : t1.length = t2.length)
    (hrow : ∀ y, (t1.getD y []).length = (t2.getD y []).length)
    (hcell : ∀ y x, (t1.getD y []).getD x Tile.Empty = (t2.getD y []).getD x Tile.Empty) :
    t1 = t2 := by
  apply List.ext_get hlen
  intro i h1 h2
  rw [get_eq_getD t1 [] i h1, get_eq_getD t2 [] i h2]
  apply List.ext_get (hrow i)
  intro j g1 g2
  rw [get_eq_getD _ Tile.Empty j g1, get_eq_getD _ Tile.Empty j g2]
  exact hcell i j

/-- C8: `apply_obelisk_curses` is idempotent — running the clear-then-recompute
pass a second time with no intervening tile change reproduces the same map
(same cursed cells, same tiles, same visible set). -/
theorem apply_obelisk_curses_idem (m : Map) :
    m.apply_obelisk_curses.apply_obelisk_curses = m.apply_obelisk_curses := by
  obtain ⟨av, ah, aw, ar, at1⟩ := apply_spec m
  obtain ⟨cv, ch, cw, cr, ct⟩ := clear_curse_spec m
  obtain ⟨cv2, ch2, cw2, cr2, ct2⟩ := clear_curse_spec m.apply_obelisk_curses
  -- the cleared state after one application equals the cleared state of `m`
  have hEq : ∀ q, m.apply_obelisk_curses.clear_curse_from_all_tiles.tileAt q =
      m.clear_curse_from_all_tiles.tileAt q := by
    intro q
    rw [ct2 q, ct q]
    rw [gridPoints_congr m.apply_obelisk_curses m aw ah]
    by_cases hg : q ∈ gridPoints m
    · rw [if_pos hg, if_pos hg, at1 q, ct q, if_pos hg]
      by_cases hc : q ∈ cursedList m.clear_curse_from_all_tiles
      · rw [if_pos hc, clearCurse_curse, clearCurseTileFn_idem]
      · rw [if_neg hc, clearCurseTileFn_idem]
    · have hnc : q ∉ cursedList m.clear_curse_from_all_tiles := by
        intro hc
        obtain ⟨bx, by'⟩ := cursedList_bounds m.clear_curse_from_all_tiles q hc
        rw [cw] at bx
        rw [ch] at by'
        exact hg ((mem_gridPoints m q).mpr ⟨bx, by'⟩)
      rw [if_neg hg, if_neg hg, at1 q, if_neg hnc, ct q, if_neg hg]
  have hW2 : m.apply_obelisk_curses.clear_curse_from_all_tiles.width =
      m.clear_curse_from_all_tiles.width := by rw [cw2, aw, cw]
  have hH2 : m.apply_obelisk_curses.clear_curse_from_all_tiles.height =
      m.clear_curse_from_all_tiles.height := by rw [ch2, ah, ch]
  have hclist : cursedList m.apply_obelisk_curses.clear_curse_from_all_tiles =
      cursedList m.clear_curse_from_all_tiles :=
    cursedList_congr _ _ hW2 hH2 hEq
  obtain ⟨av2, ah2, aw2, ar2, at2⟩ := apply_spec m.apply_obelisk_curses
  have hpt : ∀ q, m.apply_obelisk_curses.apply_obelisk_curses.tileAt q =
      m.apply_obelisk_curses.tileAt q := by
    intro q
    rw [at2 q, hclist, at1 q]
    by_cases hc : q ∈ cursedList m.clear_curse_from_all_tiles
    · rw [if_pos hc, if_pos hc, hEq q]
    · rw [if_neg hc, if_neg hc, hEq q]
  apply map_ext
  · apply grid_ext
    · exact ah2
    · intro y
      exact ar2 y
    · intro y x
      exact hpt ⟨x, y⟩
  · rw [av2]

section Generator

/-- Explicit oracle for `rand::thread_rng()`: one stream per draw shape.  A
`gen_range` consumes a `Nat` and reduces it into the range; a `gen_bool(p)` or
`gen::<f64>()` consumes a rational from `[0,1)` and only its comparison with
the literal probability flows onward; `random::<bool>()` consumes a `Bool`.
An exhausted stream continues with default draws (`false` / `0` / `0`). -/
structure Rng where
  bools : List Bool
  nats : List Nat
  rats : List ℚ
deriving DecidableEq, Repr, Inhabited

def Rng.nextBool : Rng → Bool × Rng
  | ⟨[], ns, qs⟩ => (false, ⟨[], ns, qs⟩)
  | ⟨b :: bs, ns, qs⟩ => (b, ⟨bs, ns, qs⟩)

def Rng.nextNat : Rng → Nat × Rng
  | ⟨bs, [], qs⟩ => (0, ⟨bs, [], qs⟩)
  | ⟨bs, n :: ns, qs⟩ => (n, ⟨bs, ns, qs⟩)

def Rng.nextRat : Rng → ℚ × Rng
  | ⟨bs, ns, []⟩ => (0, ⟨bs, ns, []⟩)
  | ⟨bs, ns, q :: qs⟩ => (q, ⟨bs, ns, qs⟩)

/-- `rng.gen_range(lo..hi)`.  Rust panics on an empty range; every call site
below either guards the range or (in `place_secret` / `place_mobs` on
degenerate zero-interior rooms, unreachable for the sizes used here) would
panic, which this total model replaces by returning `lo`. -/
def genRange (lo hi : Nat) (g : Rng) : Nat × Rng :=
  let (n, g') := g.nextNat
  (if lo < hi then lo + n % (hi - lo) else lo, g')

/-- `rng.gen_range(lo..=hi)`. -/
def genRangeIncl (lo hi : Nat) (g : Rng) : Nat × Rng := genRange lo (hi + 1) g

/-- `rng.gen_bool(p)`: draw a unit-interval rational and compare. -/
def genBool (p : ℚ) (g : Rng) : Bool × Rng :=
  let (q, g') := g.nextRat
  (q < p, g')

/-- `RoomType` from `src/generator/room.rs`. -/
inductive RoomType where
  | Normal
  | Obelisk
  | Secret
deriving DecidableEq, Repr, Inhabited

/-- `Room` from `src/generator/room.rs`. -/
structure Room where
  location : Point
  width : Nat
  height : Nat
  room_type : RoomType
deriving DecidableEq, Repr, Inhabited

/-- `Room::center`. -/
def Room.center (r : Room) : Point :=
  ⟨r.location.x + r.width / 2, r.location.y + r.height / 2⟩

/-- `BSPNode` from `src/generator/map.rs`: a rectangle, optional children,
optional room (only leaves get one). -/
inductive BSPNode where
  | mk (x y width height : Nat) (left : Option BSPNode) (right : Option BSPNode)
      (room : Option Room)

instance : Inhabited BSPNode := ⟨.mk 0 0 0 0 none none none⟩

/-- Raw-grid read (`tiles[y][x]`), totalised like `Map.tileAt`. -/
def gridGet (t : Grid) (x y : Nat) : Tile := (t.getD y []).getD x .Empty

/-- Raw-grid write (`tiles[y][x] = tile`), totalised like `Map.setTileAt`. -/
def gridSet (t : Grid) (x y : Nat) (tile : Tile) : Grid :=
  t.set y ((t.getD y []).set x tile)

/-- `MapGenerator::split_node`: recursively bisect the node, choosing the axis
by size or coin flip, at a uniform offset leaving `min_size` on each side.
The first argument is the remaining depth (`max_depth - current_depth`). -/
def split_node (min_size : Nat) : Nat → BSPNode → Rng → BSPNode × Rng
  | 0, node, g => (node, g)
  | depth + 1, node, g =>
    match node with
    | .mk x y w h l r room =>
      let canH := min_size * 2 ≤ w
      let canV := min_size * 2 ≤ h
      if ¬canH ∧ ¬canV then (.mk x y w h l r room, g)
      else
        let (sv, g1) := if canH ∧ canV then g.nextBool else (canH, g)
        if sv then
          let (split, g2) := genRange min_size (w - min_size + 1) g1
          let (l', g3) := split_node min_size depth (.mk x y split h none none none) g2
          let (r', g4) :=
            split_node min_size depth (.mk (x + split) y (w - split) h none none none) g3
          (.mk x y w h (some l') (some r') room, g4)
        else
          let (split, g2) := genRange min_size (h - min_size + 1) g1
          let (l', g3) := split_node min_size depth (.mk x y w split none none none) g2
          let (r', g4) :=
            split_node min_size depth (.mk x (y + split) w (h - split) none none none) g3
          (.mk x y w h (some l') (some r') room, g4)

/-- `MapGenerator::collect_rooms_in_node`: on a leaf, pick a room size within
`[min_room_size, min(partition - 2·padding, max_room_size)]` and a top-left
offset keeping `padding = 2` from the partition edges; skip leaves that are
too small.  `none` models the debug-mode `usize` underflow panic of
`node.width - padding * 2` when a partition side is below 4. -/
def collect_rooms_in_node (minS maxS : Nat) :
    BSPNode → Rng → Option (BSPNode × List Room × Rng)
  | .mk x y w h l r room, g =>
    if l.isNone ∧ r.isNone then
      if w < 4 ∨ h < 4 then none
      else
        let maxW := min (w - 4) maxS
        let maxH := min (h - 4) maxS
        if maxW < minS ∨ maxH < minS then some (.mk x y w h l r room, [], g)
        else
          let (rw, g1) := genRangeIncl minS maxW g
          let (rh, g2) := genRangeIncl minS maxH g1
          let xhi := x + w - rw - 2
          let (rx, g3) := if xhi < x + 2 then (x + 2, g2) else genRangeIncl (x + 2) xhi g2
          let yhi := y + h - rh - 2
          let (ry, g4) := if yhi < y + 2 then (y + 2, g3) else genRangeIncl (y + 2) yhi g3
          let newRoom : Room := ⟨⟨rx, ry⟩, rw, rh, .Normal⟩
          some (.mk x y w h l r (some newRoom), [newRoom], g4)
    else
      let step1 : Option (Option BSPNode × List Room × Rng) :=
        match l with
        | none => some (none, [], g)
        | some ln =>
          match collect_rooms_in_node minS maxS ln g with
          | none => none
          | some (ln', rs, g') => some (some ln', rs, g')
      match step1 with
      | none => none
      | some (l', rooms1, g1) =>
        match r with
        | none => some (.mk x y w h l' r room, rooms1, g1)
        | some rn =>
          match collect_rooms_in_node minS maxS rn g1 with
          | none => none
          | some (rn', rooms2, g2) =>
            some (.mk x y w h l' (some rn') room, rooms1 ++ rooms2, g2)

/-- `MapGenerator::get_room_in_subtree`: pre-order search for the first room. -/
def get_room_in_subtree : BSPNode → Option Room
  | .mk _ _ _ _ l r room =>
    match room with
    | some rm => some rm
    | none =>
      match (match l with | some ln => get_room_in_subtree ln | none => none) with
      | some rm => some rm
      | none => match r with | some rn => get_room_in_subtree rn | none => none

/-- `Room::fill_with_floor`: stamp floors over `[loc, loc+size)`, bounds
checked against the grid. -/
def fill_with_floor (room : Room) (t : Grid) : Grid :=
  let maxY := t.length
  let maxX := (t.headD []).length
  (List.range room.height).foldl (fun acc dy =>
    (List.range room.width).foldl (fun acc2 dx =>
      let y := room.location.y + dy
      let x := room.location.x + dx
      if y < maxY ∧ x < maxX then gridSet acc2 x y (.Floor false false) else acc2) acc) t

/-- `Room::surround_with_walls`: stamp walls on the boundary of
`[loc, loc+size]` (inclusive), bounds checked. -/
def surround_with_walls (room : Room) (t : Grid) : Grid :=
  let maxY := t.length
  let maxX := (t.headD []).length
  (List.range (room.height + 1)).foldl (fun acc dy =>
    (List.range (room.width + 1)).foldl (fun acc2 dx =>
      let y := room.location.y + dy
      let x := room.location.x + dx
      if y < maxY ∧ x < maxX
          ∧ (y = room.location.y ∨ y = room.location.y + room.height
            ∨ x = room.location.x ∨ x = room.location.x + room.width) then
        gridSet acc2 x y (.Wall false)
      else acc2) acc) t

/-- `Room::place_columns`: with probability ½ place four columns at the
inner corners (`loc + 2`, `loc + size - 2`).  The Rust writes are unchecked;
`gridSet` is a no-op out of bounds (all call sites keep them in bounds). -/
def place_columns (room : Room) (t : Grid) (g : Rng) : Grid × Rng :=
  let (b, g1) := genBool (mkRat 1 2) g
  if b then
    let x1 := room.location.x + 2
    let x2 := room.location.x + room.width - 2
    let y1 := room.location.y + 2
    let y2 := room.location.y + room.height - 2
    (([(x1, y1), (x2, y1), (x1, y2), (x2, y2)] : List (Nat × Nat)).foldl
      (fun acc p => gridSet acc p.1 p.2 (.Column false)) t, g1)
  else (t, g1)

/-- Whether a tile is a wall, the `matches!(…, Tile::Wall { .. })` test of
`find_room_entrances`. -/
def isWallTile : Tile → Bool
  | .Wall _ => true
  | _ => false

/-- Whether a tile is a floor. -/
def isFloorTile : Tile → Bool
  | .Floor _ _ => true
  | _ => false

/-- `Room::find_room_entrances`: perimeter floor cells flanked laterally by
walls (or the grid edge), scanned top/bottom walls first (per `x`, top then
bottom), then left/right walls (per `y`, left then right). -/
def find_room_entrances (room : Room) (t : Grid) : List Point :=
  let maxY := t.length
  let maxX := if 0 < maxY then (t.getD 0 []).length else 0
  let left := room.location.x
  let right := room.location.x + room.width
  let top := room.location.y
  let bottom := room.location.y + room.height
  let horiz := (List.range (room.width + 1)).bind fun i =>
    let x := left + i
    (if top < maxY ∧ x < maxX ∧ isFloorTile (gridGet t x top) = true
        ∧ (x = 0 ∨ isWallTile (gridGet t (x - 1) top) = true)
        ∧ (x + 1 ≥ maxX ∨ isWallTile (gridGet t (x + 1) top) = true)
      then [(⟨x, top⟩ : Point)] else [])
    ++ (if bottom < maxY ∧ x < maxX ∧ isFloorTile (gridGet t x bottom) = true
        ∧ (x = 0 ∨ isWallTile (gridGet t (x - 1) bottom) = true)
        ∧ (x + 1 ≥ maxX ∨ isWallTile (gridGet t (x + 1) bottom) = true)
      then [(⟨x, bottom⟩ : Point)] else [])
  let vert := (List.range (room.height + 1)).bind fun j =>
    let y := top + j
    (if y < maxY ∧ left < maxX ∧ isFloorTile (gridGet t left y) = true
        ∧ (y = 0 ∨ isWallTile (gridGet t left (y - 1)) = true)
        ∧ (y + 1 ≥ maxY ∨ isWallTile (gridGet t left (y + 1)) = true)
      then [(⟨left, y⟩ : Point)] else [])
    ++ (if y < maxY ∧ right < maxX ∧ isFloorTile (gridGet t right y) = true
        ∧ (y = 0 ∨ isWallTile (gridGet t right (y - 1)) = true)
        ∧ (y + 1 ≥ maxY ∨ isWallTile (gridGet t right (y + 1)) = true)
      then [(⟨right, y⟩ : Point)] else [])
  horiz ++ vert

/-- `Room::place_doors`: an independent coin flip per entrance converts it to
a closed door. -/
def place_doors (room : Room) (t : Grid) (g : Rng) : Grid × Rng :=
  (find_room_entrances room t).foldl (fun (st : Grid × Rng) e =>
    let (b, g') := genBool (mkRat 1 2) st.2
    (if b then gridSet st.1 e.x e.y (.Door false false) else st.1, g')) (t, g)

/-- `Room::determine_room_type`: entrance-count dependent probabilities
`(0.7, 0.2, 0.1)` for a single entrance, `(0.3, 0.4, 0.3)` otherwise.  The
Rust `assert!` that the three probabilities sum to 1.0 holds exactly here:
`7/10 + 2/10 + 1/10 = 1` and `3/10 + 4/10 + 3/10 = 1`.  The second component
of `pr` carries the constant-folded `obelisk_chance + secret_chance`
(`0.7 + 0.2 = 0.9`, `0.3 + 0.4 = 0.7`) so the comparison stays
kernel-computable. -/
def determine_room_type (room : Room) (t : Grid) (g : Rng) : Room × Rng :=
  let entrances := find_room_entrances room t
  let pr : ℚ × ℚ :=
    if entrances.length = 1 then (mkRat 7 10, mkRat 9 10) else (mkRat 3 10, mkRat 7 10)
  let (q, g1) := g.nextRat
  let rt := if q < pr.1 then RoomType.Obelisk
    else if q < pr.2 then RoomType.Secret
    else RoomType.Normal
  ({ room with room_type := rt }, g1)

/-- `Room::place_obelisk`: a cursing obelisk at the room center. -/
def place_obelisk (room : Room) (t : Grid) : Grid :=
  gridSet t room.center.x room.center.y (.Obelisk false true 8 1 3)

/-- `Room::place_secret`: collect interior floor cells adjacent to columns;
pick the rarity (secret rooms: 100 with probability 0.9 else 1000; normal
rooms: uniformly from {1, 10, 100}); then place the secret at a random
collected cell, or at a uniform interior cell when no column exists. -/
def place_secret (room : Room) (t : Grid) (isSecretRoom : Bool) (g : Rng) : Grid × Rng :=
  let xs := room.location.x + 1
  let xe := room.location.x + room.width - 1
  let ys := room.location.y + 1
  let ye := room.location.y + room.height - 1
  let pots : List (Nat × Nat) := (List.range (ye - ys)).bind fun j =>
    (List.range (xe - xs)).bind fun i =>
      let y := ys + j
      let x := xs + i
      match gridGet t x y with
      | .Column _ =>
        ([(x - 1, y), (x + 1, y), (x, y - 1), (x, y + 1)] : List (Nat × Nat)).filter
          fun a => decide (xs ≤ a.1 ∧ a.1 < xe ∧ ys ≤ a.2 ∧ a.2 < ye)
            && isFloorTile (gridGet t a.1 a.2)
      | _ => []
  let rar :=
    if isSecretRoom then
      let (b, g') := genBool (mkRat 9 10) g
      ((if b then 100 else 1000 : Nat), g')
    else
      let (n, g') := g.nextNat
      (([1, 10, 100] : List Nat).getD (n % 3) 1, g')
  let rarity := rar.1
  let g1 := rar.2
  if pots.isEmpty = false then
    let (k, g2) := genRange 0 pots.length g1
    let pk := pots.getD k (0, 0)
    (gridSet t pk.1 pk.2 (.Secret false rarity), g2)
  else
    let (x, g2) := genRange xs xe g1
    let (y, g3) := genRange ys ye g2
    (gridSet t x y (.Secret false rarity), g3)

/-- The mob tile for `mob_types[i]` with the stats of `Room::place_mobs`. -/
def mobFromIdx : Nat → Tile
  | 0 => .Wither false 50 10 6
  | 1 => .Bat false 20 5 8
  | _ => .Brute false 80 15 4

/-- The attempt loop shared by `place_mobs` / `place_brute`: up to 11 drawing
attempts to find an unoccupied interior floor cell. -/
def mobPosLoop (xs xe ys ye : Nat) (t : Grid) :
    Nat → List (Nat × Nat) → Rng → Option (Nat × Nat) × List (Nat × Nat) × Rng
  | 0, occ, g => (none, occ, g)
  | fuel + 1, occ, g =>
    let (x, g1) := genRange xs xe g
    let (y, g2) := genRange ys ye g1
    if (x, y) ∈ occ then mobPosLoop xs xe ys ye t fuel occ g2
    else
      match gridGet t x y with
      | .Floor _ _ => (some (x, y), (x, y) :: occ, g2)
      | _ => mobPosLoop xs xe ys ye t fuel occ g2

/-- `Room::place_mobs`: 1–3 mobs of random kinds on unoccupied interior
floor cells. -/
def place_mobs (room : Room) (t : Grid) (g : Rng) : Grid × Rng :=
  let (nm, g1) := genRangeIncl 1 3 g
  let xs := room.location.x + 1
  let xe := room.location.x + room.width - 1
  let ys := room.location.y + 1
  let ye := room.location.y + room.height - 1
  let st := (List.range nm).foldl (fun (st : Grid × List (Nat × Nat) × Rng) _ =>
    let (t', occ, g') := st
    let (mi, g1') := genRange 0 3 g'
    let res := mobPosLoop xs xe ys ye t' 11 occ g1'
    match res.1 with
    | some p => (gridSet t' p.1 p.2 (mobFromIdx mi), res.2.1, res.2.2)
    | none => (t', res.2.1, res.2.2)) (t, [], g1)
  (st.1, st.2.2)

/-- `Room::place_brute`: one brute (hp 20, damage 10) on an interior floor
cell, with a fresh occupancy set. -/
def place_brute (room : Room) (t : Grid) (g : Rng) : Grid × Rng :=
  let xs := room.location.x + 1
  let xe := room.location.x + room.width - 1
  let ys := room.location.y + 1
  let ye := room.location.y + room.height - 1
  let res := mobPosLoop xs xe ys ye t 11 [] g
  match res.1 with
  | some p => (gridSet t p.1 p.2 (.Brute false 20 10 4), res.2.2)
  | none => (t, res.2.2)

/-- `Room::populate`: floors, walls, columns, room-type classification, the
type-dependent features, then this room's own door pass. -/
def Room.populate (room : Room) (t : Grid) (g : Rng) : Grid × Room × Rng :=
  let t1 := fill_with_floor room t
  let t2 := surround_with_walls room t1
  let cg := place_columns room t2 g
  let rg := determine_room_type room cg.1 cg.2
  let room1 := rg.1
  let g2 := rg.2
  match room1.room_type with
  | .Obelisk =>
    let t4 := place_obelisk room1 cg.1
    let dg := place_doors room1 t4 g2
    (dg.1, room1, dg.2)
  | .Secret =>
    let sg := place_secret room1 cg.1 true g2
    let bg := genBool (mkRat 1 2) sg.2
    if bg.1 then
      let mg := place_mobs room1 sg.1 bg.2
      let brg := place_brute room1 mg.1 mg.2
      let dg := place_doors room1 brg.1 brg.2
      (dg.1, room1, dg.2)
    else
      let dg := place_doors room1 sg.1 bg.2
      (dg.1, room1, dg.2)
  | .Normal =>
    let og := genBool (mkRat 1 4) g2
    let t4 := if og.1 then place_obelisk room1 cg.1 else cg.1
    let secg := genBool (mkRat 1 2) og.2
    let sg := if secg.1 then place_secret room1 t4 false secg.2 else (t4, secg.2)
    let mobg := genBool (mkRat 19 20) sg.2
    let mg := if mobg.1 then place_mobs room1 sg.1 mobg.2 else (sg.1, mobg.2)
    let dg := place_doors room1 mg.1 mg.2
    (dg.1, room1, dg.2)

/-- `MapGenerator::populate_all_rooms` (the rayon `par_iter_mut` serialised in
room order; each room's thread-local draws become consecutive stream draws). -/
def populate_all (t : Grid) (rooms : List Room) (g : Rng) : Grid × List Room × Rng :=
  rooms.foldl (fun (st : Grid × List Room × Rng) room =>
    let pg := room.populate st.1 st.2.2
    (pg.1, st.2.1 ++ [pg.2.1], pg.2.2)) (t, [], g)

/-- The `(dy, dx)` order of the 3×3 stamp loops of `carve_corridor`. -/
def carveDeltas : List (Int × Int) :=
  [(-1, -1), (-1, 0), (-1, 1), (0, -1), (0, 0), (0, 1), (1, -1), (1, 0), (1, 1)]

/-- `isize` clamp into `[0, limit - 1]` followed by the cast back to `usize`. -/
def clampCoord (v : Int) (limit : Nat) : Nat :=
  (max 0 (min v ((limit : Int) - 1))).toNat

/-- `MapGenerator::carve_corridor`: stamp a 3×3 block around `(x, y)` with
edge clamping — the center becomes `Floor`, the surrounding cells become
`Wall` only when previously `Empty`. -/
def carve_corridor (wd ht : Nat) (x y : Nat) (t : Grid) : Grid :=
  carveDeltas.foldl (fun acc d =>
    let nx := clampCoord ((x : Int) + d.2) wd
    let ny := clampCoord ((y : Int) + d.1) ht
    if d.2 = 0 ∧ d.1 = 0 then gridSet acc nx ny (.Floor false false)
    else if gridGet acc nx ny = .Empty then gridSet acc nx ny (.Wall false)
    else acc) t

/-- One movement step of the drunken walk: advance the active axis one cell
towards the target (clamped into the grid) when its delta is nonzero. -/
def walkMove (wd ht : Nat) (b cur : Point) (dirX : Bool) : Point :=
  if dirX then
    let dx : Int := (b.x : Int) - cur.x
    if dx ≠ 0 then { cur with x := clampCoord ((cur.x : Int) + dx.sign) wd } else cur
  else
    let dy : Int := (b.y : Int) - cur.y
    if dy ≠ 0 then { cur with y := clampCoord ((cur.y : Int) + dy.sign) ht } else cur

/-- The `while current != end` loop of `drunken_walk_corridor`.  `fuel` bounds
the iteration count; `walk_fuel_sufficient` below shows the fuel passed by
`drunken_walk_corridor` is never exhausted for in-bounds endpoints, so the
model agrees with the Rust loop.  Note the short-circuit: the turn coin is
drawn only when the active axis has not yet reached the target. -/
def walkAux (wd ht : Nat) (b : Point) :
    Nat → Point → Bool → Grid → Rng → Grid × Rng
  | 0, _, _, t, g => (t, g)
  | fuel + 1, cur, dirX, t, g =>
    if cur = b then (t, g)
    else
      let t1 := carve_corridor wd ht cur.x cur.y t
      let dx : Int := (b.x : Int) - cur.x
      let dy : Int := (b.y : Int) - cur.y
      let atEnd := if dirX then dx = 0 else dy = 0
      let tg := if atEnd then (true, g) else genBool (mkRat 1 5) g
      let dir' := if tg.1 then !dirX else dirX
      let cur' := walkMove wd ht b cur dir'
      walkAux wd ht b fuel cur' dir' t1 tg.2

/-- The fuel budget for a walk from `a` to `b`: twice the L1 distance plus
two, enough for the at-most-one idle iteration between any two moves. -/
def walkFuel (a b : Point) : Nat :=
  2 * (((a.x : Int) - b.x).natAbs + ((a.y : Int) - b.y).natAbs) + 2

/-- `MapGenerator::drunken_walk_corridor`: random initial axis, then walk. -/
def drunken_walk_corridor (wd ht : Nat) (a b : Point) (t : Grid) (g : Rng) :
    Grid × Rng :=
  let dg := genBool (mkRat 1 2) g
  walkAux wd ht b (walkFuel a b) a dg.1 t dg.2

/-- `MapGenerator::connect_rooms_bsp`: post-order; at each node with both
children, carve a corridor between the representative rooms of the two
subtrees (when both exist). -/
def connect_rooms_bsp (wd ht : Nat) : BSPNode → Grid × Rng → Grid × Rng
  | .mk _ _ _ _ l r _, (t, g) =>
    match l, r with
    | some ln, some rn =>
      let s1 := connect_rooms_bsp wd ht ln (t, g)
      let s2 := connect_rooms_bsp wd ht rn s1
      match get_room_in_subtree ln, get_room_in_subtree rn with
      | some lr, some rr => drunken_walk_corridor wd ht lr.center rr.center s2.1 s2.2
      | _, _ => s2
    | _, _ => (t, g)

/-- `MapGenerator::place_all_room_doors` (serialised like `populate_all`). -/
def place_all_room_doors (rooms : List Room) (t : Grid) (g : Rng) : Grid × Rng :=
  rooms.foldl (fun (st : Grid × Rng) room => place_doors room st.1 st.2) (t, g)

/-- The observable result of `MapGenerator::generate`: the tile grid, the room
list, and the BSP tree the generator retains. -/
structure GenState where
  tiles : Grid
  rooms : List Room
  bsp_root : BSPNode

/-- `MapGenerator::new` + `fill_with_empty`: an all-`Empty` `height × width`
grid. -/
def mkEmptyGrid (w h : Nat) : Grid := List.replicate h (List.replicate w Tile.Empty)

/-- `MapGenerator::generate(min_room_size, max_room_size)` on a `width ×
height` generator: BSP split (max depth 5), room creation, room population,
post-order corridor connection, then the final door pass.  `none` propagates
the room-creation underflow panic of sub-4 partitions. -/
def generate (g : Rng) (w h minS maxS : Nat) : Option GenState :=
  let t0 := mkEmptyGrid w h
  let sg := split_node minS 5 (BSPNode.mk 0 0 w h none none none) g
  match collect_rooms_in_node minS maxS sg.1 sg.2 with
  | none => none
  | some (root2, rooms0, g2) =>
    let pg := populate_all t0 rooms0 g2
    let cg := connect_rooms_bsp w h root2 (pg.1, pg.2.2)
    let dg := place_all_room_doors pg.2.1 cg.1 cg.2
    some ⟨dg.1, pg.2.1, root2⟩

end Generator

section Connectivity

/-- The L1 (taxicab) distance between two grid points. -/
def l1dist (p q : Point) : Nat :=
  ((p.x : Int) - q.x).natAbs + ((p.y : Int) - q.y).natAbs

/-- A 4-connected chain of `Floor` tiles from `a` to `b` in the grid `t` —
the "path of Floor-classified cells" whose existence the flood-fill
reachability check of the specification decides.  Both endpoints are
required to be `Floor` tiles themselves. -/
inductive FloorPath (t : Grid) : Point → Point → Prop where
  | single {p : Point} : isFloorTile (gridGet t p.x p.y) = true → FloorPath t p p
  | step {p q r : Point} : FloorPath t p q → l1dist q r = 1 →
      isFloorTile (gridGet t r.x r.y) = true → FloorPath t p r

theorem FloorPath.floor_right {t : Grid} {a b : Point} (h : FloorPath t a b) :
    isFloorTile (gridGet t b.x b.y) = true := by
  cases h <;> assumption

/-- For every internal BSP node with both children, the pair of centres of
the representative rooms of the two subtrees (when both exist) — exactly
the `(lr.center(), rr.center())` pairs that `connect_rooms_bsp` joins. -/
def siblingRepPairs : BSPNode → List (Point × Point)
  | .mk _ _ _ _ l r _ =>
    match l, r with
    | some ln, some rn =>
      (match get_room_in_subtree ln, get_room_in_subtree rn with
       | some lr, some rr => [(lr.center, rr.center)]
       | _, _ => []) ++ (siblingRepPairs ln ++ siblingRepPairs rn)
    | _, _ => []

/-- A concrete RNG trace for `generate` on an 18×9 grid with room sizes in
`[5, 20]`: one vertical split at 9, maximal 5×5 rooms at the partition
corners, no columns, a `RoomType.Obelisk` roll for the right room, no mobs,
and a never-turning corridor walk. -/
def cexRng : Rng :=
  ⟨[], [4, 0, 0, 0, 0, 0, 0, 0, 0],
   [mkRat 1 2, mkRat 9 10, mkRat 9 10, mkRat 9 10, mkRat 99 100, mkRat 1 2, 0, 0,
    mkRat 1 2, mkRat 1 2, mkRat 1 2, mkRat 1 2, mkRat 1 2, mkRat 1 2, mkRat 1 2,
    mkRat 1 2, mkRat 1 2, mkRat 1 2, mkRat 1 2]⟩

/-- The tile grid produced by `generate cexRng 18 9 5 20`: two walled 5×5
rooms joined by a corridor along `y = 4`, with an `Obelisk` standing on the
right room's centre `(13, 4)`. -/
def cexGrid : Grid :=
  [[.Empty, .Empty, .Empty, .Empty, .Empty, .Empty, .Empty, .Empty, .Empty, .Empty, .Empty, .Empty, .Empty, .Empty, .Empty, .Empty, .Empty, .Empty],
   [.Empty, .Empty, .Empty, .Empty, .Empty, .Empty, .Empty, .Empty, .Empty, .Empty, .Empty, .Empty, .Empty, .Empty, .Empty, .Empty, .Empty, .Empty],
   [.Empty, .Empty, .Wall false, .Wall false, .Wall false, .Wall false, .Wall false, .Wall false, .Empty, .Empty, .Empty, .Wall false, .Wall false, .Wall false, .Wall false, .Wall false, .Wall false, .Empty],
   [.Empty, .Empty, .Wall false, .Floor false false, .Floor false false, .Floor false false, .Floor false false, .Wall false, .Wall false, .Wall false, .Wall false, .Wall false, .Floor false false, .Floor false false, .Floor false false, .Floor false false, .Wall false, .Empty],
   [.Empty, .Empty, .Wall false, .Floor false false, .Floor false false, .Floor false false, .Floor false false, .Floor false false, .Floor false false, .Floor false false, .Floor false false, .Floor false false, .Floor false false, .Obelisk false true 8 1 3, .Floor false false, .Floor false false, .Wall false, .Empty],
   [.Empty, .Empty, .Wall false, .Floor false false, .Floor false false, .Floor false false, .Floor false false, .Wall false, .Wall false, .Wall false, .Wall false, .Wall false, .Floor false false, .Floor false false, .Floor false false, .Floor false false, .Wall false, .Empty],
   [.Empty, .Empty, .Wall false, .Floor false false, .Floor false false, .Floor false false, .Floor false false, .Wall false, .Empty, .Empty, .Empty, .Wall false, .Floor false false, .Floor false false, .Floor false false, .Floor false false, .Wall false, .Empty],
   [.Empty, .Empty, .Wall false, .Wall false, .Wall false, .Wall false, .Wall false, .Wall false, .Empty, .Empty, .Empty, .Wall false, .Wall false, .Wall false, .Wall false, .Wall false, .Wall false, .Empty],
   [.Empty, .Empty, .Empty, .Empty, .Empty, .Empty, .Empty, .Empty, .Empty, .Empty, .Empty, .Empty, .Empty, .Empty, .Empty, .Empty, .Empty, .Empty]]

/-- The room list produced by `generate cexRng 18 9 5 20`. -/
def cexRooms : List Room :=
  [⟨⟨2, 2⟩, 5, 5, .Normal⟩, ⟨⟨11, 2⟩, 5, 5, .Obelisk⟩]

/-- The BSP tree produced by `generate cexRng 18 9 5 20`: one vertical split
into two 9×9 leaves, each holding a (cloned, hence still `Normal`) room. -/
def cexTree : BSPNode :=
  .mk 0 0 18 9
    (some (.mk 0 0 9 9 none none (some ⟨⟨2, 2⟩, 5, 5, .Normal⟩)))
    (some (.mk 9 0 9 9 none none (some ⟨⟨11, 2⟩, 5, 5, .Normal⟩)))
    none

set_option maxRecDepth 100000 in
/-- C5, counterexample: on the RNG trace `cexRng`, `generate` completes and
returns the map `cexGrid` with BSP tree `cexTree`; the (unique) pair of
sibling representative rooms joined at a BSP internal node has centres
`(4, 4)` and `(13, 4)`, yet no path of `Floor` cells joins those centres —
room population (which runs before corridor carving) has placed an
`Obelisk`, which is neither `Floor` nor walkable, on the centre `(13, 4)`
itself, and the drunken walk never carves its end cell. -/
theorem corridor_connectivity_cex :
    generate cexRng 18 9 5 20 = some ⟨cexGrid, cexRooms, cexTree⟩ ∧
    siblingRepPairs cexTree = [(⟨4, 4⟩, ⟨13, 4⟩)] ∧
    gridGet cexGrid 13 4 = .Obelisk false true 8 1 3 ∧
    ¬ FloorPath cexGrid ⟨4, 4⟩ ⟨13, 4⟩ := by
  refine ⟨rfl, rfl, rfl, fun hp => ?_⟩
  have h := hp.floor_right
  rw [show gridGet cexGrid 13 4 = .Obelisk false true 8 1 3 from rfl] at h
  simp [isFloorTile] at h

end Connectivity

section ConnectivitySpec

/-- `t` is a rectangular grid of `ht` rows of `wd` tiles each. -/
def rect (t : Grid) (wd ht : Nat) : Prop :=
  t.length = ht ∧ ∀ y, y < ht → (t.getD y []).length = wd

instance (t : Grid) (wd ht : Nat) : Decidable (rect t wd ht) := by
  unfold rect; infer_instance

/-- The cell at `p` holds a `Floor` tile. -/
def FloorAt (t : Grid) (p : Point) : Prop := isFloorTile (gridGet t p.x p.y) = true

theorem gridSet_length (t : Grid) (x y : Nat) (v : Tile) :
    (gridSet t x y v).length = t.length := by
  simp [gridSet]

theorem gridSet_getD_length (t : Grid) (x y z : Nat) (v : Tile) :
    ((gridSet t x y v).getD z []).length = (t.getD z []).length := by
  unfold gridSet
  rcases eq_or_ne z y with h | h
  · subst h
    rcases Nat.lt_or_ge z t.length with hz | hz
    · rw [getD_set_self _ _ _ hz, List.length_set]
    · rw [set_eq_self_of_le _ _ hz]
  · rw [getD_set_ne _ _ _ (Ne.symm h)]

theorem rect_gridSet {t : Grid} {wd ht : Nat} (h : rect t wd ht) (x y : Nat) (v : Tile) :
    rect (gridSet t x y v) wd ht :=
  ⟨by rw [gridSet_length, h.1],
   fun z hz => by rw [gridSet_getD_length]; exact h.2 z hz⟩

theorem gridGet_gridSet_self {t : Grid} {x y : Nat} (v : Tile)
    (hy : y < t.length) (hx : x < (t.getD y []).length) :
    gridGet (gridSet t x y v) x y = v := by
  unfold gridGet gridSet
  rw [getD_set_self _ _ _ hy, getD_set_self _ _ _ hx]

theorem gridGet_gridSet_ne {t : Grid} {x y x' y' : Nat} (v : Tile)
    (h : ¬(x' = x ∧ y' = y)) :
    gridGet (gridSet t x y v) x' y' = gridGet t x' y' := by
  unfold gridGet gridSet
  rcases eq_or_ne y' y with hy | hy
  · subst hy
    have hx : x ≠ x' := fun hc => h ⟨hc.symm, rfl⟩
    rcases Nat.lt_or_ge y' t.length with hz | hz
    · rw [getD_set_self _ _ _ hz, getD_set_ne _ _ _ hx]
    · rw [set_eq_self_of_le _ _ hz]
  · rw [getD_set_ne _ _ _ (Ne.symm hy)]

theorem FloorAt.bounds {t : Grid} {p : Point} (h : FloorAt t p) :
    p.y < t.length ∧ p.x < (t.getD p.y []).length := by
  unfold FloorAt gridGet at h
  constructor
  · by_contra hc
    rw [getD_eq_default_of_le t [] (Nat.le_of_not_lt hc)] at h
    rw [getD_eq_default_of_le [] Tile.Empty (Nat.zero_le _)] at h
    simp [isFloorTile] at h
  · by_contra hc
    rw [getD_eq_default_of_le _ Tile.Empty (Nat.le_of_not_lt hc)] at h
    simp [isFloorTile] at h

theorem carve_fold_mono (wd ht x y : Nat) (p : Point) :
    ∀ (ds : List (Int × Int)) (t : Grid), FloorAt t p →
    FloorAt (ds.foldl (fun acc d =>
      let nx := clampCoord ((x : Int) + d.2) wd
      let ny := clampCoord ((y : Int) + d.1) ht
      if d.2 = 0 ∧ d.1 = 0 then gridSet acc nx ny (.Floor false false)
      else if gridGet acc nx ny = .Empty then gridSet acc nx ny (.Wall false)
      else acc) t) p := by
  intro ds
  induction ds with
  | nil => intro t h; exact h
  | cons d ds ih =>
    intro t h
    rw [List.foldl_cons]
    apply ih
    dsimp only
    split
    · by_cases hp : p.x = clampCoord ((x : Int) + d.2) wd ∧
          p.y = clampCoord ((y : Int) + d.1) ht
      · unfold FloorAt
        rw [hp.1, hp.2,
          gridGet_gridSet_self _ (hp.2 ▸ h.bounds.1) (hp.1 ▸ hp.2 ▸ h.bounds.2)]
        rfl
      · unfold FloorAt
        rw [gridGet_gridSet_ne _ hp]
        exact h
    · split
      · rename_i hE
        by_cases hp : p.x = clampCoord ((x : Int) + d.2) wd ∧
            p.y = clampCoord ((y : Int) + d.1) ht
        · exfalso
          unfold FloorAt at h
          rw [hp.1, hp.2, hE] at h
          simp [isFloorTile] at h
        · unfold FloorAt
          rw [gridGet_gridSet_ne _ hp]
          exact h
      · exact h

theorem carve_fold_rect (wd ht x y : Nat) :
    ∀ (ds : List (Int × Int)) (t : Grid), rect t wd ht →
    rect (ds.foldl (fun acc d =>
      let nx := clampCoord ((x : Int) + d.2) wd
      let ny := clampCoord ((y : Int) + d.1) ht
      if d.2 = 0 ∧ d.1 = 0 then gridSet acc nx ny (.Floor false false)
      else if gridGet acc nx ny = .Empty then gridSet acc nx ny (.Wall false)
      else acc) t) wd ht := by
  intro ds
  induction ds with
  | nil => intro t h; exact h
  | cons d ds ih =>
    intro t h
    rw [List.foldl_cons]
    apply ih
    dsimp only
    split
    · exact rect_gridSet h _ _ _
    · split
      · exact rect_gridSet h _ _ _
      · exact h

theorem carve_mono {wd ht x y : Nat} {p : Point} {t : Grid} (h : FloorAt t p) :
    FloorAt (carve_corridor wd ht x y t) p :=
  carve_fold_mono wd ht x y p carveDeltas t h

theorem carve_rect {wd ht : Nat} {t : Grid} (h : rect t wd ht) (x y : Nat) :
    rect (carve_corridor wd ht x y t) wd ht :=
  carve_fold_rect wd ht x y carveDeltas t h

theorem clampCoord_eq_self {n limit : Nat} (h : n < limit) :
    clampCoord (n : Int) limit = n := by
  unfold clampCoord
  omega

theorem carve_center {wd ht x y : Nat} {t : Grid} (hrect : rect t wd ht)
    (hx : x < wd) (hy : y < ht) :
    FloorAt (carve_corridor wd ht x y t) ⟨x, y⟩ := by
  unfold carve_corridor
  have hsplit : carveDeltas =
      [((-1 : Int), (-1 : Int)), (-1, 0), (-1, 1), (0, -1)] ++
        ((0 : Int), (0 : Int)) :: [((0 : Int), (1 : Int)), (1, -1), (1, 0), (1, 1)] := rfl
  rw [hsplit, List.foldl_append, List.foldl_cons]
  apply carve_fold_mono
  have hrect4 := carve_fold_rect wd ht x y
      [((-1 : Int), (-1 : Int)), (-1, 0), (-1, 1), (0, -1)] t hrect
  show FloorAt (gridSet
      (List.foldl (fun acc d =>
        let nx := clampCoord ((x : Int) + d.2) wd
        let ny := clampCoord ((y : Int) + d.1) ht
        if d.2 = 0 ∧ d.1 = 0 then gridSet acc nx ny (.Floor false false)
        else if gridGet acc nx ny = .Empty then gridSet acc nx ny (.Wall false)
        else acc) t [((-1 : Int), (-1 : Int)), (-1, 0), (-1, 1), (0, -1)])
      (clampCoord ((x : Int) + 0) wd) (clampCoord ((y : Int) + 0) ht)
      (.Floor false false)) ⟨x, y⟩
  rw [show ((x : Int) + 0) = (x : Int) by ring,
      show ((y : Int) + 0) = (y : Int) by ring,
      clampCoord_eq_self hx, clampCoord_eq_self hy]
  unfold FloorAt
  rw [gridGet_gridSet_self _ (by rw [hrect4.1]; exact hy)
      (by rw [hrect4.2 y hy]; exact hx)]
  rfl

theorem l1dist_eq_zero {p q : Point} : l1dist p q = 0 ↔ p = q := by
  obtain ⟨px, py⟩ := p
  obtain ⟨qx, qy⟩ := q
  unfold l1dist
  dsimp only
  simp only [Point.mk.injEq]
  constructor
  · intro h
    constructor <;> omega
  · rintro ⟨h1, h2⟩
    subst h1; subst h2
    omega

theorem l1dist_self (p : Point) : l1dist p p = 0 := by
  unfold l1dist; omega

theorem FloorPath.mono {t t' : Grid} (hmono : ∀ q, FloorAt t q → FloorAt t' q)
    {a b : Point} (h : FloorPath t a b) : FloorPath t' a b := by
  induction h with
  | single hp => exact .single (hmono _ hp)
  | step _ hadj hf ih => exact .step ih hadj (hmono _ hf)

theorem FloorPath.cons_front {t : Grid} {q r p : Point}
    (h : FloorPath t q r) (hadj : l1dist p q = 1) (hf : FloorAt t p) :
    FloorPath t p r := by
  induction h with
  | single hq => exact .step (.single hf) hadj hq
  | step _ hadj2 hf2 ih => exact .step ih hadj2 hf2

theorem walkAux_at_end (wd ht : Nat) (b : Point) (fuel : Nat) (dirX : Bool)
    (t : Grid) (g : Rng) : walkAux wd ht b fuel b dirX t g = (t, g) := by
  cases fuel with
  | zero => rfl
  | succ n => simp [walkAux]

theorem walkAux_at_end_fst (wd ht : Nat) (b : Point) (fuel : Nat) (dirX : Bool)
    (t : Grid) (g : Rng) : (walkAux wd ht b fuel b dirX t g).1 = t := by
  rw [walkAux_at_end]

theorem walkAux_fst_mono (wd ht : Nat) (b p : Point) :
    ∀ (fuel : Nat) (cur : Point) (dirX : Bool) (t : Grid) (g : Rng),
      FloorAt t p → FloorAt (walkAux wd ht b fuel cur dirX t g).1 p := by
  intro fuel
  induction fuel with
  | zero => intro cur dirX t g h; exact h
  | succ n ih =>
    intro cur dirX t g h
    simp only [walkAux]
    by_cases hc : cur = b
    · rw [if_pos hc]; exact h
    · rw [if_neg hc]
      exact ih _ _ _ _ (carve_mono h)

theorem walkAux_rect (wd ht : Nat) (b : Point) :
    ∀ (fuel : Nat) (cur : Point) (dirX : Bool) (t : Grid) (g : Rng),
      rect t wd ht → rect (walkAux wd ht b fuel cur dirX t g).1 wd ht := by
  intro fuel
  induction fuel with
  | zero => intro cur dirX t g h; exact h
  | succ n ih =>
    intro cur dirX t g h
    simp only [walkAux]
    by_cases hc : cur = b
    · rw [if_pos hc]; exact h
    · rw [if_neg hc]
      exact ih _ _ _ _ (carve_rect h _ _)

theorem drunken_fst_mono (wd ht : Nat) (a b p : Point) (t : Grid) (g : Rng)
    (h : FloorAt t p) : FloorAt (drunken_walk_corridor wd ht a b t g).1 p :=
  walkAux_fst_mono wd ht b p _ _ _ _ _ h

theorem drunken_rect (wd ht : Nat) (a b : Point) (t : Grid) (g : Rng)
    (h : rect t wd ht) : rect (drunken_walk_corridor wd ht a b t g).1 wd ht :=
  walkAux_rect wd ht b _ _ _ _ _ h

theorem connect_fst_mono (wd ht : Nat) (p : Point) :
    ∀ (node : BSPNode) (t : Grid) (g : Rng), FloorAt t p →
      FloorAt (connect_rooms_bsp wd ht node (t, g)).1 p
  | .mk _ _ _ _ none _ _, t, g, h => by
    rw [connect_rooms_bsp]
    · exact h
    · intro ln rn h1 h2; cases h1
  | .mk _ _ _ _ (some ln) none _, t, g, h => by
    rw [connect_rooms_bsp]
    · exact h
    · intro ln2 rn h1 h2; cases h2
  | .mk _ _ _ _ (some ln) (some rn) _, t, g, h => by
    rw [connect_rooms_bsp]
    have h1 := connect_fst_mono wd ht p ln t g h
    have h2 := connect_fst_mono wd ht p rn
      (connect_rooms_bsp wd ht ln (t, g)).1 (connect_rooms_bsp wd ht ln (t, g)).2 h1
    rcases get_room_in_subtree ln with _ | lr <;>
      rcases get_room_in_subtree rn with _ | rr
    · exact h2
    · exact h2
    · exact h2
    · exact drunken_fst_mono wd ht _ _ p _ _ h2

theorem connect_rect (wd ht : Nat) :
    ∀ (node : BSPNode) (t : Grid) (g : Rng), rect t wd ht →
      rect (connect_rooms_bsp wd ht node (t, g)).1 wd ht
  | .mk _ _ _ _ none _ _, t, g, h => by
    rw [connect_rooms_bsp]
    · exact h
    · intro ln rn h1 h2; cases h1
  | .mk _ _ _ _ (some ln) none _, t, g, h => by
    rw [connect_rooms_bsp]
    · exact h
    · intro ln2 rn h1 h2; cases h2
  | .mk _ _ _ _ (some ln) (some rn) _, t, g, h => by
    rw [connect_rooms_bsp]
    have h1 := connect_rect wd ht ln t g h
    have h2 := connect_rect wd ht rn
      (connect_rooms_bsp wd ht ln (t, g)).1 (connect_rooms_bsp wd ht ln (t, g)).2 h1
    rcases get_room_in_subtree ln with _ | lr <;>
      rcases get_room_in_subtree rn with _ | rr
    · exact h2
    · exact h2
    · exact h2
    · exact drunken_rect wd ht _ _ _ _ h2

theorem int_sign_of_neg {n : Int} (h : n < 0) : n.sign = -1 := by
  rcases n with (_ | k) | k
  · exact absurd h (by decide)
  · exact absurd h (Int.not_lt.mpr (Int.ofNat_nonneg _))
  · rfl

theorem int_sign_of_pos {n : Int} (h : 0 < n) : n.sign = 1 := by
  rcases n with (_ | k) | k
  · exact absurd h (by decide)
  · rfl
  · exact absurd h (Int.not_lt.mpr (le_of_lt (Int.negSucc_lt_zero k)))

/-- One clamped step from `c` towards `bb` (both inside `[0, lim)`): the clamp
is a no-op, the step lands inside the grid, and the L1 distance to `bb` drops
by exactly one. -/
theorem clamp_step_toward {c bb lim : Nat} (hc : c < lim) (hb : bb < lim)
    (hne : (bb : Int) - c ≠ 0) :
    ∃ n : Nat, clampCoord ((c : Int) + ((bb : Int) - c).sign) lim = n ∧
      n < lim ∧ ((bb : Int) - n).natAbs + 1 = ((bb : Int) - c).natAbs ∧
      ((c : Int) - n).natAbs = 1 := by
  rcases lt_trichotomy ((bb : Int) - c) 0 with h | h | h
  · refine ⟨c - 1, ?_, by omega, by omega, by omega⟩
    rw [int_sign_of_neg h]
    unfold clampCoord
    omega
  · exact absurd h hne
  · refine ⟨c + 1, ?_, by omega, by omega, by omega⟩
    rw [int_sign_of_pos h]
    unfold clampCoord
    omega

theorem point_eq_of_deltas {a c : Point} (hx : (c.x : Int) - a.x = 0)
    (hy : (c.y : Int) - a.y = 0) : a = c := by
  obtain ⟨ax, ay⟩ := a
  obtain ⟨cx, cy⟩ := c
  dsimp only at hx hy
  simp only [Point.mk.injEq]
  omega

/-- A `walkMove` step either leaves the walker in place because the active
axis has reached the target, or moves it one cell closer to `b` while staying
inside the grid. -/
theorem walkMove_spec (wd ht : Nat) (b cur : Point) (dir : Bool)
    (hbw : b.x < wd) (hbh : b.y < ht) (hcw : cur.x < wd) (hch : cur.y < ht) :
    (walkMove wd ht b cur dir = cur ∧
       (dir = true → (b.x : Int) - cur.x = 0) ∧
       (dir = false → (b.y : Int) - cur.y = 0)) ∨
    (l1dist (walkMove wd ht b cur dir) b + 1 = l1dist cur b ∧
       l1dist cur (walkMove wd ht b cur dir) = 1 ∧
       (walkMove wd ht b cur dir).x < wd ∧ (walkMove wd ht b cur dir).y < ht) := by
  cases dir
  · unfold walkMove
    simp only [Bool.false_eq_true, if_false]
    by_cases hz : ((b.y : Int) - cur.y) = 0
    · left
      rw [if_neg (not_not_intro hz)]
      refine ⟨rfl, ?_, ?_⟩ <;> intro hc <;>
        first
        | exact hz
        | exact hc.elim
        | exact nomatch hc
    · right
      rw [if_pos hz]
      obtain ⟨n, hN, hlt, hdec, hone⟩ := clamp_step_toward hch hbh hz
      rw [hN]
      unfold l1dist
      dsimp only
      exact ⟨by omega, by omega, hcw, hlt⟩
  · unfold walkMove
    simp only [if_true]
    by_cases hz : ((b.x : Int) - cur.x) = 0
    · left
      rw [if_neg (not_not_intro hz)]
      refine ⟨rfl, ?_, ?_⟩ <;> intro hc <;>
        first
        | exact hz
        | exact hc.elim
        | exact nomatch hc
    · right
      rw [if_pos hz]
      obtain ⟨n, hN, hlt, hdec, hone⟩ := clamp_step_toward hcw hbw hz
      rw [hN]
      unfold l1dist
      dsimp only
      exact ⟨by omega, by omega, hlt, hch⟩

/-- One unrolled iteration of the drunken-walk loop, with the `dx`/`dy` lets
inlined. -/
theorem walkAux_step (wd ht : Nat) (b cur : Point) (n : Nat) (dirX : Bool)
    (t : Grid) (g : Rng) (hne : cur ≠ b) :
    walkAux wd ht b (n + 1) cur dirX t g =
      (let atEnd := if dirX then (b.x : Int) - cur.x = 0 else (b.y : Int) - cur.y = 0
       let tg := if atEnd then (true, g) else genBool (mkRat 1 5) g
       let dir' := if tg.1 then !dirX else dirX
       walkAux wd ht b n (walkMove wd ht b cur dir')
         dir' (carve_corridor wd ht cur.x cur.y t) tg.2) := by
  simp only [walkAux, if_neg hne]

set_option maxHeartbeats 400000 in
/-- A successfully moving iteration: the walker steps to `walkMove`, the cell
it stood on is carved to `Floor`, and the rest of the walk yields a Floor path
from there. -/
theorem walkAux_path_move (wd ht : Nat) (b : Point) (n : Nat) (cur : Point)
    (d : Bool) (t : Grid) (g : Rng)
    (ihn : ∀ (cur2 : Point) (dir2 : Bool) (t2 : Grid) (g2 : Rng),
      cur2 ≠ b → cur2.x < wd → cur2.y < ht → rect t2 wd ht →
      2 * l1dist cur2 b + 2 ≤ n →
      ∃ p : Point, l1dist p b = 1 ∧
        FloorPath (walkAux wd ht b n cur2 dir2 t2 g2).1 cur2 p)
    (hcw : cur.x < wd) (hch : cur.y < ht) (hrect : rect t wd ht)
    (hfuel : 2 * l1dist cur b ≤ n)
    (hmv : l1dist (walkMove wd ht b cur d) b + 1 = l1dist cur b ∧
       l1dist cur (walkMove wd ht b cur d) = 1 ∧
       (walkMove wd ht b cur d).x < wd ∧ (walkMove wd ht b cur d).y < ht) :
    ∃ p : Point, l1dist p b = 1 ∧
      FloorPath (walkAux wd ht b n (walkMove wd ht b cur d) d
        (carve_corridor wd ht cur.x cur.y t) g).1 cur p := by
  obtain ⟨hdec, hadj, hxlt, hylt⟩ := hmv
  have hfl : FloorAt (carve_corridor wd ht cur.x cur.y t) cur :=
    carve_center hrect hcw hch
  by_cases hcb : walkMove wd ht b cur d = b
  · refine ⟨cur, ?_, ?_⟩
    · rw [hcb] at hdec
      rw [l1dist_self] at hdec
      omega
    · rw [hcb]
      rw [walkAux_at_end_fst]
      exact FloorPath.single hfl
  · obtain ⟨p, hp1, hpath⟩ := ihn (walkMove wd ht b cur d) d
      (carve_corridor wd ht cur.x cur.y t) g hcb hxlt hylt
      (carve_rect hrect _ _) (by omega)
    exact ⟨p, hp1, hpath.cons_front hadj
      (walkAux_fst_mono wd ht b cur _ _ _ _ _ hfl)⟩

/-- A stalled iteration: the random turn put the walk onto an axis that has
already reached the target, so the walker stays put; the next iteration is a
forced turn back that must move. -/
theorem walkAux_path_stall (wd ht : Nat) (b : Point) (hbw : b.x < wd)
    (hbh : b.y < ht) (n : Nat) (cur : Point) (d : Bool) (t1 : Grid) (g : Rng)
    (ihp : ∀ m, m < n → ∀ (cur2 : Point) (dir2 : Bool) (t2 : Grid) (g2 : Rng),
      cur2 ≠ b → cur2.x < wd → cur2.y < ht → rect t2 wd ht →
      2 * l1dist cur2 b + 2 ≤ m →
      ∃ p : Point, l1dist p b = 1 ∧
        FloorPath (walkAux wd ht b m cur2 dir2 t2 g2).1 cur2 p)
    (hne : cur ≠ b) (hcw : cur.x < wd) (hch : cur.y < ht)
    (hrect1 : rect t1 wd ht)
    (hfuel : 1 + 2 * l1dist cur b ≤ n)
    (hdead : (if d = true then (b.x : Int) - cur.x else (b.y : Int) - cur.y) = 0) :
    ∃ p : Point, l1dist p b = 1 ∧
      FloorPath (walkAux wd ht b n cur d t1 g).1 cur p := by
  have hdpos : 1 ≤ l1dist cur b := by
    rcases Nat.eq_zero_or_pos (l1dist cur b) with h0 | h0
    · exact absurd (l1dist_eq_zero.mp h0) hne
    · exact h0
  rcases n with _ | m
  · omega
  rw [walkAux_step wd ht b cur m d t1 g hne]
  dsimp only
  cases d
  · simp only [Bool.false_eq_true, if_false] at hdead
    simp only [Bool.false_eq_true, if_false, Bool.not_false]
    rw [if_pos hdead]
    have hx0 : (b.x : Int) - cur.x ≠ 0 := fun h0 => hne (point_eq_of_deltas h0 hdead)
    rcases walkMove_spec wd ht b cur true hbw hbh hcw hch with ⟨_, hdx, _⟩ | hmv
    · exact absurd (hdx rfl) hx0
    · exact walkAux_path_move wd ht b m cur true t1 g
        (fun cur2 dir2 t2 g2 => ihp m (Nat.lt_succ_self m) cur2 dir2 t2 g2)
        hcw hch hrect1 (by omega) hmv
  · rw [if_pos rfl] at hdead
    simp only [eq_self_iff_true, if_true, Bool.not_true]
    rw [if_pos hdead]
    have hy0 : (b.y : Int) - cur.y ≠ 0 := fun h0 => hne (point_eq_of_deltas hdead h0)
    rcases walkMove_spec wd ht b cur false hbw hbh hcw hch with ⟨_, _, hdy⟩ | hmv
    · exact absurd (hdy rfl) hy0
    · exact walkAux_path_move wd ht b m cur false t1 g
        (fun cur2 dir2 t2 g2 => ihp m (Nat.lt_succ_self m) cur2 dir2 t2 g2)
        hcw hch hrect1 (by omega) hmv

/-- The drunken-walk loop, run with fuel at least `2 * distance + 2` from an
in-bounds start towards a distinct in-bounds target, lays down a 4-connected
chain of `Floor` cells from the start to a cell adjacent to the target. -/
theorem walkAux_path (wd ht : Nat) (b : Point) (hbw : b.x < wd) (hbh : b.y < ht) :
    ∀ (fuel : Nat) (cur : Point) (dirX : Bool) (t : Grid) (g : Rng),
      cur ≠ b → cur.x < wd → cur.y < ht → rect t wd ht →
      2 * l1dist cur b + 2 ≤ fuel →
      ∃ p : Point, l1dist p b = 1 ∧
        FloorPath (walkAux wd ht b fuel cur dirX t g).1 cur p := by
  intro fuel
  induction fuel using Nat.strong_induction_on with
  | _ fuel ih =>
  intro cur dirX t g hne hcw hch hrect hfuel
  have hdpos : 1 ≤ l1dist cur b := by
    rcases Nat.eq_zero_or_pos (l1dist cur b) with h0 | h0
    · exact absurd (l1dist_eq_zero.mp h0) hne
    · exact h0
  rcases fuel with _ | n
  · omega
  have ihn := ih n (Nat.lt_succ_self n)
  rw [walkAux_step wd ht b cur n dirX t g hne]
  dsimp only
  cases dirX
  · simp only [Bool.false_eq_true, if_false, Bool.not_false]
    by_cases hz : (b.y : Int) - cur.y = 0
    · rw [if_pos hz]
      have hx0 : (b.x : Int) - cur.x ≠ 0 := fun h0 => hne (point_eq_of_deltas h0 hz)
      rcases walkMove_spec wd ht b cur true hbw hbh hcw hch with ⟨_, hdx, _⟩ | hmv
      · exact absurd (hdx rfl) hx0
      · exact walkAux_path_move wd ht b n cur true t g ihn hcw hch hrect
          (by omega) hmv
    · rw [if_neg hz]
      rcases Bool.eq_false_or_eq_true (genBool (mkRat 1 5) g).1 with htg | htg
      · rw [htg]
        rw [show (if true = true then true else false) = true from rfl]
        rcases walkMove_spec wd ht b cur true hbw hbh hcw hch with ⟨heq, hdx, _⟩ | hmv
        · rw [heq]
          exact walkAux_path_stall wd ht b hbw hbh n cur true
            (carve_corridor wd ht cur.x cur.y t) (genBool (mkRat 1 5) g).2
            (fun m hm => ih m (by omega)) hne hcw hch (carve_rect hrect _ _)
            (by omega) (hdx rfl)
        · exact walkAux_path_move wd ht b n cur true t
            (genBool (mkRat 1 5) g).2 ihn hcw hch hrect (by omega) hmv
      · rw [htg]
        rcases walkMove_spec wd ht b cur false hbw hbh hcw hch with ⟨_, _, hdy⟩ | hmv
        · exact absurd (hdy rfl) hz
        · exact walkAux_path_move wd ht b n cur false t
            (genBool (mkRat 1 5) g).2 ihn hcw hch hrect (by omega) hmv
  · simp only [eq_self_iff_true, if_true, Bool.not_true]
    by_cases hz : (b.x : Int) - cur.x = 0
    · rw [if_pos hz]
      have hy0 : (b.y : Int) - cur.y ≠ 0 := fun h0 => hne (point_eq_of_deltas hz h0)
      rcases walkMove_spec wd ht b cur false hbw hbh hcw hch with ⟨_, _, hdy⟩ | hmv
      · exact absurd (hdy rfl) hy0
      · exact walkAux_path_move wd ht b n cur false t g ihn hcw hch hrect
          (by omega) hmv
    · rw [if_neg hz]
      rcases Bool.eq_false_or_eq_true (genBool (mkRat 1 5) g).1 with htg | htg
      · rw [htg]
        rw [show (if true = true then false else true) = false from rfl]
        rcases walkMove_spec wd ht b cur false hbw hbh hcw hch with ⟨heq, _, hdy⟩ | hmv
        · rw [heq]
          exact walkAux_path_stall wd ht b hbw hbh n cur false
            (carve_corridor wd ht cur.x cur.y t) (genBool (mkRat 1 5) g).2
            (fun m hm => ih m (by omega)) hne hcw hch (carve_rect hrect _ _)
            (by omega) (hdy rfl)
        · exact walkAux_path_move wd ht b n cur false t
            (genBool (mkRat 1 5) g).2 ihn hcw hch hrect (by omega) hmv
      · rw [htg]
        rcases walkMove_spec wd ht b cur true hbw hbh hcw hch with ⟨_, hdx, _⟩ | hmv
        · exact absurd (hdx rfl) hz
        · exact walkAux_path_move wd ht b n cur true t
            (genBool (mkRat 1 5) g).2 ihn hcw hch hrect (by omega) hmv

/-- `drunken_walk_corridor` from a distinct in-bounds start to an in-bounds
end carves a Floor chain from the start to a cell adjacent to the end. -/
theorem drunken_walk_path (wd ht : Nat) (a b : Point) (t : Grid) (g : Rng)
    (hne : a ≠ b) (haw : a.x < wd) (hah : a.y < ht) (hbw : b.x < wd)
    (hbh : b.y < ht) (hrect : rect t wd ht) :
    ∃ p : Point, l1dist p b = 1 ∧
      FloorPath (drunken_walk_corridor wd ht a b t g).1 a p := by
  unfold drunken_walk_corridor
  exact walkAux_path wd ht b hbw hbh (walkFuel a b) a _ t _ hne haw hah hrect
    (by unfold walkFuel l1dist; omega)

/-- Post-order corridor connection lays down, for every sibling
representative pair of the tree, a Floor chain from the left centre to a cell
adjacent to the right centre — provided every such pair is distinct and
in-bounds. -/
theorem connect_paths (wd ht : Nat) :
    ∀ (node : BSPNode) (t : Grid) (g : Rng), rect t wd ht →
      (∀ pr2 ∈ siblingRepPairs node, pr2.1 ≠ pr2.2 ∧
        pr2.1.x < wd ∧ pr2.1.y < ht ∧ pr2.2.x < wd ∧ pr2.2.y < ht) →
      ∀ pr ∈ siblingRepPairs node,
        ∃ p : Point, l1dist p pr.2 = 1 ∧
          FloorPath (connect_rooms_bsp wd ht node (t, g)).1 pr.1 p
  | .mk _ _ _ _ none _ _, t, g, hrect, hb => by
    intro pr hpr
    rw [siblingRepPairs] at hpr
    · exact absurd hpr (List.not_mem_nil pr)
    · intro ln rn h1 h2; cases h1
  | .mk _ _ _ _ (some ln) none _, t, g, hrect, hb => by
    intro pr hpr
    rw [siblingRepPairs] at hpr
    · exact absurd hpr (List.not_mem_nil pr)
    · intro ln2 rn h1 h2; cases h2
  | .mk x0 y0 w0 h0 (some ln) (some rn) rm, t, g, hrect, hb => by
    intro pr hpr
    have hbpr := hb pr hpr
    have hbl : ∀ pr2 ∈ siblingRepPairs ln, pr2.1 ≠ pr2.2 ∧
        pr2.1.x < wd ∧ pr2.1.y < ht ∧ pr2.2.x < wd ∧ pr2.2.y < ht := by
      intro pr2 h2
      apply hb
      rw [siblingRepPairs]
      exact List.mem_append.mpr (Or.inr (List.mem_append.mpr (Or.inl h2)))
    have hbr : ∀ pr2 ∈ siblingRepPairs rn, pr2.1 ≠ pr2.2 ∧
        pr2.1.x < wd ∧ pr2.1.y < ht ∧ pr2.2.x < wd ∧ pr2.2.y < ht := by
      intro pr2 h2
      apply hb
      rw [siblingRepPairs]
      exact List.mem_append.mpr (Or.inr (List.mem_append.mpr (Or.inr h2)))
    have hrect1 : rect (connect_rooms_bsp wd ht ln (t, g)).1 wd ht :=
      connect_rect wd ht ln t g hrect
    have ihl := connect_paths wd ht ln t g hrect hbl
    have ihr := connect_paths wd ht rn (connect_rooms_bsp wd ht ln (t, g)).1
      (connect_rooms_bsp wd ht ln (t, g)).2 hrect1 hbr
    rw [connect_rooms_bsp]
    rw [siblingRepPairs] at hpr
    rcases hgl : get_room_in_subtree ln with _ | lr <;>
      rcases hgr : get_room_in_subtree rn with _ | rr <;>
      rw [hgl, hgr] at hpr <;> dsimp only at hpr ⊢
    · rcases List.mem_append.mp hpr with h0 | hin
      · exact absurd h0 (List.not_mem_nil pr)
      · rcases List.mem_append.mp hin with hl | hr
        · obtain ⟨p, hp1, hpath⟩ := ihl pr hl
          exact ⟨p, hp1, hpath.mono fun q hq =>
            connect_fst_mono wd ht q rn _ _ hq⟩
        · obtain ⟨p, hp1, hpath⟩ := ihr pr hr
          exact ⟨p, hp1, hpath⟩
    · rcases List.mem_append.mp hpr with h0 | hin
      · exact absurd h0 (List.not_mem_nil pr)
      · rcases List.mem_append.mp hin with hl | hr
        · obtain ⟨p, hp1, hpath⟩ := ihl pr hl
          exact ⟨p, hp1, hpath.mono fun q hq =>
            connect_fst_mono wd ht q rn _ _ hq⟩
        · obtain ⟨p, hp1, hpath⟩ := ihr pr hr
          exact ⟨p, hp1, hpath⟩
    · rcases List.mem_append.mp hpr with h0 | hin
      · exact absurd h0 (List.not_mem_nil pr)
      · rcases List.mem_append.mp hin with hl | hr
        · obtain ⟨p, hp1, hpath⟩ := ihl pr hl
          exact ⟨p, hp1, hpath.mono fun q hq =>
            connect_fst_mono wd ht q rn _ _ hq⟩
        · obtain ⟨p, hp1, hpath⟩ := ihr pr hr
          exact ⟨p, hp1, hpath⟩
    · rcases List.mem_append.mp hpr with hin | hin
      · have hpr1 : pr = (lr.center, rr.center) := List.mem_singleton.mp hin
        subst hpr1
        dsimp only at hbpr
        obtain ⟨hne, haw, hah, hbw, hbh⟩ := hbpr
        exact drunken_walk_path wd ht lr.center rr.center _ _ hne haw hah hbw hbh
          (connect_rect wd ht rn _ _ hrect1)
      · rcases List.mem_append.mp hin with hl | hr
        · obtain ⟨p, hp1, hpath⟩ := ihl pr hl
          exact ⟨p, hp1, hpath.mono fun q hq =>
            drunken_fst_mono wd ht _ _ q _ _ (connect_fst_mono wd ht q rn _ _ hq)⟩
        · obtain ⟨p, hp1, hpath⟩ := ihr pr hr
          exact ⟨p, hp1, hpath.mono fun q hq =>
            drunken_fst_mono wd ht _ _ q _ _ hq⟩

/-- The room list as `create_rooms_in_bsp` returns it on the `cexRng` trace,
before population (both rooms still `Normal`). -/
def cexRooms0 : List Room :=
  [⟨⟨2, 2⟩, 5, 5, .Normal⟩, ⟨⟨11, 2⟩, 5, 5, .Normal⟩]

/-- The RNG state after the BSP split and room creation on the `cexRng`
trace: the nine naturals are consumed, the rationals untouched. -/
def cexG2 : Rng := ⟨[], [], cexRng.rats⟩

end ConnectivitySpec

section RoomDisjointness

def nodeX : BSPNode → Nat | .mk x _ _ _ _ _ _ => x

def nodeY : BSPNode → Nat | .mk _ y _ _ _ _ _ => y

def nodeW : BSPNode → Nat | .mk _ _ w _ _ _ _ => w

def nodeH : BSPNode → Nat | .mk _ _ _ h _ _ _ => h

def nodeRoom : BSPNode → Option Room | .mk _ _ _ _ _ _ rm => rm

/-- The box of `c` is contained in the box of `p`. -/
def boxSub (c p : BSPNode) : Prop :=
  nodeX p ≤ nodeX c ∧ nodeX c + nodeW c ≤ nodeX p + nodeW p ∧
  nodeY p ≤ nodeY c ∧ nodeY c + nodeH c ≤ nodeY p + nodeH p

/-- The boxes of `a` and `b` are disjoint. -/
def boxDisj (a b : BSPNode) : Prop :=
  nodeX a + nodeW a ≤ nodeX b ∨ nodeX b + nodeW b ≤ nodeX a ∨
  nodeY a + nodeH a ≤ nodeY b ∨ nodeY b + nodeH b ≤ nodeY a

/-- The room, walls included, lies strictly inside the box of `nd`, with the
2-cell padding `collect_rooms_in_node` enforces on every side. -/
def roomInBox (rm : Room) (nd : BSPNode) : Prop :=
  nodeX nd + 2 ≤ rm.location.x ∧
  rm.location.x + rm.width + 2 ≤ nodeX nd + nodeW nd ∧
  nodeY nd + 2 ≤ rm.location.y ∧
  rm.location.y + rm.height + 2 ≤ nodeY nd + nodeH nd

theorem noRoom_ok (x y w h : Nat) :
    ∀ rm0 : Room, (none : Option Room) = some rm0 →
      roomInBox rm0 (.mk x y w h none none none) :=
  fun _ hr => nomatch hr

/-- The partition geometry `split_node` guarantees and room creation keeps:
any room recorded on a node lies strictly inside that node's box, every child
box lies inside its parent's box, and sibling boxes are disjoint. -/
def TreeBoxed : BSPNode → Prop
  | .mk x y w h l r rm =>
    (∀ rm0, rm = some rm0 → roomInBox rm0 (.mk x y w h none none none)) ∧
    (match l with
     | none => True
     | some ln => boxSub ln (.mk x y w h none none none) ∧ TreeBoxed ln) ∧
    (match r with
     | none => True
     | some rn => boxSub rn (.mk x y w h none none none) ∧ TreeBoxed rn) ∧
    (match l, r with
     | some ln, some rn => boxDisj ln rn
     | _, _ => True)

/-- The inclusive cell rectangle `[loc, loc + size]` a room occupies
together with the wall perimeter `surround_with_walls` puts around it. -/
def inWallRect (r : Room) (px py : Nat) : Prop :=
  r.location.x ≤ px ∧ px ≤ r.location.x + r.width ∧
  r.location.y ≤ py ∧ py ≤ r.location.y + r.height

/-- No cell lies in both rooms' wall rectangles. -/
def wallDisj (r1 r2 : Room) : Prop :=
  ∀ px py, inWallRect r1 px py → inWallRect r2 px py → False

/-- The leaves of a BSP tree (nodes with no children), left to right. -/
def leaves : BSPNode → List BSPNode
  | .mk x y w h none none rm => [.mk x y w h none none rm]
  | .mk _ _ _ _ (some ln) none _ => leaves ln
  | .mk _ _ _ _ none (some rn) _ => leaves rn
  | .mk _ _ _ _ (some ln) (some rn) _ => leaves ln ++ leaves rn

theorem roomInBox_mono {rm : Room} {c p : BSPNode} (h : roomInBox rm c)
    (hs : boxSub c p) : roomInBox rm p := by
  unfold roomInBox at h ⊢
  unfold boxSub at hs
  omega

theorem wallDisj_of_boxes {r1 r2 : Room} {a b : BSPNode}
    (h1 : roomInBox r1 a) (h2 : roomInBox r2 b) (hd : boxDisj a b) :
    wallDisj r1 r2 := by
  intro px py hw1 hw2
  unfold roomInBox at h1 h2
  unfold boxDisj at hd
  unfold inWallRect at hw1 hw2
  omega

theorem genRange_bounds (lo hi : Nat) (g : Rng) (h : lo < hi) :
    lo ≤ (genRange lo hi g).1 ∧ (genRange lo hi g).1 < hi := by
  rcases hng : g.nextNat with ⟨n, g2⟩
  simp only [genRange, hng]
  rw [if_pos h]
  constructor
  · omega
  · have := Nat.mod_lt n (show 0 < hi - lo by omega)
    omega

theorem genRangeIncl_bounds (lo hi : Nat) (g : Rng) (h : lo ≤ hi) :
    lo ≤ (genRangeIncl lo hi g).1 ∧ (genRangeIncl lo hi g).1 ≤ hi := by
  have := genRange_bounds lo (hi + 1) g (by omega)
  exact ⟨this.1, by have := this.2; unfold genRangeIncl; omega⟩

theorem split_node_shape (minS depth x y w h : Nat) (g : Rng) :
    ∃ l r, (split_node minS depth (.mk x y w h none none none) g).1
      = .mk x y w h l r none := by
  cases depth with
  | zero => exact ⟨none, none, rfl⟩
  | succ d =>
    rw [split_node]
    dsimp only
    split
    · exact ⟨none, none, rfl⟩
    · split <;> split <;> exact ⟨_, _, rfl⟩

theorem split_boxed_vert (minS d x y w h : Nat) (G1 G3 : Rng)
    (ih : ∀ (x2 y2 w2 h2 : Nat) (g2 : Rng),
      TreeBoxed (split_node minS d (.mk x2 y2 w2 h2 none none none) g2).1)
    (hw : minS * 2 ≤ w) :
    TreeBoxed (.mk x y w h
      (some (split_node minS d
        (.mk x y (genRange minS (w - minS + 1) G1).1 h none none none)
        (genRange minS (w - minS + 1) G1).2).1)
      (some (split_node minS d
        (.mk (x + (genRange minS (w - minS + 1) G1).1) y
          (w - (genRange minS (w - minS + 1) G1).1) h none none none) G3).1)
      none) := by
  have hS := genRange_bounds minS (w - minS + 1) G1 (by omega)
  obtain ⟨l1, r1, hL⟩ := split_node_shape minS d x y
    (genRange minS (w - minS + 1) G1).1 h (genRange minS (w - minS + 1) G1).2
  obtain ⟨l2, r2, hR⟩ := split_node_shape minS d
    (x + (genRange minS (w - minS + 1) G1).1) y
    (w - (genRange minS (w - minS + 1) G1).1) h G3
  rw [TreeBoxed]
  rw [hL, hR]
  refine ⟨noRoom_ok _ _ _ _, ⟨?_, hL ▸ ih _ _ _ _ _⟩,
      ⟨?_, hR ▸ ih _ _ _ _ _⟩, ?_⟩ <;>
    simp only [boxSub, boxDisj, nodeX, nodeY, nodeW, nodeH] <;> omega

theorem split_boxed_horiz (minS d x y w h : Nat) (G1 G3 : Rng)
    (ih : ∀ (x2 y2 w2 h2 : Nat) (g2 : Rng),
      TreeBoxed (split_node minS d (.mk x2 y2 w2 h2 none none none) g2).1)
    (hh : minS * 2 ≤ h) :
    TreeBoxed (.mk x y w h
      (some (split_node minS d
        (.mk x y w (genRange minS (h - minS + 1) G1).1 none none none)
        (genRange minS (h - minS + 1) G1).2).1)
      (some (split_node minS d
        (.mk x (y + (genRange minS (h - minS + 1) G1).1) w
          (h - (genRange minS (h - minS + 1) G1).1) none none none) G3).1)
      none) := by
  have hS := genRange_bounds minS (h - minS + 1) G1 (by omega)
  obtain ⟨l1, r1, hL⟩ := split_node_shape minS d x y w
    (genRange minS (h - minS + 1) G1).1 (genRange minS (h - minS + 1) G1).2
  obtain ⟨l2, r2, hR⟩ := split_node_shape minS d x
    (y + (genRange minS (h - minS + 1) G1).1) w
    (h - (genRange minS (h - minS + 1) G1).1) G3
  rw [TreeBoxed]
  rw [hL, hR]
  refine ⟨noRoom_ok _ _ _ _, ⟨?_, hL ▸ ih _ _ _ _ _⟩,
      ⟨?_, hR ▸ ih _ _ _ _ _⟩, ?_⟩ <;>
    simp only [boxSub, boxDisj, nodeX, nodeY, nodeW, nodeH] <;> omega

/-- `split_node` always produces a partition tree: children inside parents,
siblings disjoint. -/
theorem split_node_boxed (minS : Nat) :
    ∀ (depth : Nat) (x y w h : Nat) (g : Rng),
      TreeBoxed (split_node minS depth (.mk x y w h none none none) g).1 := by
  intro depth
  induction depth with
  | zero =>
    intro x y w h g
    show TreeBoxed (.mk x y w h none none none)
    rw [TreeBoxed]
    exact ⟨noRoom_ok _ _ _ _, trivial, trivial, trivial⟩
  | succ d ih =>
    intro x y w h g
    rw [split_node]
    dsimp only
    split
    · rw [TreeBoxed]
      exact ⟨noRoom_ok _ _ _ _, trivial, trivial, trivial⟩
    · rename_i hno
      split
      · rename_i hcv
        split
        · exact split_boxed_vert minS d x y w h _ _ ih hcv.1
        · exact split_boxed_horiz minS d x y w h _ _ ih hcv.2
      · rename_i hcv
        split
        · rename_i hsv
          exact split_boxed_vert minS d x y w h _ _ ih (of_decide_eq_true hsv)
        · rename_i hsv
          have hcH : ¬(minS * 2 ≤ w) := by
            intro hc
            exact hsv (by rw [decide_eq_true hc])
          exact split_boxed_horiz minS d x y w h _ _ ih (by omega)

theorem collect_leaf_eq (minS maxS x y w h : Nat) (room : Option Room) (g : Rng) :
    collect_rooms_in_node minS maxS (.mk x y w h none none room) g
      = (if w < 4 ∨ h < 4 then none
         else
           let maxW := min (w - 4) maxS
           let maxH := min (h - 4) maxS
           if maxW < minS ∨ maxH < minS then some (.mk x y w h none none room, [], g)
           else
             let (rwv, g1) := genRangeIncl minS maxW g
             let (rhv, g2) := genRangeIncl minS maxH g1
             let xhi := x + w - rwv - 2
             let (rx, g3) := if xhi < x + 2 then (x + 2, g2)
               else genRangeIncl (x + 2) xhi g2
             let yhi := y + h - rhv - 2
             let (ry, g4) := if yhi < y + 2 then (y + 2, g3)
               else genRangeIncl (y + 2) yhi g3
             let newRoom : Room := ⟨⟨rx, ry⟩, rwv, rhv, .Normal⟩
             some (.mk x y w h none none (some newRoom), [newRoom], g4)) := rfl

theorem collect_left_eq (minS maxS x y w h : Nat) (ln : BSPNode)
    (room : Option Room) (g : Rng) :
    collect_rooms_in_node minS maxS (.mk x y w h (some ln) none room) g
      = match (match collect_rooms_in_node minS maxS ln g with
          | none => none
          | some (ln2, rs, g2) =>
            some (some ln2, rs, g2) : Option (Option BSPNode × List Room × Rng)) with
        | none => none
        | some (l2, rs, g2) => some (.mk x y w h l2 none room, rs, g2) := by
  delta collect_rooms_in_node
  rfl

theorem collect_right_eq (minS maxS x y w h : Nat) (rn : BSPNode)
    (room : Option Room) (g : Rng) :
    collect_rooms_in_node minS maxS (.mk x y w h none (some rn) room) g
      = match collect_rooms_in_node minS maxS rn g with
        | none => none
        | some (rn2, rs, g2) =>
          some (.mk x y w h none (some rn2) room, rs, g2) := rfl

theorem collect_both_eq (minS maxS x y w h : Nat) (ln rn : BSPNode)
    (room : Option Room) (g : Rng) :
    collect_rooms_in_node minS maxS (.mk x y w h (some ln) (some rn) room) g
      = match (match collect_rooms_in_node minS maxS ln g with
          | none => none
          | some (ln2, rs, g2) =>
            some (some ln2, rs, g2) : Option (Option BSPNode × List Room × Rng)) with
        | none => none
        | some (l2, rs1, g2) =>
          match collect_rooms_in_node minS maxS rn g2 with
          | none => none
          | some (rn2, rs2, g3) =>
            some (.mk x y w h l2 (some rn2) room, rs1 ++ rs2, g3) := by
  delta collect_rooms_in_node
  rfl

/-- Room creation on a partition tree: every created room (walls included)
lies strictly inside its own leaf's box, is recorded on that leaf, and the
rooms are pairwise disjoint. -/
theorem collect_boxed (minS maxS : Nat) :
    ∀ (node : BSPNode) (g : Rng) (out : BSPNode × List Room × Rng),
      collect_rooms_in_node minS maxS node g = some out →
      TreeBoxed node →
      (∀ rm ∈ out.2.1, roomInBox rm node ∧
        ∃ lf ∈ leaves out.1, nodeRoom lf = some rm ∧ roomInBox rm lf) ∧
      List.Pairwise wallDisj out.2.1
  | .mk x y w h none none room, g, out, hcol, htb => by
    rw [collect_leaf_eq] at hcol
    dsimp only at hcol
    split at hcol
    · exact absurd hcol (by simp)
    · rename_i hsz
      split at hcol
      · obtain rfl := Option.some.inj hcol
        exact ⟨fun rm hrm => absurd hrm (List.not_mem_nil _), List.Pairwise.nil⟩
      · rename_i hok
        rcases hgw : genRangeIncl minS (min (w - 4) maxS) g with ⟨RW, G1⟩
        rw [hgw] at hcol
        dsimp only at hcol
        rcases hgh : genRangeIncl minS (min (h - 4) maxS) G1 with ⟨RH, G2⟩
        rw [hgh] at hcol
        dsimp only at hcol
        rcases hgx : (if x + w - RW - 2 < x + 2 then (x + 2, G2)
          else genRangeIncl (x + 2) (x + w - RW - 2) G2) with ⟨RX, G3⟩
        rw [hgx] at hcol
        dsimp only at hcol
        rcases hgy : (if y + h - RH - 2 < y + 2 then (y + 2, G3)
          else genRangeIncl (y + 2) (y + h - RH - 2) G3) with ⟨RY, G4⟩
        rw [hgy] at hcol
        dsimp only at hcol
        obtain rfl := Option.some.inj hcol
        have hWb := genRangeIncl_bounds minS (min (w - 4) maxS) g
          (by omega)
        rw [hgw] at hWb
        have hHb := genRangeIncl_bounds minS (min (h - 4) maxS) G1
          (by omega)
        rw [hgh] at hHb
        dsimp only at hWb hHb
        have hXb : x + 2 ≤ RX ∧ (RX ≤ x + w - RW - 2 ∨ RX = x + 2) := by
          by_cases hxe : x + w - RW - 2 < x + 2
          · rw [if_pos hxe] at hgx
            injection hgx with h1 h2
            exact ⟨by omega, Or.inr h1.symm⟩
          · rw [if_neg hxe] at hgx
            have hb := genRangeIncl_bounds (x + 2) (x + w - RW - 2) G2
              (by omega)
            rw [hgx] at hb
            exact ⟨hb.1, Or.inl hb.2⟩
        have hYb : y + 2 ≤ RY ∧ (RY ≤ y + h - RH - 2 ∨ RY = y + 2) := by
          by_cases hye : y + h - RH - 2 < y + 2
          · rw [if_pos hye] at hgy
            injection hgy with h1 h2
            exact ⟨by omega, Or.inr h1.symm⟩
          · rw [if_neg hye] at hgy
            have hb := genRangeIncl_bounds (y + 2) (y + h - RH - 2) G3
              (by omega)
            rw [hgy] at hb
            exact ⟨hb.1, Or.inl hb.2⟩
        have hbox : roomInBox ⟨⟨RX, RY⟩, RW, RH, .Normal⟩
            (.mk x y w h none none room) := by
          simp only [roomInBox, nodeX, nodeY, nodeW, nodeH]
          omega
        refine ⟨?_, by simp [wallDisj]⟩
        intro rm hrm
        have hrm1 : rm = ⟨⟨RX, RY⟩, RW, RH, .Normal⟩ := by simpa using hrm
        subst hrm1
        refine ⟨hbox, ⟨.mk x y w h none none
          (some ⟨⟨RX, RY⟩, RW, RH, .Normal⟩), ?_, rfl, hbox⟩⟩
        simp [leaves]
  | .mk x y w h (some ln) none room, g, out, hcol, htb => by
    rw [collect_left_eq] at hcol
    rcases hcl : collect_rooms_in_node minS maxS ln g with _ | ⟨ln2, rs, g2⟩ <;>
      rw [hcl] at hcol <;> dsimp only at hcol
    · exact absurd hcol (by simp)
    · obtain rfl := Option.some.inj hcol
      rw [TreeBoxed] at htb
      obtain ⟨-, ⟨hsub, htbl⟩, -, -⟩ := htb
      obtain ⟨hmem, hpw⟩ := collect_boxed minS maxS ln g (ln2, rs, g2) hcl htbl
      refine ⟨?_, hpw⟩
      intro rm hrm
      obtain ⟨hbox, lf, hlf, hroom, hlfbox⟩ := hmem rm hrm
      exact ⟨roomInBox_mono hbox hsub, lf, by simpa [leaves] using hlf, hroom, hlfbox⟩
  | .mk x y w h none (some rn) room, g, out, hcol, htb => by
    rw [collect_right_eq] at hcol
    rcases hcl : collect_rooms_in_node minS maxS rn g with _ | ⟨rn2, rs, g2⟩ <;>
      rw [hcl] at hcol <;> dsimp only at hcol
    · exact absurd hcol (by simp)
    · obtain rfl := Option.some.inj hcol
      rw [TreeBoxed] at htb
      obtain ⟨-, -, ⟨hsub, htbr⟩, -⟩ := htb
      obtain ⟨hmem, hpw⟩ := collect_boxed minS maxS rn g (rn2, rs, g2) hcl htbr
      refine ⟨?_, hpw⟩
      intro rm hrm
      obtain ⟨hbox, lf, hlf, hroom, hlfbox⟩ := hmem rm hrm
      exact ⟨roomInBox_mono hbox hsub, lf, by simpa [leaves] using hlf, hroom, hlfbox⟩
  | .mk x y w h (some ln) (some rn) room, g, out, hcol, htb => by
    rw [collect_both_eq] at hcol
    rcases hcl : collect_rooms_in_node minS maxS ln g with _ | ⟨ln2, rs1, g2⟩ <;>
      rw [hcl] at hcol <;> dsimp only at hcol
    · exact absurd hcol (by simp)
    · rcases hcr : collect_rooms_in_node minS maxS rn g2 with _ | ⟨rn2, rs2, g3⟩ <;>
        rw [hcr] at hcol <;> dsimp only at hcol
      · exact absurd hcol (by simp)
      · obtain rfl := Option.some.inj hcol
        rw [TreeBoxed] at htb
        obtain ⟨-, ⟨hsubl, htbl⟩, ⟨hsubr, htbr⟩, hdisj⟩ := htb
        obtain ⟨hmem1, hpw1⟩ := collect_boxed minS maxS ln g (ln2, rs1, g2) hcl htbl
        obtain ⟨hmem2, hpw2⟩ := collect_boxed minS maxS rn g2 (rn2, rs2, g3) hcr htbr
        constructor
        · intro rm hrm
          rcases List.mem_append.mp hrm with h1 | h2
          · obtain ⟨hbox, lf, hlf, hroom, hlfbox⟩ := hmem1 rm h1
            exact ⟨roomInBox_mono hbox hsubl, lf,
              by simp only [leaves]; exact List.mem_append.mpr (Or.inl hlf),
              hroom, hlfbox⟩
          · obtain ⟨hbox, lf, hlf, hroom, hlfbox⟩ := hmem2 rm h2
            exact ⟨roomInBox_mono hbox hsubr, lf,
              by simp only [leaves]; exact List.mem_append.mpr (Or.inr hlf),
              hroom, hlfbox⟩
        · exact List.pairwise_append.mpr ⟨hpw1, hpw2, fun a ha b hb =>
            wallDisj_of_boxes (hmem1 a ha).1 (hmem2 b hb).1 hdisj⟩

/-- `Room::populate` only rewrites the room's `room_type`; its location and
size are unchanged. -/
theorem populate_geom (room : Room) (t : Grid) (g : Rng) :
    (Room.populate room t g).2.1.location = room.location ∧
    (Room.populate room t g).2.1.width = room.width ∧
    (Room.populate room t g).2.1.height = room.height := by
  unfold Room.populate
  dsimp only
  split <;> (try split) <;> exact ⟨rfl, rfl, rfl⟩

def roomGeom (r : Room) : Point × Nat × Nat := (r.location, r.width, r.height)

theorem populate_fold_geom (rooms : List Room) :
    ∀ (t : Grid) (g : Rng) (acc : List Room),
      ((rooms.foldl (fun (st : Grid × List Room × Rng) room =>
          let pg := room.populate st.1 st.2.2
          (pg.1, st.2.1 ++ [pg.2.1], pg.2.2)) (t, acc, g)).2.1).map roomGeom
      = acc.map roomGeom ++ rooms.map roomGeom := by
  induction rooms with
  | nil => intro t g acc; simp
  | cons room rooms ih =>
    intro t g acc
    rw [List.foldl_cons]
    dsimp only
    rw [ih]
    obtain ⟨h1, h2, h3⟩ := populate_geom room t g
    simp [roomGeom, h1, h2, h3]

theorem populate_all_geom (t : Grid) (rooms : List Room) (g : Rng) :
    ((populate_all t rooms g).2.1).map roomGeom = rooms.map roomGeom := by
  unfold populate_all
  rw [populate_fold_geom]
  simp

theorem wallDisj_geom {a b a2 b2 : Room} (ha : roomGeom a = roomGeom a2)
    (hb : roomGeom b = roomGeom b2) (h : wallDisj a b) : wallDisj a2 b2 := by
  intro px py h1 h2
  unfold roomGeom at ha hb
  injection ha with ha1 haR
  injection haR with ha2 ha3
  injection hb with hb1 hbR
  injection hbR with hb2 hb3
  apply h px py
  · unfold inWallRect at h1 ⊢
    rw [ha1, ha2, ha3]
    exact h1
  · unfold inWallRect at h2 ⊢
    rw [hb1, hb2, hb3]
    exact h2

theorem roomInBox_geom {a b : Room} {nd : BSPNode} (hg : roomGeom a = roomGeom b)
    (h : roomInBox a nd) : roomInBox b nd := by
  unfold roomGeom at hg
  injection hg with h1 hR
  injection hR with h2 h3
  unfold roomInBox at h ⊢
  rw [← h1, ← h2, ← h3]
  exact h

theorem mem_geom_of_map_eq :
    ∀ {l1 l2 : List Room}, l1.map roomGeom = l2.map roomGeom →
      ∀ b ∈ l2, ∃ a ∈ l1, roomGeom a = roomGeom b
  | [], [], _, b, hb => absurd hb (List.not_mem_nil b)
  | [], c :: l2, h, b, hb => by simp at h
  | a :: l1, [], h, b, hb => by simp at h
  | a :: l1, c :: l2, h, b, hb => by
    simp only [List.map_cons, List.cons.injEq] at h
    rcases List.mem_cons.mp hb with rfl | hb2
    · exact ⟨a, List.mem_cons_self a l1, h.1⟩
    · obtain ⟨a2, ha2, hg⟩ := mem_geom_of_map_eq h.2 b hb2
      exact ⟨a2, List.mem_cons_of_mem a ha2, hg⟩

theorem pairwise_geom_transfer :
    ∀ {l1 l2 : List Room}, l1.map roomGeom = l2.map roomGeom →
      List.Pairwise wallDisj l1 → List.Pairwise wallDisj l2
  | [], [], _, _ => List.Pairwise.nil
  | [], c :: l2, h, _ => by simp at h
  | a :: l1, [], _, _ => List.Pairwise.nil
  | a :: l1, c :: l2, h, hp => by
    simp only [List.map_cons, List.cons.injEq] at h
    obtain ⟨hhead, htail⟩ := List.pairwise_cons.mp hp
    refine List.pairwise_cons.mpr ⟨?_, pairwise_geom_transfer h.2 htail⟩
    intro b hb
    obtain ⟨a2, ha2, hg⟩ := mem_geom_of_map_eq h.2 b hb
    exact wallDisj_geom h.1 hg (hhead a2 ha2)

/-- C6: for every successful `generate` run, the rooms of the returned room
list — wall perimeters included, i.e. the inclusive rectangles
`[location, location + size]` — are pairwise non-intersecting; moreover each
room lies strictly inside (2-cell padding) the box of its own leaf of the
returned BSP tree, which records a room of the same geometry.  Disjointness
holds because `split_node` partitions boxes disjointly (`TreeBoxed`) and
`collect_rooms_in_node` keeps each room inside its leaf. -/
theorem bsp_rooms_disjoint (g : Rng) (w h minS maxS : Nat) (st : GenState)
    (hgen : generate g w h minS maxS = some st) :
    List.Pairwise wallDisj st.rooms ∧
    ∀ rm ∈ st.rooms, ∃ lf ∈ leaves st.bsp_root, ∃ rm0 : Room,
      nodeRoom lf = some rm0 ∧ roomGeom rm0 = roomGeom rm ∧ roomInBox rm lf := by
  unfold generate at hgen
  dsimp only at hgen
  rcases hcol : collect_rooms_in_node minS maxS
      (split_node minS 5 (BSPNode.mk 0 0 w h none none none) g).1
      (split_node minS 5 (BSPNode.mk 0 0 w h none none none) g).2
    with _ | ⟨root2, rooms0, g2⟩
  · rw [hcol] at hgen
    exact absurd hgen (by simp)
  · rw [hcol] at hgen
    dsimp only at hgen
    obtain rfl := Option.some.inj hgen
    have htb : TreeBoxed (split_node minS 5 (BSPNode.mk 0 0 w h none none none) g).1 :=
      split_node_boxed minS 5 0 0 w h g
    obtain ⟨hmem, hpw⟩ := collect_boxed minS maxS _ _ _ hcol htb
    have hgm := populate_all_geom (mkEmptyGrid w h) rooms0 g2
    constructor
    · exact pairwise_geom_transfer hgm.symm hpw
    · intro rm hrm
      obtain ⟨rm0, hrm0, hg0⟩ := mem_geom_of_map_eq hgm.symm rm hrm
      obtain ⟨hbox, lf, hlf, hroom, hlfbox⟩ := hmem rm0 hrm0
      exact ⟨lf, hlf, rm0, hroom, hg0, roomInBox_geom hg0 hlfbox⟩

set_option maxRecDepth 100000 in
/-- C6 witness: the theorem applied to the concrete `cexRng` run, whose two
rooms (with walls `[2,7]×[2,7]` and `[11,16]×[2,7]`) indeed do not touch. -/
theorem bsp_rooms_disjoint_witness :
    generate cexRng 18 9 5 20 = some ⟨cexGrid, cexRooms, cexTree⟩ ∧
    List.Pairwise wallDisj cexRooms ∧
    (∀ rm ∈ cexRooms, ∃ lf ∈ leaves cexTree, ∃ rm0 : Room,
      nodeRoom lf = some rm0 ∧ roomGeom rm0 = roomGeom rm ∧ roomInBox rm lf) := by
  have hg : generate cexRng 18 9 5 20 = some ⟨cexGrid, cexRooms, cexTree⟩ := rfl
  have hth := bsp_rooms_disjoint cexRng 18 9 5 20 ⟨cexGrid, cexRooms, cexTree⟩ hg
  exact ⟨hg, hth.1, hth.2⟩

theorem rect_foldl {α : Type _} (wd ht : Nat) (f : Grid → α → Grid)
    (hf : ∀ t a, rect t wd ht → rect (f t a) wd ht) :
    ∀ (l : List α) (t : Grid), rect t wd ht → rect (l.foldl f t) wd ht := by
  intro l
  induction l with
  | nil => intro t h; exact h
  | cons a l ih =>
    intro t h
    rw [List.foldl_cons]
    exact ih _ (hf t a h)

theorem rect_foldl_fst {α β : Type _} (wd ht : Nat) (f : Grid × β → α → Grid × β)
    (hf : ∀ s a, rect s.1 wd ht → rect (f s a).1 wd ht) :
    ∀ (l : List α) (s : Grid × β), rect s.1 wd ht → rect (l.foldl f s).1 wd ht := by
  intro l
  induction l with
  | nil => intro s h; exact h
  | cons a l ih =>
    intro s h
    rw [List.foldl_cons]
    exact ih _ (hf s a h)

theorem getD_replicate {α : Type _} (a d : α) :
    ∀ (n i : Nat), i < n → (List.replicate n a).getD i d = a := by
  intro n
  induction n with
  | zero => intro i h; exact absurd h (by omega)
  | succ m ih =>
    intro i h
    cases i with
    | zero => rfl
    | succ j =>
      simp only [List.replicate_succ, List.getD_cons_succ]
      exact ih j (by omega)

theorem mkEmptyGrid_rect (w h : Nat) : rect (mkEmptyGrid w h) w h := by
  unfold mkEmptyGrid rect
  constructor
  · simp
  · intro y hy
    rw [getD_replicate _ _ _ _ hy]
    simp

theorem fill_with_floor_rect (wd ht : Nat) (room : Room) (t : Grid)
    (h : rect t wd ht) : rect (fill_with_floor room t) wd ht := by
  unfold fill_with_floor
  dsimp only
  refine rect_foldl wd ht _ ?_ _ _ h
  intro t1 dy h1
  refine rect_foldl wd ht _ ?_ _ _ h1
  intro t2 dx h2
  dsimp only
  split
  · exact rect_gridSet h2 _ _ _
  · exact h2

theorem surround_with_walls_rect (wd ht : Nat) (room : Room) (t : Grid)
    (h : rect t wd ht) : rect (surround_with_walls room t) wd ht := by
  unfold surround_with_walls
  dsimp only
  refine rect_foldl wd ht _ ?_ _ _ h
  intro t1 dy h1
  refine rect_foldl wd ht _ ?_ _ _ h1
  intro t2 dx h2
  dsimp only
  split
  · exact rect_gridSet h2 _ _ _
  · exact h2

theorem place_columns_rect (wd ht : Nat) (room : Room) (t : Grid) (g : Rng)
    (h : rect t wd ht) : rect (place_columns room t g).1 wd ht := by
  unfold place_columns
  dsimp only
  split
  · refine rect_foldl wd ht _ ?_ _ _ h
    intro t1 p h1
    exact rect_gridSet h1 _ _ _
  · exact h

theorem place_obelisk_rect (wd ht : Nat) (room : Room) (t : Grid)
    (h : rect t wd ht) : rect (place_obelisk room t) wd ht :=
  rect_gridSet h _ _ _

theorem place_secret_rect (wd ht : Nat) (room : Room) (t : Grid) (b : Bool)
    (g : Rng) (h : rect t wd ht) : rect (place_secret room t b g).1 wd ht := by
  unfold place_secret
  dsimp only
  split
  · exact rect_gridSet h _ _ _
  · exact rect_gridSet h _ _ _

theorem place_mobs_rect (wd ht : Nat) (room : Room) (t : Grid) (g : Rng)
    (h : rect t wd ht) : rect (place_mobs room t g).1 wd ht := by
  unfold place_mobs
  dsimp only
  refine rect_foldl_fst wd ht _ ?_ _ _ h
  intro s a hs
  dsimp only
  split
  · exact rect_gridSet hs _ _ _
  · exact hs

theorem place_brute_rect (wd ht : Nat) (room : Room) (t : Grid) (g : Rng)
    (h : rect t wd ht) : rect (place_brute room t g).1 wd ht := by
  unfold place_brute
  dsimp only
  split
  · exact rect_gridSet h _ _ _
  · exact h

theorem place_doors_rect (wd ht : Nat) (room : Room) (t : Grid) (g : Rng)
    (h : rect t wd ht) : rect (place_doors room t g).1 wd ht := by
  unfold place_doors
  refine rect_foldl_fst wd ht _ ?_ _ _ h
  intro s e hs
  dsimp only
  split
  · exact rect_gridSet hs _ _ _
  · exact hs

set_option maxHeartbeats 2000000 in
theorem populate_rect (wd ht : Nat) (room : Room) (t : Grid) (g : Rng)
    (h : rect t wd ht) : rect (Room.populate room t g).1 wd ht := by
  unfold Room.populate
  dsimp only
  have h3 : rect (place_columns room
      (surround_with_walls room (fill_with_floor room t)) g).1 wd ht :=
    place_columns_rect wd ht room _ g
      (surround_with_walls_rect wd ht room _ (fill_with_floor_rect wd ht room t h))
  split
  · exact place_doors_rect wd ht _ _ _ (place_obelisk_rect wd ht _ _ h3)
  · split
    · exact place_doors_rect wd ht _ _ _ (place_brute_rect wd ht _ _ _
        (place_mobs_rect wd ht _ _ _ (place_secret_rect wd ht _ _ _ _ h3)))
    · exact place_doors_rect wd ht _ _ _ (place_secret_rect wd ht _ _ _ _ h3)
  · apply place_doors_rect
    repeat'
      first
      | apply place_mobs_rect
      | apply place_secret_rect
      | dsimp only
      | split
      | exact place_obelisk_rect wd ht _ _ h3
      | exact h3

theorem populate_all_rect (wd ht : Nat) (t : Grid) (rooms : List Room) (g : Rng)
    (h : rect t wd ht) : rect (populate_all t rooms g).1 wd ht := by
  unfold populate_all
  refine rect_foldl_fst wd ht _ ?_ _ _ h
  intro s room hs
  dsimp only
  exact populate_rect wd ht room s.1 s.2.2 hs

theorem boxSub_congr {a a2 p : BSPNode}
    (hx : nodeX a2 = nodeX a) (hy : nodeY a2 = nodeY a)
    (hw : nodeW a2 = nodeW a) (hh : nodeH a2 = nodeH a)
    (h : boxSub a p) : boxSub a2 p := by
  unfold boxSub at h ⊢
  omega

theorem boxDisj_congr {a a2 b b2 : BSPNode}
    (hax : nodeX a2 = nodeX a) (hay : nodeY a2 = nodeY a)
    (haw : nodeW a2 = nodeW a) (hah : nodeH a2 = nodeH a)
    (hbx : nodeX b2 = nodeX b) (hby : nodeY b2 = nodeY b)
    (hbw : nodeW b2 = nodeW b) (hbh : nodeH b2 = nodeH b)
    (h : boxDisj a b) : boxDisj a2 b2 := by
  unfold boxDisj at h ⊢
  omega

/-- The room a leaf creates, walls included, sits strictly inside the leaf
box, whatever the fallback branches of the offset draws. -/
theorem leaf_room_in_box {minS maxS x y w h RW RH RX RY : Nat}
    {g G1 G2 G3 G4 : Rng} {room : Option Room}
    (hsz : ¬(w < 4 ∨ h < 4))
    (hok : ¬(min (w - 4) maxS < minS ∨ min (h - 4) maxS < minS))
    (hgw : genRangeIncl minS (min (w - 4) maxS) g = (RW, G1))
    (hgh : genRangeIncl minS (min (h - 4) maxS) G1 = (RH, G2))
    (hgx : (if x + w - RW - 2 < x + 2 then (x + 2, G2)
      else genRangeIncl (x + 2) (x + w - RW - 2) G2) = (RX, G3))
    (hgy : (if y + h - RH - 2 < y + 2 then (y + 2, G3)
      else genRangeIncl (y + 2) (y + h - RH - 2) G3) = (RY, G4)) :
    roomInBox ⟨⟨RX, RY⟩, RW, RH, .Normal⟩ (.mk x y w h none none room) := by
  have hWb := genRangeIncl_bounds minS (min (w - 4) maxS) g (by omega)
  rw [hgw] at hWb
  have hHb := genRangeIncl_bounds minS (min (h - 4) maxS) G1 (by omega)
  rw [hgh] at hHb
  dsimp only at hWb hHb
  have hXb : x + 2 ≤ RX ∧ (RX ≤ x + w - RW - 2 ∨ RX = x + 2) := by
    by_cases hxe : x + w - RW - 2 < x + 2
    · rw [if_pos hxe] at hgx
      injection hgx with h1 h2
      exact ⟨by omega, Or.inr h1.symm⟩
    · rw [if_neg hxe] at hgx
      have hb := genRangeIncl_bounds (x + 2) (x + w - RW - 2) G2 (by omega)
      rw [hgx] at hb
      exact ⟨hb.1, Or.inl hb.2⟩
  have hYb : y + 2 ≤ RY ∧ (RY ≤ y + h - RH - 2 ∨ RY = y + 2) := by
    by_cases hye : y + h - RH - 2 < y + 2
    · rw [if_pos hye] at hgy
      injection hgy with h1 h2
      exact ⟨by omega, Or.inr h1.symm⟩
    · rw [if_neg hye] at hgy
      have hb := genRangeIncl_bounds (y + 2) (y + h - RH - 2) G3 (by omega)
      rw [hgy] at hb
      exact ⟨hb.1, Or.inl hb.2⟩
  simp only [roomInBox, nodeX, nodeY, nodeW, nodeH]
  omega

/-- Room creation keeps the tree a partition tree: boxes are unchanged and
every new leaf room lies inside its leaf's box. -/
theorem collect_good (minS maxS : Nat) :
    ∀ (node : BSPNode) (g : Rng) (out : BSPNode × List Room × Rng),
      collect_rooms_in_node minS maxS node g = some out →
      TreeBoxed node →
      TreeBoxed out.1 ∧ nodeX out.1 = nodeX node ∧ nodeY out.1 = nodeY node ∧
        nodeW out.1 = nodeW node ∧ nodeH out.1 = nodeH node
  | .mk x y w h none none room, g, out, hcol, htb => by
    rw [collect_leaf_eq] at hcol
    dsimp only at hcol
    split at hcol
    · exact absurd hcol (by simp)
    · rename_i hsz
      split at hcol
      · obtain rfl := Option.some.inj hcol
        exact ⟨htb, rfl, rfl, rfl, rfl⟩
      · rename_i hok
        rcases hgw : genRangeIncl minS (min (w - 4) maxS) g with ⟨RW, G1⟩
        rw [hgw] at hcol
        dsimp only at hcol
        rcases hgh : genRangeIncl minS (min (h - 4) maxS) G1 with ⟨RH, G2⟩
        rw [hgh] at hcol
        dsimp only at hcol
        rcases hgx : (if x + w - RW - 2 < x + 2 then (x + 2, G2)
          else genRangeIncl (x + 2) (x + w - RW - 2) G2) with ⟨RX, G3⟩
        rw [hgx] at hcol
        dsimp only at hcol
        rcases hgy : (if y + h - RH - 2 < y + 2 then (y + 2, G3)
          else genRangeIncl (y + 2) (y + h - RH - 2) G3) with ⟨RY, G4⟩
        rw [hgy] at hcol
        dsimp only at hcol
        obtain rfl := Option.some.inj hcol
        refine ⟨?_, rfl, rfl, rfl, rfl⟩
        rw [TreeBoxed]
        refine ⟨?_, trivial, trivial, trivial⟩
        intro rm0 hrm0
        injection hrm0 with hrm0
        rw [← hrm0]
        exact leaf_room_in_box hsz hok hgw hgh hgx hgy
  | .mk x y w h (some ln) none room, g, out, hcol, htb => by
    rw [collect_left_eq] at hcol
    rcases hcl : collect_rooms_in_node minS maxS ln g with _ | ⟨ln2, rs, g2⟩ <;>
      rw [hcl] at hcol <;> dsimp only at hcol
    · exact absurd hcol (by simp)
    · obtain rfl := Option.some.inj hcol
      rw [TreeBoxed] at htb
      obtain ⟨hrm, ⟨hsub, htbl⟩, -, -⟩ := htb
      obtain ⟨htbl2, hx2, hy2, hw2, hh2⟩ :=
        collect_good minS maxS ln g (ln2, rs, g2) hcl htbl
      refine ⟨?_, rfl, rfl, rfl, rfl⟩
      rw [TreeBoxed]
      exact ⟨hrm, ⟨boxSub_congr hx2 hy2 hw2 hh2 hsub, htbl2⟩, trivial, trivial⟩
  | .mk x y w h none (some rn) room, g, out, hcol, htb => by
    rw [collect_right_eq] at hcol
    rcases hcl : collect_rooms_in_node minS maxS rn g with _ | ⟨rn2, rs, g2⟩ <;>
      rw [hcl] at hcol <;> dsimp only at hcol
    · exact absurd hcol (by simp)
    · obtain rfl := Option.some.inj hcol
      rw [TreeBoxed] at htb
      obtain ⟨hrm, -, ⟨hsub, htbr⟩, -⟩ := htb
      obtain ⟨htbr2, hx2, hy2, hw2, hh2⟩ :=
        collect_good minS maxS rn g (rn2, rs, g2) hcl htbr
      refine ⟨?_, rfl, rfl, rfl, rfl⟩
      rw [TreeBoxed]
      exact ⟨hrm, trivial, ⟨boxSub_congr hx2 hy2 hw2 hh2 hsub, htbr2⟩, trivial⟩
  | .mk x y w h (some ln) (some rn) room, g, out, hcol, htb => by
    rw [collect_both_eq] at hcol
    rcases hcl : collect_rooms_in_node minS maxS ln g with _ | ⟨ln2, rs1, g2⟩ <;>
      rw [hcl] at hcol <;> dsimp only at hcol
    · exact absurd hcol (by simp)
    · rcases hcr : collect_rooms_in_node minS maxS rn g2 with _ | ⟨rn2, rs2, g3⟩ <;>
        rw [hcr] at hcol <;> dsimp only at hcol
      · exact absurd hcol (by simp)
      · obtain rfl := Option.some.inj hcol
        rw [TreeBoxed] at htb
        obtain ⟨hrm, ⟨hsubl, htbl⟩, ⟨hsubr, htbr⟩, hdisj⟩ := htb
        obtain ⟨htbl2, hlx, hly, hlw, hlh⟩ :=
          collect_good minS maxS ln g (ln2, rs1, g2) hcl htbl
        obtain ⟨htbr2, hrx, hry, hrw2, hrh⟩ :=
          collect_good minS maxS rn g2 (rn2, rs2, g3) hcr htbr
        refine ⟨?_, rfl, rfl, rfl, rfl⟩
        rw [TreeBoxed]
        exact ⟨hrm, ⟨boxSub_congr hlx hly hlw hlh hsubl, htbl2⟩,
          ⟨boxSub_congr hrx hry hrw2 hrh hsubr, htbr2⟩,
          boxDisj_congr hlx hly hlw hlh hrx hry hrw2 hrh hdisj⟩

theorem grs_room_eq (x y w h : Nat) (l r : Option BSPNode) (rm0 : Room) :
    get_room_in_subtree (.mk x y w h l r (some rm0)) = some rm0 := rfl

theorem grs_nn_eq (x y w h : Nat) :
    get_room_in_subtree (.mk x y w h none none none) = none := by
  delta get_room_in_subtree
  rfl

theorem grs_nb_eq (x y w h : Nat) (rn : BSPNode) :
    get_room_in_subtree (.mk x y w h none (some rn) none)
      = get_room_in_subtree rn := by
  delta get_room_in_subtree
  rfl

theorem grs_ll_eq (x y w h : Nat) (ln : BSPNode) :
    get_room_in_subtree (.mk x y w h (some ln) none none)
      = match get_room_in_subtree ln with
        | some rm => some rm
        | none => none := by
  delta get_room_in_subtree
  rfl

theorem grs_lb_eq (x y w h : Nat) (ln rn : BSPNode) :
    get_room_in_subtree (.mk x y w h (some ln) (some rn) none)
      = match get_room_in_subtree ln with
        | some rm => some rm
        | none => get_room_in_subtree rn := by
  delta get_room_in_subtree
  rfl

/-- On a partition tree the representative room found by
`get_room_in_subtree` lies inside the subtree's box. -/
theorem get_room_in_box :
    ∀ (nd : BSPNode) (rm : Room), get_room_in_subtree nd = some rm →
      TreeBoxed nd → roomInBox rm nd
  | .mk x y w h l r (some rm0), rm, hg, htb => by
    rw [grs_room_eq] at hg
    obtain rfl := Option.some.inj hg
    rw [TreeBoxed.eq_def] at htb
    dsimp only at htb
    exact htb.1 rm0 rfl
  | .mk x y w h none none none, rm, hg, htb => by
    rw [grs_nn_eq] at hg
    exact absurd hg (by simp)
  | .mk x y w h none (some rn) none, rm, hg, htb => by
    rw [grs_nb_eq] at hg
    rw [TreeBoxed] at htb
    obtain ⟨-, -, ⟨hsubr, htbr⟩, -⟩ := htb
    exact roomInBox_mono (get_room_in_box rn rm hg htbr) hsubr
  | .mk x y w h (some ln) none none, rm, hg, htb => by
    rw [grs_ll_eq] at hg
    rw [TreeBoxed] at htb
    obtain ⟨-, ⟨hsubl, htbl⟩, -, -⟩ := htb
    rcases hgl : get_room_in_subtree ln with _ | rm1 <;> rw [hgl] at hg <;>
      dsimp only at hg
    · exact absurd hg (by simp)
    · obtain rfl := Option.some.inj hg
      exact roomInBox_mono (get_room_in_box ln rm1 hgl htbl) hsubl
  | .mk x y w h (some ln) (some rn) none, rm, hg, htb => by
    rw [grs_lb_eq] at hg
    rw [TreeBoxed] at htb
    obtain ⟨-, ⟨hsubl, htbl⟩, ⟨hsubr, htbr⟩, -⟩ := htb
    rcases hgl : get_room_in_subtree ln with _ | rm1 <;> rw [hgl] at hg <;>
      dsimp only at hg
    · exact roomInBox_mono (get_room_in_box rn rm hg htbr) hsubr
    · obtain rfl := Option.some.inj hg
      exact roomInBox_mono (get_room_in_box ln rm1 hgl htbl) hsubl

theorem center_in_box {rm : Room} {nd : BSPNode} (h : roomInBox rm nd) :
    nodeX nd ≤ rm.center.x ∧ rm.center.x < nodeX nd + nodeW nd ∧
    nodeY nd ≤ rm.center.y ∧ rm.center.y < nodeY nd + nodeH nd := by
  unfold roomInBox at h
  unfold Room.center
  dsimp only
  omega

/-- On a partition tree, every sibling representative pair has distinct
centres, both lying inside the node's box. -/
theorem pairs_ok :
    ∀ (nd : BSPNode), TreeBoxed nd →
      ∀ pr ∈ siblingRepPairs nd,
        pr.1 ≠ pr.2 ∧
        nodeX nd ≤ pr.1.x ∧ pr.1.x < nodeX nd + nodeW nd ∧
        nodeY nd ≤ pr.1.y ∧ pr.1.y < nodeY nd + nodeH nd ∧
        nodeX nd ≤ pr.2.x ∧ pr.2.x < nodeX nd + nodeW nd ∧
        nodeY nd ≤ pr.2.y ∧ pr.2.y < nodeY nd + nodeH nd
  | .mk _ _ _ _ none _ _, htb, pr, hpr => by
    rw [siblingRepPairs] at hpr
    · exact absurd hpr (List.not_mem_nil pr)
    · intro ln rn h1 h2; cases h1
  | .mk _ _ _ _ (some ln) none _, htb, pr, hpr => by
    rw [siblingRepPairs] at hpr
    · exact absurd hpr (List.not_mem_nil pr)
    · intro ln2 rn h1 h2; cases h2
  | .mk x y w h (some ln) (some rn) room, htb, pr, hpr => by
    rw [TreeBoxed] at htb
    obtain ⟨-, ⟨hsubl, htbl⟩, ⟨hsubr, htbr⟩, hdisj⟩ := htb
    rw [siblingRepPairs] at hpr
    rcases List.mem_append.mp hpr with hin | hin
    · rcases hgl : get_room_in_subtree ln with _ | lr <;> rw [hgl] at hin <;>
        rcases hgr : get_room_in_subtree rn with _ | rr <;> rw [hgr] at hin <;>
        dsimp only at hin
      · exact absurd hin (List.not_mem_nil pr)
      · exact absurd hin (List.not_mem_nil pr)
      · exact absurd hin (List.not_mem_nil pr)
      · have hpr1 : pr = (lr.center, rr.center) := List.mem_singleton.mp hin
        subst hpr1
        have hcl := center_in_box (get_room_in_box ln lr hgl htbl)
        have hcr := center_in_box (get_room_in_box rn rr hgr htbr)
        unfold boxSub at hsubl hsubr
        unfold boxDisj at hdisj
        simp only [nodeX, nodeY, nodeW, nodeH] at hcl hcr hsubl hsubr hdisj ⊢
        refine ⟨?_, by omega, by omega, by omega, by omega,
          by omega, by omega, by omega, by omega⟩
        intro heq
        have hqx := congrArg Point.x heq
        have hqy := congrArg Point.y heq
        omega
    · rcases List.mem_append.mp hin with hl | hr
      · obtain ⟨hne, b1, b2, b3, b4, b5, b6, b7, b8⟩ := pairs_ok ln htbl pr hl
        unfold boxSub at hsubl
        simp only [nodeX, nodeY, nodeW, nodeH] at b1 b2 b3 b4 b5 b6 b7 b8 hsubl ⊢
        exact ⟨hne, by omega, by omega, by omega, by omega,
          by omega, by omega, by omega, by omega⟩
      · obtain ⟨hne, b1, b2, b3, b4, b5, b6, b7, b8⟩ := pairs_ok rn htbr pr hr
        unfold boxSub at hsubr
        simp only [nodeX, nodeY, nodeW, nodeH] at b1 b2 b3 b4 b5 b6 b7 b8 hsubr ⊢
        exact ⟨hne, by omega, by omega, by omega, by omega,
          by omega, by omega, by omega, by omega⟩

end RoomDisjointness

/-- Every sibling representative pair of the tree built by the split and
room-creation phases of `generate` has distinct centres, both lying inside
the `w` by `h` map rectangle. -/
theorem pairs_bounds (w h minS maxS : Nat) (g : Rng)
    (root2 : BSPNode) (rooms0 : List Room) (g2 : Rng)
    (hcollect : collect_rooms_in_node minS maxS
        (split_node minS 5 (BSPNode.mk 0 0 w h none none none) g).1
        (split_node minS 5 (BSPNode.mk 0 0 w h none none none) g).2
      = some (root2, rooms0, g2)) :
    ∀ pr ∈ siblingRepPairs root2, pr.1 ≠ pr.2 ∧
      pr.1.x < w ∧ pr.1.y < h ∧ pr.2.x < w ∧ pr.2.y < h := by
  have htb0 := split_node_boxed minS 5 0 0 w h g
  obtain ⟨htb2, hx2, hy2, hw2, hh2⟩ :=
    collect_good minS maxS _ _ _ hcollect htb0
  obtain ⟨l, r, hshape⟩ := split_node_shape minS 5 0 0 w h g
  intro pr hpr
  obtain ⟨hne, c1, c2, c3, c4, c5, c6, c7, c8⟩ := pairs_ok root2 htb2 pr hpr
  rw [hshape] at hx2 hy2 hw2 hh2
  simp only [nodeX, nodeY, nodeW, nodeH] at hx2 hy2 hw2 hh2 c1 c2 c3 c4 c5 c6 c7 c8
  exact ⟨hne, by omega, by omega, by omega, by omega⟩

/-- C5 (amended): in `generate`'s pipeline, immediately after the post-order
corridor phase `connect_rooms_bsp` (and before the door pass), every pair of
sibling representative rooms joined at a BSP internal node is joined by a
path of `Floor` cells from the left centre to a cell 4-adjacent to the right
centre; the centres of such a pair are always distinct and in bounds, by the
geometry of the split tree.  The original claim about the completed
`generate` is false: room population runs before corridor carving and may
place a non-Floor, non-walkable tile (an Obelisk) on a centre, the drunken
walk never carves its end cell, and the later door pass may overwrite
corridor Floor cells (counterexample `corridor_connectivity_cex`). -/
theorem corridor_connectivity_amended (w h minS maxS : Nat) (g : Rng)
    (root2 : BSPNode) (rooms0 : List Room) (g2 : Rng)
    (hcollect : collect_rooms_in_node minS maxS
        (split_node minS 5 (BSPNode.mk 0 0 w h none none none) g).1
        (split_node minS 5 (BSPNode.mk 0 0 w h none none none) g).2
      = some (root2, rooms0, g2)) :
    ∀ pr ∈ siblingRepPairs root2,
      ∃ p : Point, l1dist p pr.2 = 1 ∧
        FloorPath (connect_rooms_bsp w h root2
          ((populate_all (mkEmptyGrid w h) rooms0 g2).1,
           (populate_all (mkEmptyGrid w h) rooms0 g2).2.2)).1 pr.1 p :=
  connect_paths w h root2 _ _
    (populate_all_rect w h (mkEmptyGrid w h) rooms0 g2 (mkEmptyGrid_rect w h))
    (pairs_bounds w h minS maxS g root2 rooms0 g2 hcollect)

set_option maxRecDepth 10000 in
/-- C5 witness: the amended theorem applied to the concrete `cexRng` run of
`generate 18 9 5 20`, its hypothesis discharged on that input by `rfl`. -/
theorem corridor_connectivity_amended_witness :
    (collect_rooms_in_node 5 20
        (split_node 5 5 (BSPNode.mk 0 0 18 9 none none none) cexRng).1
        (split_node 5 5 (BSPNode.mk 0 0 18 9 none none none) cexRng).2
      = some (cexTree, cexRooms0, cexG2)) ∧
    (∀ pr ∈ siblingRepPairs cexTree,
      ∃ p : Point, l1dist p pr.2 = 1 ∧
        FloorPath (connect_rooms_bsp 18 9 cexTree
          ((populate_all (mkEmptyGrid 18 9) cexRooms0 cexG2).1,
           (populate_all (mkEmptyGrid 18 9) cexRooms0 cexG2).2.2)).1 pr.1 p) :=
  ⟨rfl, corridor_connectivity_amended 18 9 5 20 cexRng cexTree cexRooms0 cexG2 rfl⟩
